import Mathlib

/-!
Shallow embedding of `src/list.hpp` (namespace `sjtu`, class `list<T>`):
a doubly-linked list with two raw-allocated sentinel nodes (`head`, `tail`)
that never hold a constructed value, a size counter, iterators carrying a
(node, container) pair, and the list algorithms `sort`, `merge`, `reverse`,
`unique`.

Pointers are modelled as `Nat` addresses with `0` playing the role of
`nullptr`; the heap is a partial map from addresses to nodes.  A node's
`data` field is `Option V`: sentinels (whose storage is allocated with
`operator new` without running `T`'s constructor) hold `none`, value nodes
hold `some v`.  Each C++ member function is translated statement by
statement; reading through a dangling or null pointer (undefined behaviour
in C++) yields the fields of a junk default node, which never happens in
the well-formed states the theorems quantify over.
-/

namespace SjtuList

/-- One list node: `T data; node *prev; node *next;`.  `data = none`
models a sentinel whose value was never constructed. -/
structure Node (V : Type) where
  data : Option V
  prev : Nat
  next : Nat
deriving Repr, DecidableEq

/-- The heap: partial map from addresses to nodes, plus the next fresh
address.  Address `0` is reserved for `nullptr`, so allocation starts at 1. -/
structure Heap (V : Type) where
  mem : Nat → Option (Node V)
  nextAlloc : Nat

/-- The empty heap. -/
def emptyHeap (V : Type) : Heap V := ⟨fun _ => none, 1⟩

/-- Dereference: `*p`.  A dangling or null read returns a junk node
(undefined behaviour in the C++ source; unreachable in well-formed states). -/
def Heap.get (h : Heap V) (i : Nat) : Node V := (h.mem i).getD ⟨none, 0, 0⟩

/-- Store a whole node at address `i`. -/
def Heap.set (h : Heap V) (i : Nat) (n : Node V) : Heap V :=
  ⟨fun j => if j = i then some n else h.mem j, h.nextAlloc⟩

/-- `delete p` / `operator delete(p)`: remove the node from the heap. -/
def Heap.free (h : Heap V) (i : Nat) : Heap V :=
  ⟨fun j => if j = i then none else h.mem j, h.nextAlloc⟩

/-- `new node(...)` / `operator new(sizeof(node))`: allocate a fresh
address holding `n` and return it. -/
def Heap.alloc (h : Heap V) (n : Node V) : Nat × Heap V :=
  (h.nextAlloc, ⟨fun j => if j = h.nextAlloc then some n else h.mem j, h.nextAlloc + 1⟩)

/-- The container's own fields: `node *head; node *tail; size_t list_size;`. -/
structure ListHandle where
  head : Nat
  tail : Nat
  list_size : Nat
deriving Repr, DecidableEq

/-- The two exception kinds of the source (`invalid_iterator`,
`container_is_empty`). -/
inductive Err where
  | invalidIterator
  | containerIsEmpty
deriving Repr, DecidableEq

/-- `list::iterator`: a cursor `node *current` plus the owning container's
identity `const list *container` (containers are identified by a `Nat` id). -/
structure Iter where
  current : Nat
  container : Nat
deriving Repr, DecidableEq

/-- `list::const_iterator`: same fields as `iterator`. -/
structure CIter where
  current : Nat
  container : Nat
deriving Repr, DecidableEq

/-- `const_iterator(const iterator &it)`: conversion keeps the node and
container. -/
def CIter.ofIter (it : Iter) : CIter := ⟨it.current, it.container⟩

namespace list

/-- Default constructor `list()`: allocate both sentinels raw (no `T`
constructed), link `head → tail`, size 0. -/
def listNew (h : Heap V) : Heap V × ListHandle :=
  let (hd, h) := h.alloc ⟨none, 0, 0⟩
  let (tl, h) := h.alloc ⟨none, 0, 0⟩
  let h := h.set hd ⟨none, 0, tl⟩
  let h := h.set tl ⟨none, hd, 0⟩
  (h, ⟨hd, tl, 0⟩)

/-- Protected `node *insert(node *pos, node *cur)`: link `cur` before
`pos` and increment `list_size`.  Each C++ statement in order. -/
def insertNode (h : Heap V) (L : ListHandle) (pos cur : Nat) : Heap V × ListHandle :=
  let h := h.set cur { h.get cur with prev := (h.get pos).prev }
  let h := h.set cur { h.get cur with next := pos }
  let pp := (h.get pos).prev
  let h := h.set pp { h.get pp with next := cur }
  let h := h.set pos { h.get pos with prev := cur }
  (h, { L with list_size := L.list_size + 1 })

/-- Protected `node *erase(node *pos)`: unlink `pos` (its own fields are
left untouched) and decrement `list_size`. -/
def eraseNode (h : Heap V) (L : ListHandle) (pos : Nat) : Heap V × ListHandle :=
  let pp := (h.get pos).prev
  let h := h.set pp { h.get pp with next := (h.get pos).next }
  let pn := (h.get pos).next
  let h := h.set pn { h.get pn with prev := (h.get pos).prev }
  (h, { L with list_size := L.list_size - 1 })

/-- `bool empty() const`. -/
def empty (L : ListHandle) : Bool := L.list_size = 0

/-- `size_t size() const`. -/
def size (L : ListHandle) : Nat := L.list_size

/-- `iterator begin()`: `iterator(head->next, this)`. -/
def begin (h : Heap V) (L : ListHandle) (self : Nat) : Iter :=
  ⟨(h.get L.head).next, self⟩

/-- `iterator end()`: `iterator(tail, this)`. -/
def endIt (L : ListHandle) (self : Nat) : Iter := ⟨L.tail, self⟩

/-- `const T &front() const`: empty check, then `head->next->data`. -/
def front (h : Heap V) (L : ListHandle) : Except Err (Option V) × Heap V × ListHandle :=
  if empty L then (.error .containerIsEmpty, h, L)
  else (.ok (h.get (h.get L.head).next).data, h, L)

/-- `const T &back() const`: empty check, then `tail->prev->data`. -/
def back (h : Heap V) (L : ListHandle) : Except Err (Option V) × Heap V × ListHandle :=
  if empty L then (.error .containerIsEmpty, h, L)
  else (.ok (h.get (h.get L.tail).prev).data, h, L)

/-- `void push_back(const T &value)`: `insert(tail, new node(value))`. -/
def push_back (h : Heap V) (L : ListHandle) (value : V) : Heap V × ListHandle :=
  let (newNode, h) := h.alloc ⟨some value, 0, 0⟩
  insertNode h L L.tail newNode

/-- `void push_front(const T &value)`: `insert(head->next, new node(value))`. -/
def push_front (h : Heap V) (L : ListHandle) (value : V) : Heap V × ListHandle :=
  let (newNode, h) := h.alloc ⟨some value, 0, 0⟩
  insertNode h L (h.get L.head).next newNode

/-- `void pop_back()`: empty check, then unlink and delete `tail->prev`. -/
def pop_back (h : Heap V) (L : ListHandle) : Except Err Unit × Heap V × ListHandle :=
  if empty L then (.error .containerIsEmpty, h, L)
  else
    let lastNode := (h.get L.tail).prev
    let (h, L) := eraseNode h L lastNode
    (.ok (), h.free lastNode, L)

/-- `void pop_front()`: empty check, then unlink and delete `head->next`. -/
def pop_front (h : Heap V) (L : ListHandle) : Except Err Unit × Heap V × ListHandle :=
  if empty L then (.error .containerIsEmpty, h, L)
  else
    let firstNode := (h.get L.head).next
    let (h, L) := eraseNode h L firstNode
    (.ok (), h.free firstNode, L)

/-- The loop body count of `clear()`: pop the front `fuel` times or until
empty.  (`while (!empty()) pop_front();` with fuel `list_size`.) -/
def clearAux : Nat → Heap V → ListHandle → Heap V × ListHandle
  | 0, h, L => (h, L)
  | fuel + 1, h, L =>
    if empty L then (h, L)
    else
      let (_, h, L) := pop_front h L
      clearAux fuel h L

/-- `void clear()`: pop front until empty (each pop decrements the size,
so `list_size` steps always suffice). -/
def clear (h : Heap V) (L : ListHandle) : Heap V × ListHandle :=
  clearAux L.list_size h L

/-- Public `iterator insert(iterator pos, const T &value)`: container
identity check, then allocate and link before `pos`. -/
def insert (h : Heap V) (self : Nat) (L : ListHandle) (pos : Iter) (value : V) :
    Except Err Iter × Heap V × ListHandle :=
  if pos.container ≠ self then (.error .invalidIterator, h, L)
  else
    let (newNode, h) := h.alloc ⟨some value, 0, 0⟩
    let (h, L) := insertNode h L pos.current newNode
    (.ok ⟨newNode, self⟩, h, L)

/-- Public `iterator erase(iterator pos)`: empty check first, then
container identity and `pos == end()` (node-identity comparison with
`tail`), then unlink, delete, and return the old successor. -/
def erase (h : Heap V) (self : Nat) (L : ListHandle) (pos : Iter) :
    Except Err Iter × Heap V × ListHandle :=
  if empty L then (.error .containerIsEmpty, h, L)
  else if pos.container ≠ self ∨ pos.current = L.tail then (.error .invalidIterator, h, L)
  else
    let posNode := pos.current
    let nextNode := (h.get posNode).next
    let (h, L) := eraseNode h L posNode
    (.ok ⟨nextNode, self⟩, h.free posNode, L)

/-- `other_ptr->data < this_ptr->data` on stored `Option V` data: both
must be constructed values (always true in well-formed states). -/
def ltData [LT V] [DecidableRel (α := V) (· < ·)] : Option V → Option V → Bool
  | some a, some b => decide (a < b)
  | _, _ => false

/-- `*it == *next_it` on stored `Option V` data. -/
def eqData [DecidableEq V] : Option V → Option V → Bool
  | some a, some b => decide (a = b)
  | _, _ => false

/-- The first `while` loop of `merge`: two cursors, move `other`'s node
when strictly less, otherwise advance `this_ptr`.  Returns the state and
both cursors.  The fuel bounds the iteration count (each step either
advances `this_ptr` toward `tail` or removes a node from `other`, so
`sizeA + sizeB` steps always suffice in well-formed states). -/
def mergeLoop [LT V] [DecidableRel (α := V) (· < ·)] :
    Nat → Heap V → ListHandle → ListHandle → Nat → Nat →
      Heap V × ListHandle × ListHandle × Nat × Nat
  | 0, h, LA, LB, thisPtr, otherPtr => (h, LA, LB, thisPtr, otherPtr)
  | fuel + 1, h, LA, LB, thisPtr, otherPtr =>
    if thisPtr ≠ LA.tail ∧ otherPtr ≠ LB.tail then
      if ltData (h.get otherPtr).data (h.get thisPtr).data then
        let nextOther := (h.get otherPtr).next
        let (h, LB) := eraseNode h LB otherPtr
        let (h, LA) := insertNode h LA thisPtr otherPtr
        mergeLoop fuel h LA LB thisPtr nextOther
      else
        mergeLoop fuel h LA LB ((h.get thisPtr).next) otherPtr
    else (h, LA, LB, thisPtr, otherPtr)

/-- The second `while` loop of `merge`: drain the remaining `other`
nodes, appending each before `tail`. -/
def mergeDrain :
    Nat → Heap V → ListHandle → ListHandle → Nat →
      Heap V × ListHandle × ListHandle
  | 0, h, LA, LB, _ => (h, LA, LB)
  | fuel + 1, h, LA, LB, otherPtr =>
    if otherPtr ≠ LB.tail then
      let nextOther := (h.get otherPtr).next
      let (h, LB) := eraseNode h LB otherPtr
      let (h, LA) := insertNode h LA LA.tail otherPtr
      mergeDrain fuel h LA LB nextOther
    else (h, LA, LB)

/-- `void merge(list &other)`: self-merge check by container identity,
then the relinking loops. -/
def merge [LT V] [DecidableRel (α := V) (· < ·)]
    (h : Heap V) (selfId otherId : Nat) (LA LB : ListHandle) :
    Heap V × ListHandle × ListHandle :=
  if selfId = otherId then (h, LA, LB)
  else
    let (h, LA, LB, _, otherPtr) :=
      mergeLoop (LA.list_size + LB.list_size + 1) h LA LB
        ((h.get LA.head).next) ((h.get LB.head).next)
    mergeDrain (LB.list_size + 1) h LA LB otherPtr

/-- The `while (current != nullptr)` loop of `reverse`: swap `prev`/`next`
of the node under the cursor and step to the old `next`.  The walk visits
`head`, all value nodes, and `tail`, so `list_size + 3` fuel suffices. -/
def reverseLoop : Nat → Heap V → Nat → Heap V
  | 0, h, _ => h
  | fuel + 1, h, cur =>
    if cur = 0 then h
    else
      let temp := (h.get cur).next
      let h := h.set cur { h.get cur with next := (h.get cur).prev, prev := temp }
      reverseLoop fuel h temp

/-- `void reverse()`: no-op for `size ≤ 1`; otherwise swap links on every
node along the chain and swap `head` with `tail`. -/
def reverse (h : Heap V) (L : ListHandle) : Heap V × ListHandle :=
  if L.list_size ≤ 1 then (h, L)
  else
    let h := reverseLoop (L.list_size + 3) h L.head
    (h, { L with head := L.tail, tail := L.head })

/-- Walk the `next` links from `cur`, collecting addresses until `stop`
(or until the fuel runs out). -/
def traverse (h : Heap V) : Nat → Nat → Nat → List Nat
  | 0, _, _ => []
  | fuel + 1, cur, stop =>
    if cur = stop then [] else cur :: traverse h fuel ((h.get cur).next) stop

/-- Addresses of the value nodes of `L`, in iteration order (`begin()` to
`end()`). -/
def chainIds (h : Heap V) (L : ListHandle) : List Nat :=
  traverse h L.list_size ((h.get L.head).next) L.tail

/-- The sequence of stored values of `L`, in iteration order. -/
def vals (h : Heap V) (L : ListHandle) : List V :=
  (chainIds h L).filterMap fun i => (h.get i).data

/-- The write-back loop of `sort`: assign `*it = arr[i]` in list order. -/
def writeBack (h : Heap V) : List Nat → List V → Heap V
  | _, [] => h
  | [], _ :: _ => h
  | i :: is, v :: vs => writeBack (h.set i { h.get i with data := some v }) is vs

/-- `void sort()`: no-op for `size ≤ 1`; otherwise copy the values out to
a buffer, sort the buffer with the external collaborator `sortFn`
(`sjtu::sort` from `algorithm.hpp`, out of scope per the spec), and write
the sorted values back into the existing nodes in list order.  No node is
allocated or freed; links never change. -/
def sortOp (sortFn : List V → List V) (h : Heap V) (L : ListHandle) : Heap V :=
  if L.list_size ≤ 1 then h
  else writeBack h (chainIds h L) (sortFn (vals h L))

/-- The `while (next_it != end())` loop of `unique`: erase the successor
while it compares equal to the current element, otherwise advance both
cursors.  Each step either erases one node or advances, so `2 * size`
fuel suffices. -/
def uniqueLoop [DecidableEq V] (self : Nat) :
    Nat → Heap V → ListHandle → Iter → Iter → Heap V × ListHandle
  | 0, h, L, _, _ => (h, L)
  | fuel + 1, h, L, it, nextIt =>
    if nextIt.current ≠ L.tail then
      if eqData (h.get it.current).data (h.get nextIt.current).data then
        match erase h self L nextIt with
        | (.ok nextIt', h, L) => uniqueLoop self fuel h L it nextIt'
        | (.error _, h, L) => (h, L)
      else
        uniqueLoop self fuel h L ⟨(h.get it.current).next, self⟩
          ⟨(h.get nextIt.current).next, self⟩
    else (h, L)

/-- `void unique()`: no-op for `size ≤ 1`; otherwise run the adjacent-pair
loop starting from `begin()` and its successor. -/
def unique [DecidableEq V] (h : Heap V) (self : Nat) (L : ListHandle) :
    Heap V × ListHandle :=
  if L.list_size ≤ 1 then (h, L)
  else
    let it : Iter := ⟨(h.get L.head).next, self⟩
    let nextIt : Iter := ⟨(h.get it.current).next, self⟩
    uniqueLoop self (2 * L.list_size) h L it nextIt

/-- Append every value of `vs` with `push_back`, left to right. -/
def pushAll (h : Heap V) (L : ListHandle) : List V → Heap V × ListHandle
  | [] => (h, L)
  | v :: vs =>
    let (h, L) := push_back h L v
    pushAll h L vs

/-- Copy constructor `list(const list &other)`: fresh sentinels, then
`push_back(*it)` for each element of `other` in order. -/
def copyList (h : Heap V) (src : ListHandle) : Heap V × ListHandle :=
  let (h, L) := listNew h
  pushAll h L (vals h src)

/-- `list &operator=(const list &other)`: self-assignment check by
container identity, then `clear()` and re-`push_back` the source's
values. -/
def assign (h : Heap V) (selfId otherId : Nat) (Lself Lother : ListHandle) :
    Heap V × ListHandle :=
  if selfId = otherId then (h, Lself)
  else
    let (h, L) := clear h Lself
    pushAll h L (vals h Lother)

end list

namespace Iter

/-- `iterator operator++(int)`: invalid when unset or at the container's
`tail`; returns the old iterator and the advanced one. -/
def incPost (h : Heap V) (L : ListHandle) (it : Iter) : Except Err (Iter × Iter) :=
  if it.current = 0 ∨ it.current = L.tail then .error .invalidIterator
  else .ok (it, ⟨(h.get it.current).next, it.container⟩)

/-- `iterator &operator++()`. -/
def incPre (h : Heap V) (L : ListHandle) (it : Iter) : Except Err Iter :=
  if it.current = 0 ∨ it.current = L.tail then .error .invalidIterator
  else .ok ⟨(h.get it.current).next, it.container⟩

/-- `iterator operator--(int)`: invalid when unset or at `head->next`
(the first element); returns the old iterator and the retreated one. -/
def decPost (h : Heap V) (L : ListHandle) (it : Iter) : Except Err (Iter × Iter) :=
  if it.current = 0 ∨ it.current = (h.get L.head).next then .error .invalidIterator
  else .ok (it, ⟨(h.get it.current).prev, it.container⟩)

/-- `iterator &operator--()`. -/
def decPre (h : Heap V) (L : ListHandle) (it : Iter) : Except Err Iter :=
  if it.current = 0 ∨ it.current = (h.get L.head).next then .error .invalidIterator
  else .ok ⟨(h.get it.current).prev, it.container⟩

/-- `T &operator*() const`: invalid when unset or on either sentinel. -/
def deref (h : Heap V) (L : ListHandle) (it : Iter) : Except Err (Option V) :=
  if it.current = 0 ∨ it.current = L.head ∨ it.current = L.tail then .error .invalidIterator
  else .ok (h.get it.current).data

/-- `T *operator->() const`: same validity condition as dereference. -/
def arrow (h : Heap V) (L : ListHandle) (it : Iter) : Except Err (Option V) :=
  if it.current = 0 ∨ it.current = L.head ∨ it.current = L.tail then .error .invalidIterator
  else .ok (h.get it.current).data

/-- `operator==`: node identity only. -/
def eq (a b : Iter) : Bool := a.current = b.current

end Iter

namespace CIter

/-- `const_iterator operator++(int)`. -/
def incPost (h : Heap V) (L : ListHandle) (it : CIter) : Except Err (CIter × CIter) :=
  if it.current = 0 ∨ it.current = L.tail then .error .invalidIterator
  else .ok (it, ⟨(h.get it.current).next, it.container⟩)

/-- `const_iterator &operator++()`. -/
def incPre (h : Heap V) (L : ListHandle) (it : CIter) : Except Err CIter :=
  if it.current = 0 ∨ it.current = L.tail then .error .invalidIterator
  else .ok ⟨(h.get it.current).next, it.container⟩

/-- `const_iterator operator--(int)`. -/
def decPost (h : Heap V) (L : ListHandle) (it : CIter) : Except Err (CIter × CIter) :=
  if it.current = 0 ∨ it.current = (h.get L.head).next then .error .invalidIterator
  else .ok (it, ⟨(h.get it.current).prev, it.container⟩)

/-- `const_iterator &operator--()`. -/
def decPre (h : Heap V) (L : ListHandle) (it : CIter) : Except Err CIter :=
  if it.current = 0 ∨ it.current = (h.get L.head).next then .error .invalidIterator
  else .ok ⟨(h.get it.current).prev, it.container⟩

/-- `const T &operator*() const`. -/
def deref (h : Heap V) (L : ListHandle) (it : CIter) : Except Err (Option V) :=
  if it.current = 0 ∨ it.current = L.head ∨ it.current = L.tail then .error .invalidIterator
  else .ok (h.get it.current).data

/-- `const T *operator->() const`. -/
def arrow (h : Heap V) (L : ListHandle) (it : CIter) : Except Err (Option V) :=
  if it.current = 0 ∨ it.current = L.head ∨ it.current = L.tail then .error .invalidIterator
  else .ok (h.get it.current).data

end CIter

/-! ## Well-formedness: the container invariant of the spec (§3)

A well-formed container is described by the list `chain` of its value-node
addresses in order: the full pointer chain is
`head :: chain ++ [tail]`, consecutively doubly linked, with
`head.prev = null`, `tail.next = null`, unconstructed sentinel data,
constructed value data, all addresses allocated, nonzero, below the
allocation bound, pairwise distinct, and `list_size = chain.length`. -/

/-- The doubly-linked adjacency relation: `a.next = b` and `b.prev = a`. -/
def adjOk (h : Heap V) (a b : Nat) : Prop :=
  (h.get a).next = b ∧ (h.get b).prev = a

instance (h : Heap V) (a b : Nat) : Decidable (adjOk h a b) :=
  inferInstanceAs (Decidable (_ ∧ _))

/-- The full node chain of a container: head sentinel, value nodes, tail
sentinel. -/
def full (L : ListHandle) (chain : List Nat) : List Nat :=
  L.head :: (chain ++ [L.tail])

/-- `isPath h s l t`: starting at `s`, the nodes `l` followed by `t` are
consecutively doubly linked. -/
def isPath (h : Heap V) : Nat → List Nat → Nat → Prop
  | s, [], t => adjOk h s t
  | s, a :: l, t => adjOk h s a ∧ isPath h a l t

/-- The container invariant (spec §3), relative to the ordered list of
value-node addresses `chain`. -/
structure Wf (h : Heap V) (L : ListHandle) (chain : List Nat) : Prop where
  nodup : (full L chain).Nodup
  bounds : ∀ i ∈ full L chain, 0 < i ∧ i < h.nextAlloc
  allocd : ∀ i ∈ full L chain, (h.mem i).isSome
  headPrev : (h.get L.head).prev = 0
  tailNext : (h.get L.tail).next = 0
  headData : (h.get L.head).data = none
  tailData : (h.get L.tail).data = none
  valData : ∀ i ∈ chain, ((h.get i).data).isSome
  links : isPath h L.head chain L.tail
  sizeEq : L.list_size = chain.length

/-- Executable doubly-linked path check. -/
def pathOkB (h : Heap V) : Nat → List Nat → Nat → Bool
  | s, [], t => (h.get s).next = t && ((h.get t).prev = s : Bool)
  | s, a :: l, t => ((h.get s).next = a && ((h.get a).prev = s : Bool)) && pathOkB h a l t

/-- Executable check of the container invariant, for concrete states. -/
def wfCheck (h : Heap V) (L : ListHandle) (chain : List Nat) : Bool :=
  (full L chain).Nodup &&
  (full L chain).all (fun i => 0 < i && i < h.nextAlloc) &&
  (full L chain).all (fun i => (h.mem i).isSome) &&
  ((h.get L.head).prev = 0 : Bool) &&
  ((h.get L.tail).next = 0 : Bool) &&
  (h.get L.head).data.isNone &&
  (h.get L.tail).data.isNone &&
  chain.all (fun i => ((h.get i).data).isSome) &&
  pathOkB h L.head chain L.tail &&
  (L.list_size = chain.length : Bool)

theorem pathOkB_sound (h : Heap V) :
    ∀ (l : List Nat) (s t : Nat), pathOkB h s l t = true → isPath h s l t := by
  intro l
  induction l with
  | nil =>
    intro s t hl
    simp only [pathOkB, Bool.and_eq_true, decide_eq_true_eq] at hl
    exact ⟨hl.1, hl.2⟩
  | cons a l2 ih =>
    intro s t hl
    simp only [pathOkB, Bool.and_eq_true, decide_eq_true_eq] at hl
    exact ⟨⟨hl.1.1, hl.1.2⟩, ih a t hl.2⟩

theorem wfCheck_sound (h : Heap V) (L : ListHandle) (chain : List Nat)
    (hc : wfCheck h L chain = true) : Wf h L chain := by
  simp only [wfCheck, Bool.and_eq_true, List.all_eq_true, decide_eq_true_eq,
    List.nodup_iff_sublist, Option.isNone_iff_eq_none] at hc
  obtain ⟨⟨⟨⟨⟨⟨⟨⟨⟨h1, h2⟩, h3⟩, h4⟩, h5⟩, h6⟩, h7⟩, h8⟩, h9⟩, h10⟩ := hc
  refine ⟨?_, ?_, h3, h4, h5, h6, h7, h8, pathOkB_sound h _ _ _ h9, h10⟩
  · exact List.nodup_iff_sublist.mpr h1
  · intro i hi
    have := h2 i hi
    exact ⟨this.1, this.2⟩

/-! ## Basic heap lemmas -/

@[simp] theorem get_set_same (h : Heap V) (i : Nat) (n : Node V) :
    (h.set i n).get i = n := by
  simp [Heap.get, Heap.set]

theorem get_set_ne (h : Heap V) {i j : Nat} (n : Node V) (hij : j ≠ i) :
    (h.set i n).get j = h.get j := by
  simp [Heap.get, Heap.set, hij]

theorem mem_set_ne (h : Heap V) {i j : Nat} (n : Node V) (hij : j ≠ i) :
    (h.set i n).mem j = h.mem j := by
  simp [Heap.set, hij]

@[simp] theorem mem_set_same (h : Heap V) (i : Nat) (n : Node V) :
    (h.set i n).mem i = some n := by
  simp [Heap.set]

@[simp] theorem nextAlloc_set (h : Heap V) (i : Nat) (n : Node V) :
    (h.set i n).nextAlloc = h.nextAlloc := rfl

theorem mem_free_ne (h : Heap V) {i j : Nat} (hij : j ≠ i) :
    (h.free i).mem j = h.mem j := by
  simp [Heap.free, hij]

theorem get_free_ne (h : Heap V) {i j : Nat} (hij : j ≠ i) :
    (h.free i).get j = h.get j := by
  simp [Heap.get, Heap.free, hij]

@[simp] theorem nextAlloc_free (h : Heap V) (i : Nat) :
    (h.free i).nextAlloc = h.nextAlloc := rfl

theorem get_congr_of_mem {h h' : Heap V} {i : Nat} (hm : h.mem i = h'.mem i) :
    h.get i = h'.get i := by
  simp [Heap.get, hm]

@[simp] theorem alloc_fst (h : Heap V) (n : Node V) : (h.alloc n).1 = h.nextAlloc := rfl

@[simp] theorem mem_alloc_same (h : Heap V) (n : Node V) :
    (h.alloc n).2.mem h.nextAlloc = some n := by
  simp [Heap.alloc]

theorem mem_alloc_ne (h : Heap V) (n : Node V) {j : Nat} (hj : j ≠ h.nextAlloc) :
    (h.alloc n).2.mem j = h.mem j := by
  simp [Heap.alloc, hj]

theorem get_alloc_ne (h : Heap V) (n : Node V) {j : Nat} (hj : j ≠ h.nextAlloc) :
    (h.alloc n).2.get j = h.get j := by
  simp [Heap.get, Heap.alloc, hj]

@[simp] theorem nextAlloc_alloc (h : Heap V) (n : Node V) :
    (h.alloc n).2.nextAlloc = h.nextAlloc + 1 := rfl

/-! ## Path lemmas -/

/-- Transfer a path between heaps that agree on the `next` field of every
source node and the `prev` field of every target node along the path. -/
theorem isPath_transfer {h h' : Heap V} :
    ∀ (l : List Nat) (s t : Nat), isPath h s l t →
      (∀ i ∈ s :: l, (h'.get i).next = (h.get i).next) →
      (∀ i ∈ l ++ [t], (h'.get i).prev = (h.get i).prev) →
      isPath h' s l t := by
  intro l
  induction l with
  | nil =>
    intro s t hp hn hpr
    exact ⟨(hn s (by simp)).trans hp.1, (hpr t (by simp)).trans hp.2⟩
  | cons a l2 ih =>
    intro s t hp hn hpr
    refine ⟨⟨(hn s (by simp)).trans hp.1.1, (hpr a (by simp)).trans hp.1.2⟩, ?_⟩
    refine ih a t hp.2 ?_ ?_
    · intro i hi; exact hn i (by simp at hi ⊢; tauto)
    · intro i hi; exact hpr i (by simp at hi ⊢; tauto)

/-- The glue adjacency across a split of a path: the last node of the
left part points at the first node of the right part, and back. -/
theorem isPath_split_adj {h : Heap V} :
    ∀ (c1 : List Nat) (s : Nat) (c2 : List Nat) (t : Nat),
      isPath h s (c1 ++ c2) t → adjOk h (c1.getLastD s) (c2.headD t) := by
  intro c1
  induction c1 with
  | nil =>
    intro s c2 t hp
    cases c2 with
    | nil => exact hp
    | cons y c2b => exact hp.1
  | cons a c1b ih =>
    intro s c2 t hp
    simp only [List.cons_append] at hp
    rw [List.getLastD_cons]
    exact ih a c2 t hp.2

/-- Split a path at an interior node. -/
theorem isPath_append_mid {h : Heap V} :
    ∀ (c1 : List Nat) (s x : Nat) (c2 : List Nat) (t : Nat),
      isPath h s (c1 ++ x :: c2) t → isPath h s c1 x ∧ isPath h x c2 t := by
  intro c1
  induction c1 with
  | nil => intro s x c2 t hp; exact ⟨hp.1, hp.2⟩
  | cons a c1b ih =>
    intro s x c2 t hp
    simp only [List.cons_append] at hp
    obtain ⟨h1, h2⟩ := ih a x c2 t hp.2
    exact ⟨⟨hp.1, h1⟩, h2⟩

/-- A heap that agrees on every address of the full chain (and has at
least the same allocation bound) satisfies the same invariant. -/
theorem wf_congr {h h' : Heap V} {L : ListHandle} {chain : List Nat}
    (W : Wf h L chain)
    (hmem : ∀ i ∈ full L chain, h'.mem i = h.mem i)
    (hna : h.nextAlloc ≤ h'.nextAlloc) : Wf h' L chain := by
  have hget : ∀ i ∈ full L chain, h'.get i = h.get i := by
    intro i hi; simp [Heap.get, hmem i hi]
  have hhead : L.head ∈ full L chain := by simp [full]
  have htail : L.tail ∈ full L chain := by simp [full]
  refine ⟨W.nodup, ?_, ?_, ?_, ?_, ?_, ?_, ?_, ?_, W.sizeEq⟩
  · intro i hi; exact ⟨(W.bounds i hi).1, lt_of_lt_of_le (W.bounds i hi).2 hna⟩
  · intro i hi; rw [hmem i hi]; exact W.allocd i hi
  · rw [hget _ hhead]; exact W.headPrev
  · rw [hget _ htail]; exact W.tailNext
  · rw [hget _ hhead]; exact W.headData
  · rw [hget _ htail]; exact W.tailData
  · intro i hi; rw [hget i (by simp [full, hi])]; exact W.valData i hi
  · refine isPath_transfer chain L.head L.tail W.links ?_ ?_
    · intro i hi
      rw [hget i (by simp only [full, List.mem_cons, List.mem_append] at hi ⊢; tauto)]
    · intro i hi
      rw [hget i (by simp only [full, List.mem_cons, List.mem_append] at hi ⊢; tauto)]

/-- Freeing an address outside the chain preserves the invariant. -/
theorem wf_free {h : Heap V} {L : ListHandle} {chain : List Nat}
    (W : Wf h L chain) {x : Nat} (hx : x ∉ full L chain) :
    Wf (h.free x) L chain := by
  refine wf_congr W ?_ le_rfl
  intro i hi
  exact mem_free_ne h (fun hix => hx (hix ▸ hi))

/-- Traversal along `next` links recovers the chain: `fuel` many steps
from the successor of `s`, stopping at `t`. -/
theorem traverse_of_links (h : Heap V) :
    ∀ (l : List Nat) (s t : Nat), isPath h s l t →
      t ∉ l → list.traverse h l.length ((h.get s).next) t = l := by
  intro l
  induction l with
  | nil => intro s t _ _; rfl
  | cons a t2 ih =>
    intro s t hp ht
    have hat : a ≠ t := fun hh => ht (by simp [hh])
    simp only [List.length_cons, list.traverse, hp.1.1, if_neg hat]
    congr 1
    exact ih a t hp.2 (fun hh => ht (List.mem_cons_of_mem _ hh))

/-- Under the invariant, `chainIds` computes the chain. -/
theorem chainIds_eq {h : Heap V} {L : ListHandle} {chain : List Nat}
    (W : Wf h L chain) : list.chainIds h L = chain := by
  have h2 : (chain ++ [L.tail]).Nodup := (List.nodup_cons.mp W.nodup).2
  have disj := (List.nodup_append.mp h2).2.2
  have ht : L.tail ∉ chain := fun hh => disj hh (by simp)
  rw [list.chainIds, W.sizeEq]
  exact traverse_of_links h chain L.head L.tail W.links ht

/-- Under the invariant, `vals` is the data of the chain nodes. -/
theorem vals_eq {h : Heap V} {L : ListHandle} {chain : List Nat}
    (W : Wf h L chain) :
    list.vals h L = chain.filterMap (fun i => (h.get i).data) := by
  rw [list.vals, chainIds_eq W]

/-- Filtering out the data of nodes that all hold constructed values
keeps the length. -/
theorem filterMap_data_length (h : Heap V) :
    ∀ chain : List Nat, (∀ i ∈ chain, ((h.get i).data).isSome) →
      (chain.filterMap (fun i => (h.get i).data)).length = chain.length := by
  intro chain
  induction chain with
  | nil => intro _; rfl
  | cons a t ih =>
    intro hs
    obtain ⟨v, hv⟩ := Option.isSome_iff_exists.mp (hs a (by simp))
    simp only [List.filterMap_cons, hv, List.length_cons]
    rw [ih (fun i hi => hs i (by simp [hi]))]

/-- Under the invariant, `vals` has exactly `chain.length` elements. -/
theorem vals_length {h : Heap V} {L : ListHandle} {chain : List Nat}
    (W : Wf h L chain) : (list.vals h L).length = chain.length := by
  rw [vals_eq W]
  exact filterMap_data_length h chain W.valData

theorem headD_mem_cons (l : List Nat) (d : Nat) : l.headD d ∈ d :: l := by
  cases l <;> simp

/-- Linking `cur` between `pp` and `pos` extends a path: the heap-level
effect of `insert(pos, cur)` on the links, abstracted as field maps. -/
theorem isPath_insert {h h' : Heap V} {cur pp pos : Nat}
    (hn : ∀ i, (h'.get i).next = if i = pp then cur else if i = cur then pos else (h.get i).next)
    (hpv : ∀ i, (h'.get i).prev = if i = pos then cur else if i = cur then pp else (h.get i).prev) :
    ∀ (c1 : List Nat) (s : Nat) (c2 : List Nat) (t : Nat),
      isPath h s (c1 ++ c2) t →
      (s :: (c1 ++ c2) ++ [t]).Nodup →
      cur ∉ s :: (c1 ++ c2) ++ [t] →
      pp = c1.getLastD s →
      pos = c2.headD t →
      isPath h' s (c1 ++ cur :: c2) t := by
  intro c1
  induction c1 with
  | nil =>
    intro s c2 t hp hnd hcur hpp hpos
    simp only [List.nil_append, List.cons_append] at hp hnd hcur ⊢
    simp only [List.getLastD_nil] at hpp
    have hcs : cur ≠ s := by simp at hcur; tauto
    have hcpos : cur ≠ pos := by
      intro hh
      have hm := headD_mem_cons c2 t
      rw [← hpos, ← hh] at hm
      simp at hcur hm
      tauto
    refine ⟨⟨?_, ?_⟩, ?_⟩
    · rw [hn s, if_pos hpp.symm]
    · rw [hpv cur, if_neg hcpos, if_pos rfl, hpp]
    · cases c2 with
      | nil =>
        simp only [List.headD_nil] at hpos
        refine ⟨?_, ?_⟩
        · rw [hn cur, if_neg (hpp ▸ hcs), if_pos rfl, hpos]
        · rw [hpv t, if_pos hpos.symm]
      | cons y c2b =>
        simp only [List.headD_cons] at hpos
        refine ⟨⟨?_, ?_⟩, ?_⟩
        · rw [hn cur, if_neg (hpp ▸ hcs), if_pos rfl, hpos]
        · rw [hpv y, if_pos hpos.symm]
        · refine isPath_transfer c2b y t hp.2 ?_ ?_
          · intro i hi
            have h1 : i ≠ pp := by
              rw [hpp]; intro hh; rw [hh] at hi; simp at hnd hi; tauto
            have h2 : i ≠ cur := by
              intro hh; rw [hh] at hi; simp at hcur hi; tauto
            rw [hn i, if_neg h1, if_neg h2]
          · intro i hi
            have h1 : i ≠ pos := by
              rw [hpos]; intro hh; rw [hh] at hi; simp at hnd hi; tauto
            have h2 : i ≠ cur := by
              intro hh; rw [hh] at hi; simp at hcur hi; tauto
            rw [hpv i, if_neg h1, if_neg h2]
  | cons a c1b ih =>
    intro s c2 t hp hnd hcur hpp hpos
    simp only [List.cons_append] at hp hnd hcur ⊢
    rw [List.getLastD_cons] at hpp
    have hppm : pp ∈ a :: c1b := by rw [hpp]; exact List.getLastD_mem_cons c1b a
    have hposm : pos ∈ t :: c2 := by rw [hpos]; exact headD_mem_cons c2 t
    have hsa : adjOk h' s a := by
      have hspp : s ≠ pp := by
        intro hh
        rw [← hh] at hppm
        simp at hnd hppm
        tauto
      have hscur : s ≠ cur := by simp at hcur; tauto
      have hapos : a ≠ pos := by
        intro hh
        rw [← hh] at hposm
        simp at hnd hposm
        tauto
      have hacur : a ≠ cur := by simp at hcur; tauto
      refine ⟨?_, ?_⟩
      · rw [hn s, if_neg hspp, if_neg hscur]; exact hp.1.1
      · rw [hpv a, if_neg hapos, if_neg hacur]; exact hp.1.2
    refine ⟨hsa, ?_⟩
    refine ih a c2 t hp.2 ?_ ?_ hpp hpos
    · simp at hnd ⊢; tauto
    · simp at hcur ⊢; tauto

/-- Unlinking `x` from between `pp` and `pn` contracts a path: the
heap-level effect of `erase(x)` on the links, abstracted as field maps. -/
theorem isPath_remove {h h' : Heap V} {x pp pn : Nat}
    (hn : ∀ i, (h'.get i).next = if i = pp then pn else (h.get i).next)
    (hpv : ∀ i, (h'.get i).prev = if i = pn then pp else (h.get i).prev) :
    ∀ (c1 : List Nat) (s : Nat) (c2 : List Nat) (t : Nat),
      isPath h s (c1 ++ x :: c2) t →
      (s :: (c1 ++ x :: c2) ++ [t]).Nodup →
      pp = c1.getLastD s →
      pn = c2.headD t →
      isPath h' s (c1 ++ c2) t := by
  intro c1
  induction c1 with
  | nil =>
    intro s c2 t hp hnd hpp hpn
    simp only [List.nil_append, List.cons_append] at hp hnd ⊢
    simp only [List.getLastD_nil] at hpp
    cases c2 with
    | nil =>
      simp only [List.headD_nil] at hpn
      refine ⟨?_, ?_⟩
      · rw [hn s, if_pos hpp.symm, hpn]
      · rw [hpv t, if_pos hpn.symm, hpp]
    | cons y c2b =>
      simp only [List.headD_cons] at hpn
      refine ⟨⟨?_, ?_⟩, ?_⟩
      · rw [hn s, if_pos hpp.symm, hpn]
      · rw [hpv y, if_pos hpn.symm, hpp]
      · refine isPath_transfer c2b y t hp.2.2 ?_ ?_
        · intro i hi
          have h1 : i ≠ pp := by
            rw [hpp]; intro hh; rw [hh] at hi; simp at hnd hi; tauto
          rw [hn i, if_neg h1]
        · intro i hi
          have h1 : i ≠ pn := by
            rw [hpn]; intro hh; rw [hh] at hi; simp at hnd hi; tauto
          rw [hpv i, if_neg h1]
  | cons a c1b ih =>
    intro s c2 t hp hnd hpp hpn
    simp only [List.cons_append] at hp hnd ⊢
    rw [List.getLastD_cons] at hpp
    have hppm : pp ∈ a :: c1b := by rw [hpp]; exact List.getLastD_mem_cons c1b a
    have hpnm : pn ∈ t :: c2 := by rw [hpn]; exact headD_mem_cons c2 t
    have hsa : adjOk h' s a := by
      have hspp : s ≠ pp := by
        intro hh
        rw [← hh] at hppm
        simp at hnd hppm
        tauto
      have hapn : a ≠ pn := by
        intro hh
        rw [← hh] at hpnm
        simp at hnd hpnm
        tauto
      refine ⟨?_, ?_⟩
      · rw [hn s, if_neg hspp]; exact hp.1.1
      · rw [hpv a, if_neg hapn]; exact hp.1.2
    refine ⟨hsa, ?_⟩
    refine ih a c2 t hp.2 ?_ hpp hpn
    simp at hnd ⊢; tauto

/-! ## Heap effect of the two splicing primitives -/

/-- The heap after `insert(pos, cur)`: `cur` is linked between
`pos->prev` and `pos`; only those three cells change, and no `data`
field changes. -/
theorem insertNode_fields (h : Heap V) (L : ListHandle) (pos cur : Nat)
    (hpc : pos ≠ cur) (hppc : (h.get pos).prev ≠ cur) (hppp : (h.get pos).prev ≠ pos) :
    (∀ i, ((list.insertNode h L pos cur).1.get i).next =
      if i = (h.get pos).prev then cur else if i = cur then pos else (h.get i).next) ∧
    (∀ i, ((list.insertNode h L pos cur).1.get i).prev =
      if i = pos then cur else if i = cur then (h.get pos).prev else (h.get i).prev) ∧
    (∀ i, ((list.insertNode h L pos cur).1.get i).data = (h.get i).data) ∧
    (∀ i, i ≠ cur → i ≠ pos → i ≠ (h.get pos).prev →
      (list.insertNode h L pos cur).1.mem i = h.mem i) ∧
    (∀ i, (h.mem i).isSome → ((list.insertNode h L pos cur).1.mem i).isSome) ∧
    ((list.insertNode h L pos cur).1.mem cur).isSome ∧
    (list.insertNode h L pos cur).1.nextAlloc = h.nextAlloc ∧
    (list.insertNode h L pos cur).2 = { L with list_size := L.list_size + 1 } := by
  have hcp : cur ≠ pos := fun hh => hpc hh.symm
  have hcpp : cur ≠ (h.get pos).prev := fun hh => hppc hh.symm
  have hppos : pos ≠ (h.get pos).prev := fun hh => hppp hh.symm
  refine ⟨?_, ?_, ?_, ?_, ?_, ?_, ?_, rfl⟩
  · intro i
    by_cases h1 : i = (h.get pos).prev
    · subst h1
      simp [list.insertNode, get_set_same, get_set_ne, hpc, hcp, hppc, hcpp, hppp, hppos]
    · by_cases h2 : i = cur
      · subst h2
        simp [list.insertNode, get_set_same, get_set_ne, hpc, hcp, hppc, hcpp, hppp, hppos]
      · by_cases h3 : i = pos
        · subst h3
          simp [list.insertNode, get_set_same, get_set_ne, hpc, hcp, hppc, hcpp, hppp,
            hppos, h1]
        · simp [list.insertNode, get_set_same, get_set_ne, hpc, hcp, hppc, hcpp, hppp,
            hppos, h1, h2, h3]
  · intro i
    by_cases h3 : i = pos
    · subst h3
      simp [list.insertNode, get_set_same, get_set_ne, hpc, hcp, hppc, hcpp, hppp, hppos]
    · by_cases h2 : i = cur
      · subst h2
        simp [list.insertNode, get_set_same, get_set_ne, hpc, hcp, hppc, hcpp, hppp, hppos]
      · by_cases h1 : i = (h.get pos).prev
        · subst h1
          simp [list.insertNode, get_set_same, get_set_ne, hpc, hcp, hppc, hcpp, hppp,
            hppos, h3]
        · simp [list.insertNode, get_set_same, get_set_ne, hpc, hcp, hppc, hcpp, hppp,
            hppos, h1, h2, h3]
  · intro i
    by_cases h1 : i = (h.get pos).prev
    · subst h1
      simp [list.insertNode, get_set_same, get_set_ne, hpc, hcp, hppc, hcpp, hppp, hppos]
    · by_cases h2 : i = cur
      · subst h2
        simp [list.insertNode, get_set_same, get_set_ne, hpc, hcp, hppc, hcpp, hppp, hppos]
      · by_cases h3 : i = pos
        · subst h3
          simp [list.insertNode, get_set_same, get_set_ne, hpc, hcp, hppc, hcpp, hppp, hppos]
        · simp [list.insertNode, get_set_same, get_set_ne, hpc, hcp, hppc, hcpp, hppp,
            hppos, h1, h2, h3]
  · intro i h2 h3 h1
    simp [list.insertNode, get_set_same, get_set_ne, mem_set_ne, hpc, hcp, hppc, hcpp,
      hppp, hppos, h1, h2, h3]
  · intro i hi
    by_cases h1 : i = (h.get pos).prev
    · subst h1
      simp [list.insertNode, get_set_same, get_set_ne, mem_set_same, mem_set_ne, hpc, hcp,
        hppc, hcpp, hppp, hppos]
    · by_cases h2 : i = cur
      · subst h2
        simp [list.insertNode, get_set_same, get_set_ne, mem_set_same, mem_set_ne, hpc,
          hcp, hppc, hcpp, hppp, hppos]
      · by_cases h3 : i = pos
        · subst h3
          simp [list.insertNode, get_set_same, get_set_ne, mem_set_same, mem_set_ne, hpc,
            hcp, hppc, hcpp, hppp, hppos]
        · simpa [list.insertNode, get_set_same, get_set_ne, mem_set_same, mem_set_ne, hpc,
            hcp, hppc, hcpp, hppp, hppos, h1, h2, h3] using hi
  · simp [list.insertNode, get_set_same, get_set_ne, mem_set_same, mem_set_ne, hpc, hcp,
      hppc, hcpp, hppp, hppos]
  · simp [list.insertNode]

/-- The heap after `erase(pos)`: `pos->prev` points over `pos` at
`pos->next` and back; only those two cells change, `pos`'s own cell is
untouched, and no `data` field changes. -/
theorem eraseNode_fields (h : Heap V) (L : ListHandle) (pos : Nat)
    (hppx : (h.get pos).prev ≠ pos) (hpnx : (h.get pos).next ≠ pos)
    (hppn : (h.get pos).prev ≠ (h.get pos).next) :
    (∀ i, ((list.eraseNode h L pos).1.get i).next =
      if i = (h.get pos).prev then (h.get pos).next else (h.get i).next) ∧
    (∀ i, ((list.eraseNode h L pos).1.get i).prev =
      if i = (h.get pos).next then (h.get pos).prev else (h.get i).prev) ∧
    (∀ i, ((list.eraseNode h L pos).1.get i).data = (h.get i).data) ∧
    (∀ i, i ≠ (h.get pos).prev → i ≠ (h.get pos).next →
      (list.eraseNode h L pos).1.mem i = h.mem i) ∧
    (∀ i, (h.mem i).isSome → ((list.eraseNode h L pos).1.mem i).isSome) ∧
    (list.eraseNode h L pos).1.nextAlloc = h.nextAlloc ∧
    (list.eraseNode h L pos).2 = { L with list_size := L.list_size - 1 } := by
  have hnpp : (h.get pos).next ≠ (h.get pos).prev := fun hh => hppn hh.symm
  have hxpp : pos ≠ (h.get pos).prev := fun hh => hppx hh.symm
  have hxpn : pos ≠ (h.get pos).next := fun hh => hpnx hh.symm
  refine ⟨?_, ?_, ?_, ?_, ?_, ?_, rfl⟩
  · intro i
    by_cases h1 : i = (h.get pos).prev
    · subst h1
      simp [list.eraseNode, get_set_same, get_set_ne, hppx, hpnx, hppn, hnpp, hxpp, hxpn]
    · by_cases h2 : i = (h.get pos).next
      · subst h2
        simp [list.eraseNode, get_set_same, get_set_ne, hppx, hpnx, hppn, hnpp, hxpp,
          hxpn, h1]
      · simp [list.eraseNode, get_set_same, get_set_ne, hppx, hpnx, hppn, hnpp, hxpp,
          hxpn, h1, h2]
  · intro i
    by_cases h2 : i = (h.get pos).next
    · subst h2
      simp [list.eraseNode, get_set_same, get_set_ne, hppx, hpnx, hppn, hnpp, hxpp, hxpn]
    · by_cases h1 : i = (h.get pos).prev
      · subst h1
        simp [list.eraseNode, get_set_same, get_set_ne, hppx, hpnx, hppn, hnpp, hxpp,
          hxpn, h2]
      · simp [list.eraseNode, get_set_same, get_set_ne, hppx, hpnx, hppn, hnpp, hxpp,
          hxpn, h1, h2]
  · intro i
    by_cases h1 : i = (h.get pos).prev
    · subst h1
      simp [list.eraseNode, get_set_same, get_set_ne, hppx, hpnx, hppn, hnpp, hxpp, hxpn]
    · by_cases h2 : i = (h.get pos).next
      · subst h2
        simp [list.eraseNode, get_set_same, get_set_ne, hppx, hpnx, hppn, hnpp, hxpp,
          hxpn, h1]
      · simp [list.eraseNode, get_set_same, get_set_ne, hppx, hpnx, hppn, hnpp, hxpp,
          hxpn, h1, h2]
  · intro i h1 h2
    simp [list.eraseNode, get_set_same, get_set_ne, mem_set_ne, hppx, hpnx, hppn, hnpp,
      hxpp, hxpn, h1, h2]
  · intro i hi
    by_cases h1 : i = (h.get pos).prev
    · subst h1
      simp [list.eraseNode, get_set_same, get_set_ne, mem_set_same, mem_set_ne, hppx,
        hpnx, hppn, hnpp, hxpp, hxpn]
    · by_cases h2 : i = (h.get pos).next
      · subst h2
        simp [list.eraseNode, get_set_same, get_set_ne, mem_set_same, mem_set_ne, hppx,
          hpnx, hppn, hnpp, hxpp, hxpn]
      · simpa [list.eraseNode, get_set_same, get_set_ne, mem_set_same, mem_set_ne, hppx,
          hpnx, hppn, hnpp, hxpp, hxpn, h1, h2] using hi
  · simp [list.eraseNode]

/-- The prefix part (head sentinel and `c1`) and suffix part (`c2` and
tail sentinel) of a well-formed chain are disjoint. -/
theorem full_split_disjoint {L : ListHandle} {c1 c2 : List Nat}
    (hnd : (full L (c1 ++ c2)).Nodup) :
    ∀ a ∈ L.head :: c1, ∀ b ∈ c2 ++ [L.tail], a ≠ b := by
  have hnd2 : ((L.head :: c1) ++ (c2 ++ [L.tail])).Nodup := by
    simpa [full] using hnd
  have hdisj := (List.nodup_append.mp hnd2).2.2
  intro a ha b hb hab
  exact hdisj ha (hab ▸ hb)

/-- Effect of the protected `insert(pos, cur)` on a well-formed
container, where `pos` is the node after the prefix `c1` (the tail
sentinel when `c2 = []`) and `cur` is a fresh value node: the invariant
holds with `cur` spliced in, no stored value changes, and no cell
outside the chain and `cur` changes. -/
theorem insertNode_wf {h : Heap V} {L : ListHandle} (c1 c2 : List Nat) (cur : Nat)
    (W : Wf h L (c1 ++ c2))
    (hcur0 : 0 < cur) (hcurlt : cur < h.nextAlloc)
    (hdata : ((h.get cur).data).isSome)
    (hnotin : cur ∉ full L (c1 ++ c2)) :
    Wf (list.insertNode h L (c2.headD L.tail) cur).1
      (list.insertNode h L (c2.headD L.tail) cur).2 (c1 ++ cur :: c2) ∧
    (∀ i, ((list.insertNode h L (c2.headD L.tail) cur).1.get i).data = (h.get i).data) ∧
    (∀ i, i ∉ full L (c1 ++ c2) → i ≠ cur →
      (list.insertNode h L (c2.headD L.tail) cur).1.mem i = h.mem i) ∧
    (list.insertNode h L (c2.headD L.tail) cur).1.nextAlloc = h.nextAlloc ∧
    (list.insertNode h L (c2.headD L.tail) cur).2 =
      { L with list_size := L.list_size + 1 } := by
  have hglue := isPath_split_adj c1 L.head c2 L.tail W.links
  have hppdef : (h.get (c2.headD L.tail)).prev = c1.getLastD L.head := hglue.2
  have hposB : c2.headD L.tail ∈ c2 ++ [L.tail] := by
    rcases List.mem_cons.mp (headD_mem_cons c2 L.tail) with hm | hm
    · rw [hm]; simp
    · exact List.mem_append.mpr (Or.inl hm)
  have hppA : c1.getLastD L.head ∈ L.head :: c1 := List.getLastD_mem_cons c1 L.head
  have hposm : c2.headD L.tail ∈ full L (c1 ++ c2) := by
    simp only [full, List.mem_cons, List.mem_append, List.mem_singleton]
    rcases List.mem_append.mp hposB with hm | hm
    · tauto
    · rw [List.mem_singleton] at hm; tauto
  have hppm : c1.getLastD L.head ∈ full L (c1 ++ c2) := by
    simp only [full, List.mem_cons, List.mem_append, List.mem_singleton]
    rcases List.mem_cons.mp hppA with hm | hm
    · tauto
    · tauto
  have hdisj := full_split_disjoint W.nodup
  have hppos : (h.get (c2.headD L.tail)).prev ≠ c2.headD L.tail := by
    rw [hppdef]; exact hdisj _ hppA _ hposB
  have hpc : c2.headD L.tail ≠ cur := fun hh => hnotin (hh ▸ hposm)
  have hppc : (h.get (c2.headD L.tail)).prev ≠ cur := by
    rw [hppdef]; exact fun hh => hnotin (hh ▸ hppm)
  obtain ⟨Fnext, Fprev, Fdata, Fframe, Fsome, Fcur, Falloc, Fhandle⟩ :=
    insertNode_fields h L (c2.headD L.tail) cur hpc hppc hppos
  have Fnext2 : ∀ i, ((list.insertNode h L (c2.headD L.tail) cur).1.get i).next =
      if i = c1.getLastD L.head then cur
      else if i = cur then c2.headD L.tail else (h.get i).next := by
    intro i; rw [Fnext i, hppdef]
  have Fprev2 : ∀ i, ((list.insertNode h L (c2.headD L.tail) cur).1.get i).prev =
      if i = c2.headD L.tail then cur
      else if i = cur then c1.getLastD L.head else (h.get i).prev := by
    intro i; rw [Fprev i, hppdef]
  have hmemnew : ∀ i, i ∈ full L (c1 ++ cur :: c2) → i = cur ∨ i ∈ full L (c1 ++ c2) := by
    intro i hi
    simp only [full, List.mem_cons, List.mem_append, List.mem_singleton] at hi ⊢
    tauto
  have hheadA : L.head ∈ L.head :: c1 := by simp
  have htailB : L.tail ∈ c2 ++ [L.tail] := by simp
  have hheadcur : L.head ≠ cur := by
    intro hh; exact hnotin (hh ▸ (by simp [full] : L.head ∈ full L (c1 ++ c2)))
  have htailcur : L.tail ≠ cur := by
    intro hh; exact hnotin (hh ▸ (by simp [full] : L.tail ∈ full L (c1 ++ c2)))
  refine ⟨?_, Fdata, ?_, Falloc, Fhandle⟩
  · rw [Fhandle]
    refine ⟨?_, ?_, ?_, ?_, ?_, ?_, ?_, ?_, ?_, ?_⟩
    · show (full L (c1 ++ cur :: c2)).Nodup
      have he1 : full L (c1 ++ cur :: c2) = (L.head :: c1) ++ cur :: (c2 ++ [L.tail]) := by
        simp [full]
      have he2 : (L.head :: c1) ++ (c2 ++ [L.tail]) = full L (c1 ++ c2) := by
        simp [full]
      rw [he1]
      refine (List.perm_middle.nodup_iff).mpr ?_
      rw [List.nodup_cons, he2]
      exact ⟨hnotin, W.nodup⟩
    · intro i hi
      rw [Falloc]
      rcases hmemnew i hi with hh | hh
      · exact hh ▸ ⟨hcur0, hcurlt⟩
      · exact W.bounds i hh
    · intro i hi
      rcases hmemnew i hi with hh | hh
      · exact hh ▸ Fcur
      · exact Fsome i (W.allocd i hh)
    · show ((list.insertNode h L (c2.headD L.tail) cur).1.get L.head).prev = 0
      rw [Fprev2 L.head, if_neg (hdisj _ hheadA _ hposB), if_neg hheadcur]
      exact W.headPrev
    · show ((list.insertNode h L (c2.headD L.tail) cur).1.get L.tail).next = 0
      rw [Fnext2 L.tail, if_neg fun hh => (hdisj _ hppA _ htailB) hh.symm, if_neg htailcur]
      exact W.tailNext
    · show ((list.insertNode h L (c2.headD L.tail) cur).1.get L.head).data = none
      rw [Fdata L.head]; exact W.headData
    · show ((list.insertNode h L (c2.headD L.tail) cur).1.get L.tail).data = none
      rw [Fdata L.tail]; exact W.tailData
    · intro i hi
      rw [Fdata i]
      rcases List.mem_append.mp hi with hh | hh
      · exact W.valData i (by simp [hh])
      · rcases List.mem_cons.mp hh with hh2 | hh2
        · exact hh2 ▸ hdata
        · exact W.valData i (by simp [hh2])
    · show isPath (list.insertNode h L (c2.headD L.tail) cur).1 L.head (c1 ++ cur :: c2) L.tail
      refine isPath_insert Fnext2 Fprev2 c1 L.head c2 L.tail W.links ?_ ?_ rfl rfl
      · simpa [full] using W.nodup
      · simpa [full] using hnotin
    · show L.list_size + 1 = (c1 ++ cur :: c2).length
      have := W.sizeEq
      simp only [List.length_append, List.length_cons] at this ⊢
      omega
  · intro i hi hic
    refine Fframe i hic (fun hh => hi (hh ▸ hposm)) ?_
    rw [hppdef]; exact fun hh => hi (hh ▸ hppm)

/-- Effect of the protected `erase(x)` on a well-formed container, where
`x` is the value node between the prefix `c1` and the suffix `c2`: the
invariant holds with `x` spliced out, no stored value changes, `x`'s
own cell (links and value) is untouched, and no cell outside the chain
changes. -/
theorem eraseNode_wf {h : Heap V} {L : ListHandle} (c1 c2 : List Nat) (x : Nat)
    (W : Wf h L (c1 ++ x :: c2)) :
    Wf (list.eraseNode h L x).1 (list.eraseNode h L x).2 (c1 ++ c2) ∧
    (∀ i, ((list.eraseNode h L x).1.get i).data = (h.get i).data) ∧
    (∀ i, i ∉ full L (c1 ++ x :: c2) → (list.eraseNode h L x).1.mem i = h.mem i) ∧
    (list.eraseNode h L x).1.mem x = h.mem x ∧
    (list.eraseNode h L x).1.nextAlloc = h.nextAlloc ∧
    (list.eraseNode h L x).2 = { L with list_size := L.list_size - 1 } ∧
    (h.get x).next = c2.headD L.tail ∧
    (h.get x).prev = c1.getLastD L.head := by
  have hxprev : (h.get x).prev = c1.getLastD L.head := by
    have := (isPath_split_adj c1 L.head (x :: c2) L.tail W.links).2
    rwa [List.headD_cons] at this
  have hxnext : (h.get x).next = c2.headD L.tail := by
    have hmid := isPath_append_mid c1 L.head x c2 L.tail W.links
    exact (isPath_split_adj [] x c2 L.tail hmid.2).1
  have hppA : c1.getLastD L.head ∈ L.head :: c1 := List.getLastD_mem_cons c1 L.head
  have hpnB : c2.headD L.tail ∈ c2 ++ [L.tail] := by
    rcases List.mem_cons.mp (headD_mem_cons c2 L.tail) with hm | hm
    · rw [hm]; simp
    · exact List.mem_append.mpr (Or.inl hm)
  have hdisj := full_split_disjoint W.nodup
  have hppx : (h.get x).prev ≠ x := by
    rw [hxprev]; exact hdisj _ hppA x (by simp)
  have hppn : (h.get x).prev ≠ (h.get x).next := by
    rw [hxprev, hxnext]
    exact hdisj _ hppA _ (List.mem_cons_of_mem _ hpnB)
  have hxB : x ∉ c2 ++ [L.tail] := by
    have hnd2 : ((L.head :: c1) ++ (x :: (c2 ++ [L.tail]))).Nodup := by
      simpa [full] using W.nodup
    have := (List.nodup_append.mp hnd2).2.1
    exact (List.nodup_cons.mp this).1
  have hpnx : (h.get x).next ≠ x := by
    rw [hxnext]; exact fun hh => hxB (hh ▸ hpnB)
  obtain ⟨Fnext, Fprev, Fdata, Fframe, Fsome, Falloc, Fhandle⟩ :=
    eraseNode_fields h L x hppx hpnx hppn
  have Fnext2 : ∀ i, ((list.eraseNode h L x).1.get i).next =
      if i = c1.getLastD L.head then c2.headD L.tail else (h.get i).next := by
    intro i; rw [Fnext i, hxprev, hxnext]
  have Fprev2 : ∀ i, ((list.eraseNode h L x).1.get i).prev =
      if i = c2.headD L.tail then c1.getLastD L.head else (h.get i).prev := by
    intro i; rw [Fprev i, hxprev, hxnext]
  have hmemold : ∀ i, i ∈ full L (c1 ++ c2) → i ∈ full L (c1 ++ x :: c2) := by
    intro i hi
    simp only [full, List.mem_cons, List.mem_append, List.mem_singleton] at hi ⊢
    tauto
  have hframe2 : ∀ i, i ∉ full L (c1 ++ x :: c2) →
      (list.eraseNode h L x).1.mem i = h.mem i := by
    intro i hi
    refine Fframe i ?_ ?_
    · rw [hxprev]
      intro hh
      refine hi (hh ▸ ?_)
      simp only [full, List.mem_cons, List.mem_append, List.mem_singleton]
      rcases List.mem_cons.mp hppA with hm | hm
      · tauto
      · tauto
    · rw [hxnext]
      intro hh
      refine hi (hh ▸ ?_)
      simp only [full, List.mem_cons, List.mem_append, List.mem_singleton]
      rcases List.mem_append.mp hpnB with hm | hm
      · tauto
      · rw [List.mem_singleton] at hm; tauto
  have hxmem : (list.eraseNode h L x).1.mem x = h.mem x := by
    refine Fframe x (fun hh => hppx hh.symm) (fun hh => hpnx hh.symm)
  refine ⟨?_, Fdata, hframe2, hxmem, Falloc, Fhandle, hxnext, hxprev⟩
  rw [Fhandle]
  refine ⟨?_, ?_, ?_, ?_, ?_, ?_, ?_, ?_, ?_, ?_⟩
  · show (full L (c1 ++ c2)).Nodup
    refine W.nodup.sublist ?_
    simp only [full]
    refine List.Sublist.cons₂ _ ?_
    refine List.Sublist.append ?_ (List.Sublist.refl _)
    exact List.Sublist.append_left (List.sublist_cons_self x c2) c1
  · intro i hi
    rw [Falloc]
    exact W.bounds i (hmemold i hi)
  · intro i hi
    exact Fsome i (W.allocd i (hmemold i hi))
  · show ((list.eraseNode h L x).1.get L.head).prev = 0
    rw [Fprev2 L.head, if_neg ?_]
    · exact W.headPrev
    · exact fun hh => (hdisj L.head (by simp) _ (List.mem_cons_of_mem _ hpnB)) hh
  · show ((list.eraseNode h L x).1.get L.tail).next = 0
    rw [Fnext2 L.tail, if_neg ?_]
    · exact W.tailNext
    · exact fun hh => (hdisj _ hppA L.tail (by simp)) hh.symm
  · show ((list.eraseNode h L x).1.get L.head).data = none
    rw [Fdata]; exact W.headData
  · show ((list.eraseNode h L x).1.get L.tail).data = none
    rw [Fdata]; exact W.tailData
  · intro i hi
    rw [Fdata]
    refine W.valData i ?_
    simp only [List.mem_append, List.mem_cons] at hi ⊢
    tauto
  · show isPath (list.eraseNode h L x).1 L.head (c1 ++ c2) L.tail
    refine isPath_remove Fnext2 Fprev2 c1 L.head c2 L.tail W.links ?_ rfl rfl
    simpa [full] using W.nodup
  · show L.list_size - 1 = (c1 ++ c2).length
    have := W.sizeEq
    simp only [List.length_append, List.length_cons] at this ⊢
    omega

/-! ## Public operations on a well-formed container -/

@[simp] theorem get_alloc_same (h : Heap V) (n : Node V) :
    (h.alloc n).2.get h.nextAlloc = n := by
  simp [Heap.get, Heap.alloc]

/-- Under the invariant, `head->next` is the first value node (the tail
sentinel when empty). -/
theorem wf_head_next {h : Heap V} {L : ListHandle} {chain : List Nat}
    (W : Wf h L chain) : (h.get L.head).next = chain.headD L.tail := by
  cases chain with
  | nil => exact W.links.1
  | cons a rest => exact W.links.1.1

/-- Under the invariant, `tail->prev` is the last value node (the head
sentinel when empty). -/
theorem wf_tail_prev {h : Heap V} {L : ListHandle} {chain : List Nat}
    (W : Wf h L chain) : (h.get L.tail).prev = chain.getLastD L.head := by
  have hp : isPath h L.head (chain ++ []) L.tail := by
    rw [List.append_nil]; exact W.links
  exact (isPath_split_adj chain L.head [] L.tail hp).2

/-- The allocation bound of a well-formed heap is positive. -/
theorem wf_alloc_pos {h : Heap V} {L : ListHandle} {chain : List Nat}
    (W : Wf h L chain) : 0 < h.nextAlloc :=
  lt_trans (W.bounds L.head (by simp [full])).1 (W.bounds L.head (by simp [full])).2

/-- `list()` produces a well-formed empty container of fresh sentinels,
touching no existing cell. -/
theorem listNew_wf (h : Heap V) (hpos : 0 < h.nextAlloc) :
    Wf (list.listNew h).1 (list.listNew h).2 [] ∧
    (∀ i, i < h.nextAlloc → (list.listNew h).1.mem i = h.mem i) ∧
    (list.listNew h).1.nextAlloc = h.nextAlloc + 2 ∧
    (list.listNew h).2 = ⟨h.nextAlloc, h.nextAlloc + 1, 0⟩ := by
  have hne : h.nextAlloc ≠ h.nextAlloc + 1 := by omega
  have hne2 : h.nextAlloc + 1 ≠ h.nextAlloc := by omega
  have e2 : (list.listNew h).2 = ⟨h.nextAlloc, h.nextAlloc + 1, 0⟩ := rfl
  have eh : (list.listNew h).1 =
      (((h.alloc ⟨none, 0, 0⟩).2.alloc ⟨none, 0, 0⟩).2.set h.nextAlloc
        ⟨none, 0, h.nextAlloc + 1⟩).set (h.nextAlloc + 1) ⟨none, h.nextAlloc, 0⟩ := rfl
  have eget1 : (list.listNew h).1.get h.nextAlloc = ⟨none, 0, h.nextAlloc + 1⟩ := by
    rw [eh, get_set_ne _ _ hne, get_set_same]
  have eget2 : (list.listNew h).1.get (h.nextAlloc + 1) = ⟨none, h.nextAlloc, 0⟩ := by
    rw [eh, get_set_same]
  refine ⟨?_, ?_, rfl, rfl⟩
  · rw [e2]
    refine ⟨?_, ?_, ?_, ?_, ?_, ?_, ?_, ?_, ?_, rfl⟩
    · simp [full, hne]
    · intro i hi
      simp only [full, List.nil_append, List.mem_cons, List.mem_singleton] at hi
      show 0 < i ∧ i < (list.listNew h).1.nextAlloc
      have ea : (list.listNew h).1.nextAlloc = h.nextAlloc + 2 := rfl
      rw [ea]
      rcases hi with hh | hh | hh
      · subst hh; omega
      · subst hh; omega
      · simp at hh
    · intro i hi
      simp only [full, List.nil_append, List.mem_cons, List.mem_singleton] at hi
      rcases hi with hh | hh | hh
      · subst hh
        rw [eh, mem_set_ne _ _ hne, mem_set_same]; rfl
      · subst hh
        rw [eh, mem_set_same]; rfl
      · simp at hh
    · show ((list.listNew h).1.get h.nextAlloc).prev = 0
      rw [eget1]
    · show ((list.listNew h).1.get (h.nextAlloc + 1)).next = 0
      rw [eget2]
    · show ((list.listNew h).1.get h.nextAlloc).data = none
      rw [eget1]
    · show ((list.listNew h).1.get (h.nextAlloc + 1)).data = none
      rw [eget2]
    · intro i hi; simp at hi
    · show isPath (list.listNew h).1 h.nextAlloc [] (h.nextAlloc + 1)
      refine ⟨?_, ?_⟩
      · rw [eget1]
      · rw [eget2]
  · intro i hi
    have h1 : i ≠ h.nextAlloc := by omega
    have h2 : i ≠ h.nextAlloc + 1 := by omega
    rw [eh, mem_set_ne _ _ h2, mem_set_ne _ _ h1, mem_alloc_ne _ _ ?_, mem_alloc_ne _ _ h1]
    simp
    omega

/-- `push_back(v)` on a well-formed container: appends a fresh node to
the chain, appends `v` to the value sequence, touches no existing cell
outside the container. -/
theorem push_back_wf {h : Heap V} {L : ListHandle} {chain : List Nat} (v : V)
    (W : Wf h L chain) :
    Wf (list.push_back h L v).1 (list.push_back h L v).2 (chain ++ [h.nextAlloc]) ∧
    (∀ i, i < h.nextAlloc → i ∉ full L chain →
      (list.push_back h L v).1.mem i = h.mem i) ∧
    (list.push_back h L v).1.nextAlloc = h.nextAlloc + 1 ∧
    (list.push_back h L v).2 = { L with list_size := L.list_size + 1 } ∧
    list.vals (list.push_back h L v).1 (list.push_back h L v).2 = list.vals h L ++ [v] := by
  have hW2 : Wf (h.alloc ⟨some v, 0, 0⟩).2 L (chain ++ []) := by
    rw [List.append_nil]
    refine wf_congr W ?_ (by simp)
    intro i hi
    exact mem_alloc_ne h _ (by have := (W.bounds i hi).2; omega)
  have hnotin : h.nextAlloc ∉ full L (chain ++ []) := by
    rw [List.append_nil]
    intro hc
    have := (W.bounds _ hc).2
    omega
  obtain ⟨W3, Fdata, Fframe, Falloc, Fhandle⟩ :=
    insertNode_wf chain [] h.nextAlloc hW2 (wf_alloc_pos W) (by simp) (by simp) hnotin
  rw [List.append_nil] at Fframe
  have hgoal : list.push_back h L v =
      list.insertNode (h.alloc ⟨some v, 0, 0⟩).2 L ([].headD L.tail) h.nextAlloc := rfl
  rw [hgoal]
  refine ⟨W3, ?_, ?_, ?_, ?_⟩
  · intro i hilt hinotin
    rw [Fframe i hinotin (by omega)]
    exact mem_alloc_ne h _ (by omega)
  · rw [Falloc]; simp
  · rw [Fhandle]
  · rw [vals_eq W3, vals_eq W]
    rw [List.filterMap_append]
    congr 1
    · refine List.filterMap_congr ?_
      intro i hi
      rw [Fdata i, get_alloc_ne h _ (by have := (W.bounds i (by simp [full, hi])).2; omega)]
    · simp only [List.filterMap_cons, List.filterMap_nil]
      rw [Fdata _, get_alloc_same]

/-- `push_front(v)` on a well-formed container: prepends a fresh node. -/
theorem push_front_wf {h : Heap V} {L : ListHandle} {chain : List Nat} (v : V)
    (W : Wf h L chain) :
    Wf (list.push_front h L v).1 (list.push_front h L v).2 (h.nextAlloc :: chain) ∧
    (∀ i, i < h.nextAlloc → i ∉ full L chain →
      (list.push_front h L v).1.mem i = h.mem i) ∧
    (list.push_front h L v).1.nextAlloc = h.nextAlloc + 1 ∧
    (list.push_front h L v).2 = { L with list_size := L.list_size + 1 } ∧
    list.vals (list.push_front h L v).1 (list.push_front h L v).2 = v :: list.vals h L := by
  have hW2 : Wf (h.alloc ⟨some v, 0, 0⟩).2 L chain := by
    refine wf_congr W ?_ (by simp)
    intro i hi
    exact mem_alloc_ne h _ (by have := (W.bounds i hi).2; omega)
  have hnotin : h.nextAlloc ∉ full L ([] ++ chain) := by
    rw [List.nil_append]
    intro hc
    have := (W.bounds _ hc).2
    omega
  obtain ⟨W3, Fdata, Fframe, Falloc, Fhandle⟩ :=
    insertNode_wf [] chain h.nextAlloc hW2 (wf_alloc_pos W) (by simp) (by simp) hnotin
  rw [List.nil_append] at Fframe
  have hgoal : list.push_front h L v =
      list.insertNode (h.alloc ⟨some v, 0, 0⟩).2 L (chain.headD L.tail) h.nextAlloc := by
    have e : list.push_front h L v =
        list.insertNode (h.alloc ⟨some v, 0, 0⟩).2 L
          ((h.alloc ⟨some v, 0, 0⟩).2.get L.head).next h.nextAlloc := rfl
    rw [e, wf_head_next hW2]
  rw [hgoal]
  refine ⟨W3, ?_, ?_, ?_, ?_⟩
  · intro i hilt hinotin
    rw [Fframe i hinotin (by omega)]
    exact mem_alloc_ne h _ (by omega)
  · rw [Falloc]; rfl
  · rw [Fhandle]
  · rw [vals_eq W3, vals_eq W, List.nil_append]
    have hfa : ((list.insertNode (h.alloc ⟨some v, 0, 0⟩).2 L (chain.headD L.tail)
        h.nextAlloc).1.get h.nextAlloc).data = some v := by
      rw [Fdata _, get_alloc_same]
    rw [List.filterMap_cons_some
      (f := fun i => ((list.insertNode (h.alloc ⟨some v, 0, 0⟩).2 L (chain.headD L.tail)
        h.nextAlloc).1.get i).data) hfa]
    congr 1
    refine List.filterMap_congr ?_
    intro i hi
    rw [Fdata i, get_alloc_ne h _ (by have := (W.bounds i (by simp [full, hi])).2; omega)]

/-- A node spliced out of a well-formed chain is not among the remaining
nodes. -/
theorem notin_full_of_nodup {L : ListHandle} (c1 c2 : List Nat) {x : Nat}
    (hnd : (full L (c1 ++ x :: c2)).Nodup) : x ∉ full L (c1 ++ c2) := by
  have he1 : full L (c1 ++ x :: c2) = (L.head :: c1) ++ x :: (c2 ++ [L.tail]) := by
    simp [full]
  have he2 : (L.head :: c1) ++ (c2 ++ [L.tail]) = full L (c1 ++ c2) := by
    simp [full]
  rw [he1] at hnd
  have hnd2 := (List.perm_middle.nodup_iff).mp hnd
  rw [List.nodup_cons, he2] at hnd2
  exact hnd2.1

/-- `pop_front()` on a nonempty well-formed container: removes and frees
the first value node; the value sequence loses its head. -/
theorem pop_front_wf {h : Heap V} {L : ListHandle} {x : Nat} {rest : List Nat}
    (W : Wf h L (x :: rest)) :
    (list.pop_front h L).1 = .ok () ∧
    Wf (list.pop_front h L).2.1 (list.pop_front h L).2.2 rest ∧
    (∀ i, i ∉ full L (x :: rest) → (list.pop_front h L).2.1.mem i = h.mem i) ∧
    (list.pop_front h L).2.1.mem x = none ∧
    (list.pop_front h L).2.1.nextAlloc = h.nextAlloc ∧
    (list.pop_front h L).2.2 = { L with list_size := L.list_size - 1 } ∧
    list.vals (list.pop_front h L).2.1 (list.pop_front h L).2.2 = (list.vals h L).tail := by
  have hsz : L.list_size = rest.length + 1 := by
    have := W.sizeEq; simpa using this
  have hcond : list.empty L = false := by simp [list.empty, hsz]
  have hx : (h.get L.head).next = x := by rw [wf_head_next W]; rfl
  have e : list.pop_front h L =
      (.ok (), ((list.eraseNode h L x).1).free x, (list.eraseNode h L x).2) := by
    simp only [list.pop_front, hcond, Bool.false_eq_true, if_false, hx]
  obtain ⟨W2, Fdata, Fframe, Fxmem, Falloc, Fhandle, Fnx, Fpv⟩ :=
    eraseNode_wf [] rest x W
  have hxnotin : x ∉ full (list.eraseNode h L x).2 rest := by
    rw [Fhandle]
    exact notin_full_of_nodup [] rest W.nodup
  have W3 : Wf ((list.eraseNode h L x).1.free x) (list.eraseNode h L x).2 rest :=
    wf_free W2 hxnotin
  have hvx : ((h.get x).data).isSome := W.valData x (by simp)
  obtain ⟨vx, hvx2⟩ := Option.isSome_iff_exists.mp hvx
  refine ⟨by rw [e], by rw [e]; exact W3, ?_, ?_, ?_, ?_, ?_⟩
  · intro i hi
    rw [e]
    have hix : i ≠ x := fun hh => hi (hh ▸ (by simp [full] : x ∈ full L (x :: rest)))
    rw [mem_free_ne _ hix]
    exact Fframe i hi
  · rw [e]
    show (((list.eraseNode h L x).1).free x).mem x = none
    simp [Heap.free]
  · rw [e]
    show (((list.eraseNode h L x).1).free x).nextAlloc = h.nextAlloc
    rw [nextAlloc_free, Falloc]
  · rw [e]; exact Fhandle
  · rw [e]
    show list.vals ((list.eraseNode h L x).1.free x) (list.eraseNode h L x).2 =
      (list.vals h L).tail
    rw [vals_eq W3, vals_eq W]
    rw [List.filterMap_cons_some (f := fun i => (h.get i).data) hvx2]
    show _ = List.filterMap (fun i => (h.get i).data) rest
    refine List.filterMap_congr ?_
    intro i hi
    have hix : i ≠ x := by
      intro hh
      exact (hxnotin (hh ▸ (by simp [full, hi] : i ∈ full (list.eraseNode h L x).2 rest)))
    rw [get_free_ne _ hix, Fdata i]

/-- `pop_back()` on a nonempty well-formed container: removes and frees
the last value node; the value sequence loses its last element. -/
theorem pop_back_wf {h : Heap V} {L : ListHandle} {x : Nat} {rest : List Nat}
    (W : Wf h L (rest ++ [x])) :
    (list.pop_back h L).1 = .ok () ∧
    Wf (list.pop_back h L).2.1 (list.pop_back h L).2.2 rest ∧
    (∀ i, i ∉ full L (rest ++ [x]) → (list.pop_back h L).2.1.mem i = h.mem i) ∧
    (list.pop_back h L).2.1.mem x = none ∧
    (list.pop_back h L).2.1.nextAlloc = h.nextAlloc ∧
    (list.pop_back h L).2.2 = { L with list_size := L.list_size - 1 } ∧
    list.vals (list.pop_back h L).2.1 (list.pop_back h L).2.2 = (list.vals h L).dropLast := by
  have hsz : L.list_size = rest.length + 1 := by
    have := W.sizeEq; simpa using this
  have hcond : list.empty L = false := by simp [list.empty, hsz]
  have hx : (h.get L.tail).prev = x := by
    rw [wf_tail_prev W, List.getLastD_concat]
  have e : list.pop_back h L =
      (.ok (), ((list.eraseNode h L x).1).free x, (list.eraseNode h L x).2) := by
    simp only [list.pop_back, hcond, Bool.false_eq_true, if_false, hx]
  obtain ⟨W2, Fdata, Fframe, Fxmem, Falloc, Fhandle, Fnx, Fpv⟩ :=
    eraseNode_wf rest [] x W
  simp only [List.append_nil] at W2
  have hxnotin : x ∉ full (list.eraseNode h L x).2 rest := by
    rw [Fhandle]
    have := notin_full_of_nodup rest [] W.nodup
    rwa [List.append_nil] at this
  have W3 : Wf ((list.eraseNode h L x).1.free x) (list.eraseNode h L x).2 rest :=
    wf_free W2 hxnotin
  have hvx : ((h.get x).data).isSome := W.valData x (by simp)
  obtain ⟨vx, hvx2⟩ := Option.isSome_iff_exists.mp hvx
  refine ⟨by rw [e], by rw [e]; exact W3, ?_, ?_, ?_, ?_, ?_⟩
  · intro i hi
    rw [e]
    have hix : i ≠ x := fun hh => hi (hh ▸ (by simp [full] : x ∈ full L (rest ++ [x])))
    rw [mem_free_ne _ hix]
    exact Fframe i hi
  · rw [e]
    show (((list.eraseNode h L x).1).free x).mem x = none
    simp [Heap.free]
  · rw [e]
    show (((list.eraseNode h L x).1).free x).nextAlloc = h.nextAlloc
    rw [nextAlloc_free, Falloc]
  · rw [e]; exact Fhandle
  · rw [e]
    show list.vals ((list.eraseNode h L x).1.free x) (list.eraseNode h L x).2 =
      (list.vals h L).dropLast
    rw [vals_eq W3, vals_eq W]
    rw [List.filterMap_append]
    rw [List.filterMap_cons_some (f := fun i => (h.get i).data) hvx2]
    show _ = (List.filterMap (fun i => (h.get i).data) rest ++ [vx]).dropLast
    rw [List.dropLast_concat]
    refine List.filterMap_congr ?_
    intro i hi
    have hix : i ≠ x := by
      intro hh
      exact (hxnotin (hh ▸ (by simp [full, hi] : i ∈ full (list.eraseNode h L x).2 rest)))
    rw [get_free_ne _ hix, Fdata i]

/-- Public `insert(pos, value)` with a valid iterator of this container
(cursor at the node after prefix `c1`; the tail sentinel when `c2 = []`):
succeeds, returns an iterator to the fresh node, splices it in. -/
theorem insert_wf {h : Heap V} {L : ListHandle} (self : Nat) (c1 c2 : List Nat) (v : V)
    (W : Wf h L (c1 ++ c2)) :
    (list.insert h self L ⟨c2.headD L.tail, self⟩ v).1 = .ok ⟨h.nextAlloc, self⟩ ∧
    Wf (list.insert h self L ⟨c2.headD L.tail, self⟩ v).2.1
      (list.insert h self L ⟨c2.headD L.tail, self⟩ v).2.2 (c1 ++ h.nextAlloc :: c2) ∧
    (∀ i, i < h.nextAlloc → i ∉ full L (c1 ++ c2) →
      (list.insert h self L ⟨c2.headD L.tail, self⟩ v).2.1.mem i = h.mem i) ∧
    (∀ i, i ≠ h.nextAlloc →
      ((list.insert h self L ⟨c2.headD L.tail, self⟩ v).2.1.get i).data = (h.get i).data) ∧
    ((list.insert h self L ⟨c2.headD L.tail, self⟩ v).2.1.get h.nextAlloc).data = some v ∧
    (list.insert h self L ⟨c2.headD L.tail, self⟩ v).2.1.nextAlloc = h.nextAlloc + 1 ∧
    (list.insert h self L ⟨c2.headD L.tail, self⟩ v).2.2 =
      { L with list_size := L.list_size + 1 } := by
  have hW2 : Wf (h.alloc ⟨some v, 0, 0⟩).2 L (c1 ++ c2) := by
    refine wf_congr W ?_ (by simp)
    intro i hi
    exact mem_alloc_ne h _ (by have := (W.bounds i hi).2; omega)
  have hnotin : h.nextAlloc ∉ full L (c1 ++ c2) := by
    intro hc
    have := (W.bounds _ hc).2
    omega
  obtain ⟨W3, Fdata, Fframe, Falloc, Fhandle⟩ :=
    insertNode_wf c1 c2 h.nextAlloc hW2 (wf_alloc_pos W) (by simp) (by simp) hnotin
  have e : list.insert h self L ⟨c2.headD L.tail, self⟩ v =
      (.ok ⟨h.nextAlloc, self⟩,
        list.insertNode (h.alloc ⟨some v, 0, 0⟩).2 L (c2.headD L.tail) h.nextAlloc) := by
    simp [list.insert]
  rw [e]
  refine ⟨rfl, W3, ?_, ?_, ?_, ?_, ?_⟩
  · intro i hilt hinotin
    rw [Fframe i hinotin (by omega)]
    exact mem_alloc_ne h _ (by omega)
  · intro i hine
    rw [Fdata i, get_alloc_ne h _ hine]
  · rw [Fdata _, get_alloc_same]
  · rw [Falloc]; rfl
  · rw [Fhandle]

/-- Public `erase(pos)` with a valid iterator at the value node `x`
between `c1` and `c2`: succeeds, removes and frees exactly that node,
and returns an iterator to the old successor (the tail sentinel when `x`
was last). -/
theorem erase_wf {h : Heap V} {L : ListHandle} (self : Nat) (c1 c2 : List Nat) (x : Nat)
    (W : Wf h L (c1 ++ x :: c2)) :
    (list.erase h self L ⟨x, self⟩).1 = .ok ⟨c2.headD L.tail, self⟩ ∧
    Wf (list.erase h self L ⟨x, self⟩).2.1 (list.erase h self L ⟨x, self⟩).2.2 (c1 ++ c2) ∧
    (∀ i, i ∉ full L (c1 ++ x :: c2) →
      (list.erase h self L ⟨x, self⟩).2.1.mem i = h.mem i) ∧
    (list.erase h self L ⟨x, self⟩).2.1.mem x = none ∧
    (∀ i, i ≠ x → ((list.erase h self L ⟨x, self⟩).2.1.get i).data = (h.get i).data) ∧
    (list.erase h self L ⟨x, self⟩).2.1.nextAlloc = h.nextAlloc ∧
    (list.erase h self L ⟨x, self⟩).2.2 = { L with list_size := L.list_size - 1 } := by
  have hsz : L.list_size = c1.length + (c2.length + 1) := by
    have := W.sizeEq; simpa using this
  have hcond : list.empty L = false := by simp [list.empty, hsz]
  have hxtail : x ≠ L.tail := by
    intro hh
    have hx : x ∈ full L (c1 ++ x :: c2) := by simp [full]
    have hnd := W.nodup
    have he1 : full L (c1 ++ x :: c2) = (L.head :: c1) ++ x :: (c2 ++ [L.tail]) := by
      simp [full]
    rw [he1] at hnd
    have hnd2 := (List.perm_middle.nodup_iff).mp hnd
    rw [List.nodup_cons] at hnd2
    exact hnd2.1 (by simp [hh])
  obtain ⟨W2, Fdata, Fframe, Fxmem, Falloc, Fhandle, Fnx, Fpv⟩ :=
    eraseNode_wf c1 c2 x W
  have e : list.erase h self L ⟨x, self⟩ =
      (.ok ⟨(h.get x).next, self⟩,
        ((list.eraseNode h L x).1).free x, (list.eraseNode h L x).2) := by
    simp [list.erase, hcond, hxtail]
  have hxnotin : x ∉ full (list.eraseNode h L x).2 (c1 ++ c2) := by
    rw [Fhandle]
    exact notin_full_of_nodup c1 c2 W.nodup
  have W3 : Wf ((list.eraseNode h L x).1.free x) (list.eraseNode h L x).2 (c1 ++ c2) :=
    wf_free W2 hxnotin
  refine ⟨?_, by rw [e]; exact W3, ?_, ?_, ?_, ?_, ?_⟩
  · rw [e, Fnx]
  · intro i hi
    rw [e]
    have hix : i ≠ x := fun hh => hi (hh ▸ (by simp [full] : x ∈ full L (c1 ++ x :: c2)))
    show (((list.eraseNode h L x).1).free x).mem i = h.mem i
    rw [mem_free_ne _ hix]
    exact Fframe i hi
  · rw [e]
    show (((list.eraseNode h L x).1).free x).mem x = none
    simp [Heap.free]
  · intro i hix
    rw [e]
    show ((((list.eraseNode h L x).1).free x).get i).data = (h.get i).data
    rw [get_free_ne _ hix, Fdata i]
  · rw [e]
    show (((list.eraseNode h L x).1).free x).nextAlloc = h.nextAlloc
    rw [nextAlloc_free, Falloc]
  · rw [e]; exact Fhandle

/-- The `clear()` loop with fuel equal to the chain length: empties the
container, frees every node, and touches nothing outside it. -/
theorem clearAux_wf : ∀ (chain : List Nat) {h : Heap V} {L : ListHandle},
    Wf h L chain →
    Wf (list.clearAux chain.length h L).1 (list.clearAux chain.length h L).2 [] ∧
    (∀ i, i ∉ full L chain → (list.clearAux chain.length h L).1.mem i = h.mem i) ∧
    (list.clearAux chain.length h L).1.nextAlloc = h.nextAlloc ∧
    (list.clearAux chain.length h L).2.head = L.head ∧
    (list.clearAux chain.length h L).2.tail = L.tail ∧
    (list.clearAux chain.length h L).2.list_size = 0 := by
  intro chain
  induction chain with
  | nil =>
    intro h L W
    have hsz : L.list_size = 0 := by simpa using W.sizeEq
    refine ⟨W, fun i _ => rfl, rfl, rfl, rfl, hsz⟩
  | cons x rest ih =>
    intro h L W
    have hsz : L.list_size = rest.length + 1 := by
      have := W.sizeEq; simpa using this
    have hcond : list.empty L = false := by simp [list.empty, hsz]
    obtain ⟨Pok, PW, Pframe, Pxmem, Palloc, Phandle, Pvals⟩ := pop_front_wf W
    have e : list.clearAux (x :: rest).length h L =
        list.clearAux rest.length (list.pop_front h L).2.1 (list.pop_front h L).2.2 := by
      show list.clearAux (rest.length + 1) h L = _
      simp only [list.clearAux, hcond, Bool.false_eq_true, if_false]
    obtain ⟨QW, Qframe, Qalloc, Qhead, Qtail, Qsize⟩ := ih PW
    rw [e]
    refine ⟨QW, ?_, ?_, ?_, ?_, ?_⟩
    · intro i hi
      have hi2 : i ∉ full (list.pop_front h L).2.2 rest := by
        rw [Phandle]
        intro hc
        refine hi ?_
        simp only [full, List.mem_cons, List.mem_append, List.mem_singleton] at hc ⊢
        tauto
      rw [Qframe i hi2]
      exact Pframe i hi
    · rw [Qalloc, Palloc]
    · rw [Qhead, Phandle]
    · rw [Qtail, Phandle]
    · exact Qsize

/-- `clear()` on a well-formed container empties it. -/
theorem clear_wf {h : Heap V} {L : ListHandle} {chain : List Nat} (W : Wf h L chain) :
    Wf (list.clear h L).1 (list.clear h L).2 [] ∧
    (∀ i, i ∉ full L chain → (list.clear h L).1.mem i = h.mem i) ∧
    (list.clear h L).1.nextAlloc = h.nextAlloc ∧
    (list.clear h L).2.head = L.head ∧
    (list.clear h L).2.tail = L.tail ∧
    (list.clear h L).2.list_size = 0 := by
  have e : list.clear h L = list.clearAux chain.length h L := by
    rw [list.clear, W.sizeEq]
  rw [e]
  exact clearAux_wf chain W

/-! ## Merge -/

/-- Helper facts about a chain element. -/
theorem chain_mem_ne_sentinels {h : Heap V} {L : ListHandle} {chain : List Nat}
    (W : Wf h L chain) {x : Nat} (hx : x ∈ chain) : x ≠ L.head ∧ x ≠ L.tail := by
  obtain ⟨hh, h2⟩ := List.nodup_cons.mp W.nodup
  constructor
  · intro he
    exact hh (he ▸ (List.mem_append.mpr (Or.inl hx)))
  · intro he
    exact (List.nodup_append.mp h2).2.2 hx (by simp [he])

/-- The forward link of the chain element after the prefix `c1`. -/
theorem wf_next_at {h : Heap V} {L : ListHandle} (c1 c2 : List Nat) {x : Nat}
    (W : Wf h L (c1 ++ x :: c2)) : (h.get x).next = c2.headD L.tail := by
  have hmid := isPath_append_mid c1 L.head x c2 L.tail W.links
  exact (isPath_split_adj [] x c2 L.tail hmid.2).1

/-- The interleaving of two node chains produced by the `merge` loop:
take the front of the second chain only when its value is strictly less
than the front of the first. -/
def mergeChains [LT V] [DecidableRel (α := V) (· < ·)] (dataOf : Nat → Option V) :
    List Nat → List Nat → List Nat
  | ca, [] => ca
  | [], b :: cb => b :: cb
  | a :: ca, b :: cb =>
    if list.ltData (dataOf b) (dataOf a) then b :: mergeChains dataOf (a :: ca) cb
    else a :: mergeChains dataOf ca (b :: cb)
termination_by ca cb => ca.length + cb.length

/-- `mergeChains` with an empty second chain. -/
theorem mergeChains_nil_right [LT V] [DecidableRel (α := V) (· < ·)]
    (dataOf : Nat → Option V) (ca : List Nat) : mergeChains dataOf ca [] = ca := by
  cases ca <;> rw [mergeChains]

/-- `mergeChains` with an empty first chain. -/
theorem mergeChains_nil_left [LT V] [DecidableRel (α := V) (· < ·)]
    (dataOf : Nat → Option V) (cb : List Nat) : mergeChains dataOf [] cb = cb := by
  cases cb <;> rw [mergeChains]

/-- `mergeChains` is a permutation of the concatenation: every node of
both inputs appears exactly once (ownership transfer, no copying). -/
theorem mergeChains_perm [LT V] [DecidableRel (α := V) (· < ·)]
    (dataOf : Nat → Option V) :
    ∀ (ca cb : List Nat), List.Perm (mergeChains dataOf ca cb) (ca ++ cb)
  | ca, [] => by rw [mergeChains_nil_right, List.append_nil]
  | [], b :: cb => by rw [mergeChains_nil_left, List.nil_append]
  | a :: ca, b :: cb => by
    rw [mergeChains]
    by_cases hlt : list.ltData (dataOf b) (dataOf a) = true
    · rw [if_pos hlt]
      refine List.Perm.trans
        (List.Perm.cons b (mergeChains_perm dataOf (a :: ca) cb)) ?_
      exact List.perm_middle.symm
    · rw [if_neg hlt]
      exact List.Perm.cons a (mergeChains_perm dataOf ca (b :: cb))
termination_by ca cb => ca.length + cb.length

/-- The first chain stays in relative order inside the merge. -/
theorem mergeChains_sublist_left [LT V] [DecidableRel (α := V) (· < ·)]
    (dataOf : Nat → Option V) :
    ∀ (ca cb : List Nat), List.Sublist ca (mergeChains dataOf ca cb)
  | ca, [] => by rw [mergeChains_nil_right]
  | [], b :: cb => by simp
  | a :: ca, b :: cb => by
    rw [mergeChains]
    by_cases hlt : list.ltData (dataOf b) (dataOf a) = true
    · rw [if_pos hlt]
      exact (mergeChains_sublist_left dataOf (a :: ca) cb).cons b
    · rw [if_neg hlt]
      exact (mergeChains_sublist_left dataOf ca (b :: cb)).cons₂ a
termination_by ca cb => ca.length + cb.length

/-- The second chain stays in relative order inside the merge. -/
theorem mergeChains_sublist_right [LT V] [DecidableRel (α := V) (· < ·)]
    (dataOf : Nat → Option V) :
    ∀ (ca cb : List Nat), List.Sublist cb (mergeChains dataOf ca cb)
  | ca, [] => by rw [mergeChains_nil_right]; exact List.nil_sublist ca
  | [], b :: cb => by rw [mergeChains_nil_left]
  | a :: ca, b :: cb => by
    rw [mergeChains]
    by_cases hlt : list.ltData (dataOf b) (dataOf a) = true
    · rw [if_pos hlt]
      exact (mergeChains_sublist_right dataOf (a :: ca) cb).cons₂ b
    · rw [if_neg hlt]
      exact (mergeChains_sublist_right dataOf ca (b :: cb)).cons a
termination_by ca cb => ca.length + cb.length

/-- The standard stable merge on value sequences: take from the second
sequence only when strictly less. -/
def mergeVals [LT V] [DecidableRel (α := V) (· < ·)] : List V → List V → List V
  | va, [] => va
  | [], b :: vb => b :: vb
  | a :: va, b :: vb =>
    if b < a then b :: mergeVals (a :: va) vb
    else a :: mergeVals va (b :: vb)
termination_by va vb => va.length + vb.length

/-- The values along `mergeChains` are the stable merge of the values,
whenever every node of both chains holds a constructed value. -/
theorem mergeChains_vals [LT V] [DecidableRel (α := V) (· < ·)]
    (dataOf : Nat → Option V) :
    ∀ (ca cb : List Nat),
      (∀ i ∈ ca, (dataOf i).isSome) → (∀ i ∈ cb, (dataOf i).isSome) →
      (mergeChains dataOf ca cb).filterMap dataOf =
        mergeVals (ca.filterMap dataOf) (cb.filterMap dataOf)
  | ca, [] => by
    intro _ _
    rw [mergeChains_nil_right, List.filterMap_nil, mergeVals]
  | [], b :: cb => by
    intro _ hb
    obtain ⟨vb, hvb⟩ := Option.isSome_iff_exists.mp (hb b (by simp))
    rw [mergeChains_nil_left, List.filterMap_nil, List.filterMap_cons_some hvb, mergeVals]
  | a :: ca, b :: cb => by
    intro ha hb
    obtain ⟨va, hva⟩ := Option.isSome_iff_exists.mp (ha a (by simp))
    obtain ⟨vb, hvb⟩ := Option.isSome_iff_exists.mp (hb b (by simp))
    have hlt : list.ltData (dataOf b) (dataOf a) = decide (vb < va) := by
      rw [hva, hvb]; rfl
    have ih1 := mergeChains_vals dataOf (a :: ca) cb ha
      (fun i hi => hb i (by simp [hi]))
    have ih2 := mergeChains_vals dataOf ca (b :: cb)
      (fun i hi => ha i (by simp [hi])) hb
    rw [List.filterMap_cons_some hva, List.filterMap_cons_some hvb,
      mergeChains, mergeVals, hlt]
    by_cases hc : vb < va
    · rw [if_pos (decide_eq_true hc), if_pos hc, List.filterMap_cons_some hvb, ih1,
        List.filterMap_cons_some hva]
    · rw [if_neg (fun hh => hc (of_decide_eq_true hh)), if_neg hc,
        List.filterMap_cons_some hva, ih2, List.filterMap_cons_some hvb]
termination_by ca cb => ca.length + cb.length

/-- The drain loop of `merge`: appends every remaining `other` node at
`self`'s tail, in order, leaving `other` empty. -/
theorem mergeDrain_spec :
    ∀ (fuel : Nat) (restB done : List Nat) (h : Heap V) (LA LB : ListHandle),
      Wf h LA done → Wf h LB restB →
      (∀ i ∈ full LA done, i ∉ full LB restB) →
      restB.length < fuel →
      Wf (list.mergeDrain fuel h LA LB (restB.headD LB.tail)).1
        (list.mergeDrain fuel h LA LB (restB.headD LB.tail)).2.1 (done ++ restB) ∧
      Wf (list.mergeDrain fuel h LA LB (restB.headD LB.tail)).1
        (list.mergeDrain fuel h LA LB (restB.headD LB.tail)).2.2 [] ∧
      (∀ i, ((list.mergeDrain fuel h LA LB (restB.headD LB.tail)).1.get i).data =
        (h.get i).data) ∧
      (list.mergeDrain fuel h LA LB (restB.headD LB.tail)).1.nextAlloc = h.nextAlloc ∧
      (∀ i, i ∉ full LA done → i ∉ full LB restB →
        (list.mergeDrain fuel h LA LB (restB.headD LB.tail)).1.mem i = h.mem i) ∧
      (list.mergeDrain fuel h LA LB (restB.headD LB.tail)).2.1.head = LA.head ∧
      (list.mergeDrain fuel h LA LB (restB.headD LB.tail)).2.1.tail = LA.tail ∧
      (list.mergeDrain fuel h LA LB (restB.headD LB.tail)).2.2.head = LB.head ∧
      (list.mergeDrain fuel h LA LB (restB.headD LB.tail)).2.2.tail = LB.tail := by
  intro fuel
  induction fuel with
  | zero => intro restB done h LA LB _ _ _ hlen; omega
  | succ f ih =>
    intro restB done h LA LB WA WB disj hlen
    cases restB with
    | nil =>
      have e : list.mergeDrain (f + 1) h LA LB ([].headD LB.tail) = (h, LA, LB) := by
        simp [list.mergeDrain]
      rw [e, List.append_nil]
      exact ⟨WA, WB, fun i => rfl, rfl, fun i _ _ => rfl, rfl, rfl, rfl, rfl⟩
    | cons b bs =>
      have hbtail : b ≠ LB.tail := (chain_mem_ne_sentinels WB (by simp)).2
      have hbn : (h.get b).next = bs.headD LB.tail := wf_next_at [] bs WB
      obtain ⟨WB1, Bdata, Bframe, Bxmem, Balloc, Bhandle, Bnx, Bpv⟩ :=
        eraseNode_wf [] bs b WB
      have hbfullB : b ∈ full LB (b :: bs) := by simp [full]
      have hbnotinA : b ∉ full LA done := fun hc => disj b hc hbfullB
      have hbnotinB1 : b ∉ full (list.eraseNode h LB b).2 bs := by
        rw [Bhandle]
        exact notin_full_of_nodup [] bs WB.nodup
      have hfullB1sub : ∀ i, i ∈ full (list.eraseNode h LB b).2 bs →
          i ∈ full LB (b :: bs) := by
        intro i hi
        rw [Bhandle] at hi
        simp only [full, List.mem_cons, List.mem_append, List.mem_singleton] at hi ⊢
        tauto
      have WA1 : Wf (list.eraseNode h LB b).1 LA (done ++ []) := by
        rw [List.append_nil]
        refine wf_congr WA ?_ (le_of_eq Balloc.symm)
        intro i hi
        exact Bframe i (disj i hi)
      have hbnotinA0 : b ∉ full LA (done ++ []) := by
        rw [List.append_nil]; exact hbnotinA
      obtain ⟨WA2, Adata, Aframe, Aalloc, Ahandle⟩ :=
        insertNode_wf done [] b WA1
          (WB.bounds b hbfullB).1 (by rw [Balloc]; exact (WB.bounds b hbfullB).2)
          (by rw [Bdata b]; exact WB.valData b (by simp)) hbnotinA0
      simp only [List.append_nil] at Aframe
      have WB2 : Wf (list.insertNode (list.eraseNode h LB b).1 LA ([].headD LA.tail) b).1
          (list.eraseNode h LB b).2 bs := by
        refine wf_congr WB1 ?_ (le_of_eq Aalloc.symm)
        intro i hi
        refine Aframe i (fun hc => disj i hc (hfullB1sub i hi)) ?_
        exact fun hh => hbnotinB1 (hh ▸ hi)
      have disj2 : ∀ i ∈ full (list.insertNode (list.eraseNode h LB b).1 LA
          ([].headD LA.tail) b).2 (done ++ [b]),
          i ∉ full (list.eraseNode h LB b).2 bs := by
        intro i hi
        have hi2 : i = b ∨ i ∈ full LA done := by
          rw [Ahandle] at hi
          simp only [full, List.mem_cons, List.mem_append, List.mem_singleton] at hi ⊢
          tauto
        rcases hi2 with hh | hh
        · exact hh ▸ hbnotinB1
        · intro hc
          exact disj i hh (hfullB1sub i hc)
      have hlen2 : bs.length < f := by simp at hlen; omega
      obtain ⟨Q1, Q2, Q3, Q4, Q5, Q6, Q7, Q8, Q9⟩ :=
        ih bs (done ++ [b])
          (list.insertNode (list.eraseNode h LB b).1 LA ([].headD LA.tail) b).1
          (list.insertNode (list.eraseNode h LB b).1 LA ([].headD LA.tail) b).2
          (list.eraseNode h LB b).2 WA2 WB2 disj2 hlen2
      have e : list.mergeDrain (f + 1) h LA LB ((b :: bs).headD LB.tail) =
          list.mergeDrain f
            (list.insertNode (list.eraseNode h LB b).1 LA ([].headD LA.tail) b).1
            (list.insertNode (list.eraseNode h LB b).1 LA ([].headD LA.tail) b).2
            (list.eraseNode h LB b).2 (bs.headD (list.eraseNode h LB b).2.tail) := by
        show list.mergeDrain (f + 1) h LA LB b = _
        rw [list.mergeDrain, if_pos hbtail, hbn]
        rfl
      rw [e]
      have hassoc : (done ++ [b]) ++ bs = done ++ b :: bs := by
        simp [List.append_assoc]
      rw [hassoc] at Q1
      refine ⟨Q1, Q2, ?_, ?_, ?_, Q6, Q7, Q8, Q9⟩
      · intro i
        rw [Q3 i, Adata i, Bdata i]
      · rw [Q4, Aalloc, Balloc]
      · intro i hiA hiB
        have hib : i ≠ b := fun hh => hiB (hh ▸ hbfullB)
        have hiA2 : i ∉ full (list.insertNode (list.eraseNode h LB b).1 LA
            ([].headD LA.tail) b).2 (done ++ [b]) := by
          intro hc
          rw [Ahandle] at hc
          refine hiA ?_
          simp only [full, List.mem_cons, List.mem_append, List.mem_singleton] at hc ⊢
          tauto
        have hiB2 : i ∉ full (list.eraseNode h LB b).2 bs :=
          fun hc => hiB (hfullB1sub i hc)
        rw [Q5 i hiA2 hiB2]
        rw [Aframe i hiA hib, Bframe i hiB]

/-- The first loop of `merge`: interleaves `other`'s strictly-smaller
nodes into `self`.  `done` is the already-processed prefix of `self`'s
chain; the cursors rest at the heads of `restA`/`restB`.  The result is
characterized by `mergeChains`: the loop produces `done ++ ma` in `self`
and leaves `restB2` in `other`, with
`mergeChains restA restB = ma ++ restB2`. -/
theorem mergeLoop_spec [LT V] [DecidableRel (α := V) (· < ·)] :
    ∀ (fuel : Nat) (done restA restB : List Nat) (h : Heap V) (LA LB : ListHandle),
      Wf h LA (done ++ restA) → Wf h LB restB →
      (∀ i ∈ full LA (done ++ restA), i ∉ full LB restB) →
      restA.length + restB.length < fuel →
      ∃ ma restB2,
        mergeChains (fun i => (h.get i).data) restA restB = ma ++ restB2 ∧
        Wf (list.mergeLoop fuel h LA LB (restA.headD LA.tail) (restB.headD LB.tail)).1
          (list.mergeLoop fuel h LA LB (restA.headD LA.tail) (restB.headD LB.tail)).2.1
          (done ++ ma) ∧
        Wf (list.mergeLoop fuel h LA LB (restA.headD LA.tail) (restB.headD LB.tail)).1
          (list.mergeLoop fuel h LA LB (restA.headD LA.tail) (restB.headD LB.tail)).2.2.1
          restB2 ∧
        (∀ i ∈ full (list.mergeLoop fuel h LA LB (restA.headD LA.tail)
            (restB.headD LB.tail)).2.1 (done ++ ma),
          i ∉ full (list.mergeLoop fuel h LA LB (restA.headD LA.tail)
            (restB.headD LB.tail)).2.2.1 restB2) ∧
        (∀ i, ((list.mergeLoop fuel h LA LB (restA.headD LA.tail)
            (restB.headD LB.tail)).1.get i).data = (h.get i).data) ∧
        (list.mergeLoop fuel h LA LB (restA.headD LA.tail)
          (restB.headD LB.tail)).1.nextAlloc = h.nextAlloc ∧
        (∀ i, i ∉ full LA (done ++ restA) → i ∉ full LB restB →
          (list.mergeLoop fuel h LA LB (restA.headD LA.tail)
            (restB.headD LB.tail)).1.mem i = h.mem i) ∧
        (list.mergeLoop fuel h LA LB (restA.headD LA.tail)
          (restB.headD LB.tail)).2.1.head = LA.head ∧
        (list.mergeLoop fuel h LA LB (restA.headD LA.tail)
          (restB.headD LB.tail)).2.1.tail = LA.tail ∧
        (list.mergeLoop fuel h LA LB (restA.headD LA.tail)
          (restB.headD LB.tail)).2.2.1.head = LB.head ∧
        (list.mergeLoop fuel h LA LB (restA.headD LA.tail)
          (restB.headD LB.tail)).2.2.1.tail = LB.tail ∧
        (list.mergeLoop fuel h LA LB (restA.headD LA.tail)
          (restB.headD LB.tail)).2.2.2.2 = restB2.headD LB.tail := by
  intro fuel
  induction fuel with
  | zero => intro done restA restB h LA LB _ _ _ hlen; omega
  | succ f ih =>
    intro done restA restB h LA LB WA WB disj hlen
    cases restB with
    | nil =>
      have e : list.mergeLoop (f + 1) h LA LB (restA.headD LA.tail) ([].headD LB.tail) =
          (h, LA, LB, restA.headD LA.tail, [].headD LB.tail) := by
        rw [list.mergeLoop, if_neg]
        intro hcond
        exact hcond.2 rfl
      refine ⟨restA, [], ?_, ?_⟩
      · rw [mergeChains_nil_right, List.append_nil]
      rw [e]
      exact ⟨WA, WB, fun i hi => disj i hi, fun i => rfl, rfl, fun i _ _ => rfl,
        rfl, rfl, rfl, rfl, rfl⟩
    | cons b bs =>
      cases restA with
      | nil =>
        have e : list.mergeLoop (f + 1) h LA LB ([].headD LA.tail)
            ((b :: bs).headD LB.tail) =
            (h, LA, LB, [].headD LA.tail, (b :: bs).headD LB.tail) := by
          rw [list.mergeLoop, if_neg]
          intro hcond
          exact hcond.1 rfl
        refine ⟨[], b :: bs, ?_, ?_⟩
        · rw [mergeChains_nil_left, List.nil_append]
        rw [e]
        exact ⟨WA, WB, fun i hi => disj i hi, fun i => rfl, rfl, fun i _ _ => rfl,
          rfl, rfl, rfl, rfl, rfl⟩
      | cons a as =>
        have hamem : a ∈ done ++ a :: as := by simp
        have hatail : a ≠ LA.tail := (chain_mem_ne_sentinels WA hamem).2
        have hbtail : b ≠ LB.tail := (chain_mem_ne_sentinels WB (by simp)).2
        by_cases hlt : list.ltData ((h.get b).data) ((h.get a).data) = true
        · -- move other's front node before this cursor
          have hbn : (h.get b).next = bs.headD LB.tail := wf_next_at [] bs WB
          obtain ⟨WB1, Bdata, Bframe, Bxmem, Balloc, Bhandle, Bnx, Bpv⟩ :=
            eraseNode_wf [] bs b WB
          have hbfullB : b ∈ full LB (b :: bs) := by simp [full]
          have hbnotinA : b ∉ full LA (done ++ a :: as) := fun hc => disj b hc hbfullB
          have hbnotinB1 : b ∉ full (list.eraseNode h LB b).2 bs := by
            rw [Bhandle]
            exact notin_full_of_nodup [] bs WB.nodup
          have hfullB1sub : ∀ i, i ∈ full (list.eraseNode h LB b).2 bs →
              i ∈ full LB (b :: bs) := by
            intro i hi
            rw [Bhandle] at hi
            simp only [full, List.mem_cons, List.mem_append, List.mem_singleton] at hi ⊢
            tauto
          have WA1 : Wf (list.eraseNode h LB b).1 LA (done ++ a :: as) := by
            refine wf_congr WA ?_ (le_of_eq Balloc.symm)
            intro i hi
            exact Bframe i (disj i hi)
          obtain ⟨WA2, Adata, Aframe, Aalloc, Ahandle⟩ :=
            insertNode_wf done (a :: as) b WA1
              (WB.bounds b hbfullB).1 (by rw [Balloc]; exact (WB.bounds b hbfullB).2)
              (by rw [Bdata b]; exact WB.valData b (by simp)) hbnotinA
          simp only [List.headD_cons] at WA2 Adata Aframe Aalloc Ahandle
          have WB2 : Wf (list.insertNode (list.eraseNode h LB b).1 LA a b).1
              (list.eraseNode h LB b).2 bs := by
            refine wf_congr WB1 ?_ (le_of_eq Aalloc.symm)
            intro i hi
            refine Aframe i (fun hc => disj i hc (hfullB1sub i hi)) ?_
            exact fun hh => hbnotinB1 (hh ▸ hi)
          have WA2b : Wf (list.insertNode (list.eraseNode h LB b).1 LA a b).1
              (list.insertNode (list.eraseNode h LB b).1 LA a b).2
              ((done ++ [b]) ++ a :: as) := by
            have he : (done ++ [b]) ++ a :: as = done ++ b :: a :: as := by
              simp [List.append_assoc]
            rw [he]
            exact WA2
          have disj2 : ∀ i ∈ full (list.insertNode (list.eraseNode h LB b).1 LA a b).2
              ((done ++ [b]) ++ a :: as),
              i ∉ full (list.eraseNode h LB b).2 bs := by
            intro i hi
            have hi2 : i = b ∨ i ∈ full LA (done ++ a :: as) := by
              rw [Ahandle] at hi
              simp only [full, List.mem_cons, List.mem_append, List.mem_singleton] at hi ⊢
              tauto
            rcases hi2 with hh | hh
            · exact hh ▸ hbnotinB1
            · intro hc
              exact disj i hh (hfullB1sub i hc)
          have hlen2 : (a :: as).length + bs.length < f := by
            simp at hlen ⊢; omega
          obtain ⟨ma, restB2, Emc, Q2, Q3, Q4, Q5, Q6, Q7, Q8, Q9, Q10, Q11, Q12⟩ :=
            ih (done ++ [b]) (a :: as) bs
              (list.insertNode (list.eraseNode h LB b).1 LA a b).1
              (list.insertNode (list.eraseNode h LB b).1 LA a b).2
              (list.eraseNode h LB b).2 WA2b WB2 disj2 hlen2
          have e : list.mergeLoop (f + 1) h LA LB ((a :: as).headD LA.tail)
              ((b :: bs).headD LB.tail) =
              list.mergeLoop f (list.insertNode (list.eraseNode h LB b).1 LA a b).1
                (list.insertNode (list.eraseNode h LB b).1 LA a b).2
                (list.eraseNode h LB b).2
                ((a :: as).headD
                  (list.insertNode (list.eraseNode h LB b).1 LA a b).2.tail)
                (bs.headD (list.eraseNode h LB b).2.tail) := by
            rw [list.mergeLoop]
            simp only [List.headD_cons]
            rw [if_pos ⟨hatail, hbtail⟩, if_pos hlt, hbn]
            rfl
          have hdf : (fun i =>
              ((list.mergeLoop f (list.insertNode (list.eraseNode h LB b).1 LA a b).1
                (list.insertNode (list.eraseNode h LB b).1 LA a b).2
                (list.eraseNode h LB b).2
                ((a :: as).headD
                  (list.insertNode (list.eraseNode h LB b).1 LA a b).2.tail)
                (bs.headD (list.eraseNode h LB b).2.tail)).1.get i).data) =
              (fun i => (h.get i).data) := by
            funext i
            rw [Q5 i, Adata i, Bdata i]
          have hdf2 : (fun i => ((list.insertNode (list.eraseNode h LB b).1 LA a b).1.get
              i).data) = (fun i => (h.get i).data) := by
            funext i
            rw [Adata i, Bdata i]
          rw [hdf2] at Emc
          refine ⟨b :: ma, restB2, ?_, ?_⟩
          · rw [mergeChains, if_pos hlt, Emc]
            rfl
          rw [e]
          have hassoc : done ++ b :: ma = (done ++ [b]) ++ ma := by
            simp [List.append_assoc]
          rw [hassoc]
          refine ⟨Q2, Q3, Q4, ?_, ?_, ?_, Q8, Q9, Q10, Q11, Q12⟩
          · intro i
            rw [Q5 i, Adata i, Bdata i]
          · rw [Q6, Aalloc, Balloc]
          · intro i hiA hiB
            have hib : i ≠ b := fun hh => hiB (hh ▸ hbfullB)
            have hiA2 : i ∉ full (list.insertNode (list.eraseNode h LB b).1 LA a b).2
                ((done ++ [b]) ++ a :: as) := by
              intro hc
              rw [Ahandle] at hc
              refine hiA ?_
              simp only [full, List.mem_cons, List.mem_append, List.mem_singleton] at hc ⊢
              tauto
            have hiB2 : i ∉ full (list.eraseNode h LB b).2 bs :=
              fun hc => hiB (hfullB1sub i hc)
            rw [Q7 i hiA2 hiB2, Aframe i hiA hib, Bframe i hiB]
        · -- keep this cursor's node; advance
          have han : (h.get a).next = as.headD LA.tail := wf_next_at done as WA
          have WAr : Wf h LA ((done ++ [a]) ++ as) := by
            have he : (done ++ [a]) ++ as = done ++ a :: as := by
              simp [List.append_assoc]
            rw [he]
            exact WA
          have disjr : ∀ i ∈ full LA ((done ++ [a]) ++ as), i ∉ full LB (b :: bs) := by
            intro i hi
            refine disj i ?_
            have he : (done ++ [a]) ++ as = done ++ a :: as := by
              simp [List.append_assoc]
            rwa [he] at hi
          have hlen2 : as.length + (b :: bs).length < f := by
            simp at hlen ⊢; omega
          obtain ⟨ma, restB2, Emc, Q2, Q3, Q4, Q5, Q6, Q7, Q8, Q9, Q10, Q11, Q12⟩ :=
            ih (done ++ [a]) as (b :: bs) h LA LB WAr WB disjr hlen2
          have e : list.mergeLoop (f + 1) h LA LB ((a :: as).headD LA.tail)
              ((b :: bs).headD LB.tail) =
              list.mergeLoop f h LA LB (as.headD LA.tail) ((b :: bs).headD LB.tail) := by
            rw [list.mergeLoop]
            simp only [List.headD_cons]
            rw [if_pos ⟨hatail, hbtail⟩, if_neg hlt, han]
          refine ⟨a :: ma, restB2, ?_, ?_⟩
          · rw [mergeChains, if_neg hlt, Emc]
            rfl
          rw [e]
          have hassoc : done ++ a :: ma = (done ++ [a]) ++ ma := by
            simp [List.append_assoc]
          rw [hassoc]
          have hframe : ∀ i, i ∉ full LA (done ++ a :: as) → i ∉ full LB (b :: bs) →
              (list.mergeLoop f h LA LB (as.headD LA.tail)
                ((b :: bs).headD LB.tail)).1.mem i = h.mem i := by
            intro i hiA hiB
            refine Q7 i ?_ hiB
            intro hc
            refine hiA ?_
            simp only [full, List.mem_cons, List.mem_append, List.mem_singleton] at hc ⊢
            tauto
          exact ⟨Q2, Q3, Q4, Q5, Q6, hframe, Q8, Q9, Q10, Q11, Q12⟩

/-- `merge(other)` on two distinct well-formed containers with disjoint
nodes: `self`'s chain becomes the `mergeChains` interleaving of the two
chains (relinking only: every stored value stays in its node, nothing is
allocated or freed), and `other` ends empty with its two sentinels linked
to each other. -/
theorem merge_wf [LT V] [DecidableRel (α := V) (· < ·)] (selfId otherId : Nat)
    (hne : selfId ≠ otherId) {h : Heap V} {LA LB : ListHandle} {ca cb : List Nat}
    (WA : Wf h LA ca) (WB : Wf h LB cb)
    (disj : ∀ i ∈ full LA ca, i ∉ full LB cb) :
    Wf (list.merge h selfId otherId LA LB).1 (list.merge h selfId otherId LA LB).2.1
      (mergeChains (fun i => (h.get i).data) ca cb) ∧
    Wf (list.merge h selfId otherId LA LB).1 (list.merge h selfId otherId LA LB).2.2 [] ∧
    (∀ i, ((list.merge h selfId otherId LA LB).1.get i).data = (h.get i).data) ∧
    (list.merge h selfId otherId LA LB).1.nextAlloc = h.nextAlloc ∧
    (∀ i, i ∉ full LA ca → i ∉ full LB cb →
      (list.merge h selfId otherId LA LB).1.mem i = h.mem i) ∧
    (list.merge h selfId otherId LA LB).2.1.head = LA.head ∧
    (list.merge h selfId otherId LA LB).2.1.tail = LA.tail ∧
    (list.merge h selfId otherId LA LB).2.2.head = LB.head ∧
    (list.merge h selfId otherId LA LB).2.2.tail = LB.tail := by
  have hlen : ca.length + cb.length < LA.list_size + LB.list_size + 1 := by
    rw [WA.sizeEq, WB.sizeEq]
    omega
  obtain ⟨ma, restB2, Emc, Q2, Q3, Q4, Q5, Q6, Q7, Q8, Q9, Q10, Q11, Q12⟩ :=
    mergeLoop_spec (LA.list_size + LB.list_size + 1) [] ca cb h LA LB WA WB
      (fun i hi => disj i hi) hlen
  have hmasub : ∀ i, i ∈ ma → i ∈ ca ∨ i ∈ cb := by
    intro i hi
    have hp := mergeChains_perm (fun j => (h.get j).data) ca cb
    rw [Emc] at hp
    have : i ∈ ca ++ cb := hp.subset (List.mem_append.mpr (Or.inl hi))
    exact List.mem_append.mp this
  have hrb2sub : ∀ i, i ∈ restB2 → i ∈ ca ∨ i ∈ cb := by
    intro i hi
    have hp := mergeChains_perm (fun j => (h.get j).data) ca cb
    rw [Emc] at hp
    have : i ∈ ca ++ cb := hp.subset (List.mem_append.mpr (Or.inr hi))
    exact List.mem_append.mp this
  have hlen2 : restB2.length <
      (list.mergeLoop (LA.list_size + LB.list_size + 1) h LA LB (ca.headD LA.tail)
        (cb.headD LB.tail)).2.2.1.list_size + 1 := by
    rw [Q3.sizeEq]
    omega
  obtain ⟨D1, D2, D3, D4, D5, D6, D7, D8, D9⟩ :=
    mergeDrain_spec
      ((list.mergeLoop (LA.list_size + LB.list_size + 1) h LA LB (ca.headD LA.tail)
        (cb.headD LB.tail)).2.2.1.list_size + 1)
      restB2 ([] ++ ma)
      (list.mergeLoop (LA.list_size + LB.list_size + 1) h LA LB (ca.headD LA.tail)
        (cb.headD LB.tail)).1
      (list.mergeLoop (LA.list_size + LB.list_size + 1) h LA LB (ca.headD LA.tail)
        (cb.headD LB.tail)).2.1
      (list.mergeLoop (LA.list_size + LB.list_size + 1) h LA LB (ca.headD LA.tail)
        (cb.headD LB.tail)).2.2.1
      Q2 Q3 Q4 hlen2
  have e : list.merge h selfId otherId LA LB =
      list.mergeDrain
        ((list.mergeLoop (LA.list_size + LB.list_size + 1) h LA LB (ca.headD LA.tail)
          (cb.headD LB.tail)).2.2.1.list_size + 1)
        (list.mergeLoop (LA.list_size + LB.list_size + 1) h LA LB (ca.headD LA.tail)
          (cb.headD LB.tail)).1
        (list.mergeLoop (LA.list_size + LB.list_size + 1) h LA LB (ca.headD LA.tail)
          (cb.headD LB.tail)).2.1
        (list.mergeLoop (LA.list_size + LB.list_size + 1) h LA LB (ca.headD LA.tail)
          (cb.headD LB.tail)).2.2.1
        (restB2.headD
          (list.mergeLoop (LA.list_size + LB.list_size + 1) h LA LB (ca.headD LA.tail)
            (cb.headD LB.tail)).2.2.1.tail) := by
    have e0 : list.merge h selfId otherId LA LB =
        list.mergeDrain
          ((list.mergeLoop (LA.list_size + LB.list_size + 1) h LA LB
            ((h.get LA.head).next) ((h.get LB.head).next)).2.2.1.list_size + 1)
          (list.mergeLoop (LA.list_size + LB.list_size + 1) h LA LB
            ((h.get LA.head).next) ((h.get LB.head).next)).1
          (list.mergeLoop (LA.list_size + LB.list_size + 1) h LA LB
            ((h.get LA.head).next) ((h.get LB.head).next)).2.1
          (list.mergeLoop (LA.list_size + LB.list_size + 1) h LA LB
            ((h.get LA.head).next) ((h.get LB.head).next)).2.2.1
          (list.mergeLoop (LA.list_size + LB.list_size + 1) h LA LB
            ((h.get LA.head).next) ((h.get LB.head).next)).2.2.2.2 := by
      rw [list.merge, if_neg hne]
    rw [e0, wf_head_next WA, wf_head_next WB, Q12, Q11]
  rw [e]
  refine ⟨?_, D2, ?_, ?_, ?_, ?_, ?_, ?_, ?_⟩
  · have hchain : mergeChains (fun i => (h.get i).data) ca cb = ([] ++ ma) ++ restB2 := by
      rw [List.nil_append, Emc]
    rw [hchain]
    exact D1
  · intro i
    rw [D3 i, Q5 i]
  · rw [D4, Q6]
  · intro i hiA hiB
    have hica : i ∉ ca := fun hc => hiA (by simp [full, hc])
    have hicb : i ∉ cb := fun hc => hiB (by simp [full, hc])
    have hiA2 : i ∉ full (list.mergeLoop (LA.list_size + LB.list_size + 1) h LA LB
        (ca.headD LA.tail) (cb.headD LB.tail)).2.1 ([] ++ ma) := by
      intro hc
      simp only [full, Q8, Q9, List.nil_append, List.mem_cons, List.mem_append,
        List.mem_singleton] at hc
      rcases hc with hc | hc | hc
      · refine hiA ?_
        rw [hc]
        simp [full]
      · rcases hmasub i hc with hh | hh
        · exact hica hh
        · exact hicb hh
      · rcases hc with hc | hc
        · refine hiA ?_
          rw [hc]
          simp [full]
        · simp at hc
    have hiB2 : i ∉ full (list.mergeLoop (LA.list_size + LB.list_size + 1) h LA LB
        (ca.headD LA.tail) (cb.headD LB.tail)).2.2.1 restB2 := by
      intro hc
      simp only [full, Q10, Q11, List.mem_cons, List.mem_append,
        List.mem_singleton] at hc
      rcases hc with hc | hc | hc
      · refine hiB ?_
        rw [hc]
        simp [full]
      · rcases hrb2sub i hc with hh | hh
        · exact hica hh
        · exact hicb hh
      · rcases hc with hc | hc
        · refine hiB ?_
          rw [hc]
          simp [full]
        · simp at hc
    rw [D5 i hiA2 hiB2, Q7 i hiA hiB]
  · rw [D6, Q8]
  · rw [D7, Q9]
  · rw [D8, Q10]
  · rw [D9, Q11]

/-! ## Reverse -/

/-- A forward walk: consecutive `next` links, ending with a null `next`. -/
def isWalk (h : Heap V) : List Nat → Prop
  | [] => True
  | [x] => (h.get x).next = 0
  | x :: y :: r => (h.get x).next = y ∧ isWalk h (y :: r)

/-- The node with prev and next exchanged. -/
def swapNode (n : Node V) : Node V := ⟨n.data, n.next, n.prev⟩

theorem isWalk_congr {h h' : Heap V} :
    ∀ l : List Nat, (∀ i ∈ l, h'.get i = h.get i) → isWalk h l → isWalk h' l := by
  intro l
  induction l with
  | nil => intro _ _; trivial
  | cons x r ih =>
    cases r with
    | nil =>
      intro hg hw
      show (h'.get x).next = 0
      rw [hg x (by simp)]
      exact hw
    | cons y r2 =>
      intro hg hw
      refine ⟨?_, ih (fun i hi => hg i (by simp at hi ⊢; tauto)) hw.2⟩
      rw [hg x (by simp)]
      exact hw.1

/-- The reverse loop swaps `prev`/`next` on every node along the walk and
touches nothing else. -/
theorem reverseLoop_spec :
    ∀ (l : List Nat) (fuel : Nat) (h : Heap V),
      isWalk h l → l.Nodup → (∀ i ∈ l, 0 < i) → (∀ i ∈ l, (h.mem i).isSome) →
      l.length ≤ fuel →
      (∀ i ∈ l, (list.reverseLoop fuel h (l.headD 0)).mem i = some (swapNode (h.get i))) ∧
      (∀ i, i ∉ l → (list.reverseLoop fuel h (l.headD 0)).mem i = h.mem i) ∧
      (list.reverseLoop fuel h (l.headD 0)).nextAlloc = h.nextAlloc := by
  intro l
  induction l with
  | nil =>
    intro fuel h _ _ _ _ _
    refine ⟨fun i hi => by simp at hi, fun i _ => ?_, ?_⟩
    · cases fuel with
      | zero => rfl
      | succ f => simp [list.reverseLoop]
    · cases fuel with
      | zero => rfl
      | succ f => simp [list.reverseLoop]
  | cons x r ih =>
    intro fuel h hw hnd hpos hsome hfuel
    cases fuel with
    | zero => simp at hfuel
    | succ f =>
      have hx0 : x ≠ 0 := by
        have := hpos x (by simp)
        omega
      have hxnr : x ∉ r := (List.nodup_cons.mp hnd).1
      have hnext : (h.get x).next = r.headD 0 := by
        cases r with
        | nil => exact hw
        | cons y r2 => exact hw.1
      have e : list.reverseLoop (f + 1) h ((x :: r).headD 0) =
          list.reverseLoop f (h.set x (swapNode (h.get x))) ((h.get x).next) := by
        show list.reverseLoop (f + 1) h x = _
        rw [list.reverseLoop, if_neg hx0]
        rfl
      have hgr : ∀ i ∈ r, (h.set x (swapNode (h.get x))).get i = h.get i := by
        intro i hi
        exact get_set_ne h _ (fun hh => hxnr (by rw [← hh]; exact hi))
      have hw2 : isWalk (h.set x (swapNode (h.get x))) r := by
        refine isWalk_congr r hgr ?_
        cases r with
        | nil => trivial
        | cons y r2 => exact hw.2
      obtain ⟨I1, I2, I3⟩ := ih f (h.set x (swapNode (h.get x)))
        hw2 (List.nodup_cons.mp hnd).2 (fun i hi => hpos i (by simp [hi]))
        (fun i hi => by
          rw [mem_set_ne h _ (fun hh => hxnr (by rw [← hh]; exact hi))]
          exact hsome i (by simp [hi]))
        (by simp at hfuel; omega)
      rw [e, hnext]
      refine ⟨?_, ?_, ?_⟩
      · intro i hi
        rcases List.mem_cons.mp hi with hh | hh
        · subst hh
          rw [I2 i hxnr, mem_set_same]
        · rw [I1 i hh, hgr i hh]
      · intro i hi
        rw [I2 i (fun hh => hi (by simp [hh]))]
        exact mem_set_ne h _ (fun hh => hi (by simp [hh]))
      · rw [I3]
        rfl

/-- An `isPath` whose final node has a null `next` is a forward walk. -/
theorem isWalk_of_isPath {h : Heap V} :
    ∀ (l : List Nat) (s t : Nat), isPath h s l t → (h.get t).next = 0 →
      isWalk h (s :: l ++ [t]) := by
  intro l
  induction l with
  | nil =>
    intro s t hp ht
    exact ⟨hp.1, ht⟩
  | cons a r ih =>
    intro s t hp ht
    simp only [List.cons_append]
    exact ⟨hp.1.1, ih a t hp.2 ht⟩

/-- Extend a path by one node at the target end. -/
theorem isPath_snoc {h : Heap V} :
    ∀ (l : List Nat) (s m t : Nat), isPath h s l m → adjOk h m t →
      isPath h s (l ++ [m]) t := by
  intro l
  induction l with
  | nil =>
    intro s m t hp hadj
    exact ⟨hp, hadj⟩
  | cons a l2 ih =>
    intro s m t hp hadj
    exact ⟨hp.1, ih a m t hp.2 hadj⟩

/-- Reversing a doubly-linked path after swapping the links of every
node along it. -/
theorem isPath_swap {h h' : Heap V} :
    ∀ (l : List Nat) (s t : Nat), isPath h s l t →
      (∀ i ∈ s :: l ++ [t], h'.get i = swapNode (h.get i)) →
      isPath h' t l.reverse s := by
  intro l
  induction l with
  | nil =>
    intro s t hp hsw
    refine ⟨?_, ?_⟩
    · rw [hsw t (by simp)]; exact hp.2
    · rw [hsw s (by simp)]; exact hp.1
  | cons a r ih =>
    intro s t hp hsw
    have h1 : isPath h' t r.reverse a := by
      refine ih a t hp.2 ?_
      intro i hi
      refine hsw i ?_
      simp at hi ⊢
      tauto
    have h2 : adjOk h' a s := by
      refine ⟨?_, ?_⟩
      · rw [hsw a (by simp)]; exact hp.1.2
      · rw [hsw s (by simp)]; exact hp.1.1
    rw [List.reverse_cons]
    exact isPath_snoc r.reverse t a s h1 h2

/-- `reverse()` on a well-formed container: the chain is reversed in
place, no value moves, nothing outside the container changes. -/
theorem reverse_wf {h : Heap V} {L : ListHandle} {chain : List Nat} (W : Wf h L chain) :
    Wf (list.reverse h L).1 (list.reverse h L).2 chain.reverse ∧
    (∀ i, ((list.reverse h L).1.get i).data = (h.get i).data) ∧
    (∀ i, i ∉ full L chain → (list.reverse h L).1.mem i = h.mem i) ∧
    (list.reverse h L).1.nextAlloc = h.nextAlloc ∧
    (list.reverse h L).2.list_size = L.list_size ∧
    list.vals (list.reverse h L).1 (list.reverse h L).2 = (list.vals h L).reverse := by
  by_cases hsz : L.list_size ≤ 1
  · have e : list.reverse h L = (h, L) := by
      rw [list.reverse, if_pos hsz]
    have hlen : chain.length ≤ 1 := by rw [← W.sizeEq]; exact hsz
    have hrev : chain.reverse = chain := by
      cases chain with
      | nil => rfl
      | cons a t =>
        cases t with
        | nil => rfl
        | cons b t2 => simp at hlen
    have hvrev : (list.vals h L).reverse = list.vals h L := by
      have hl2 : (list.vals h L).length ≤ 1 := by
        rw [vals_length W]; exact hlen
      cases hv : list.vals h L with
      | nil => rfl
      | cons a t =>
        cases t with
        | nil => rfl
        | cons b t2 => rw [hv] at hl2; simp at hl2
    rw [e, hrev, hvrev]
    exact ⟨W, fun i => rfl, fun i _ => rfl, rfl, rfl, rfl⟩
  · have e : list.reverse h L =
        (list.reverseLoop (L.list_size + 3) h L.head, ⟨L.tail, L.head, L.list_size⟩) := by
      rw [list.reverse, if_neg hsz]
    have hwalk : isWalk h (full L chain) :=
      isWalk_of_isPath chain L.head L.tail W.links W.tailNext
    have hfuel : (full L chain).length ≤ L.list_size + 3 := by
      simp [full, W.sizeEq]
    obtain ⟨R1, R2, R3⟩ := reverseLoop_spec (full L chain) (L.list_size + 3) h hwalk
      W.nodup (fun i hi => (W.bounds i hi).1)
      (fun i hi => W.allocd i hi) hfuel
    have hhd : (full L chain).headD 0 = L.head := rfl
    rw [hhd] at R1 R2 R3
    have hget : ∀ i ∈ full L chain,
        (list.reverseLoop (L.list_size + 3) h L.head).get i = swapNode (h.get i) := by
      intro i hi
      simp [Heap.get, R1 i hi]
    have hgdata : ∀ i,
        ((list.reverseLoop (L.list_size + 3) h L.head).get i).data = (h.get i).data := by
      intro i
      by_cases hi : i ∈ full L chain
      · rw [hget i hi]; rfl
      · simp [Heap.get, R2 i hi]
    have hmemrev : ∀ i, i ∈ full ⟨L.tail, L.head, L.list_size⟩ chain.reverse ↔
        i ∈ full L chain := by
      intro i
      simp only [full, List.mem_cons, List.mem_append, List.mem_singleton,
        List.mem_reverse]
      tauto
    have W2 : Wf (list.reverseLoop (L.list_size + 3) h L.head)
        ⟨L.tail, L.head, L.list_size⟩ chain.reverse := by
      refine ⟨?_, ?_, ?_, ?_, ?_, ?_, ?_, ?_, ?_, ?_⟩
      · have hfr : full ⟨L.tail, L.head, L.list_size⟩ chain.reverse =
            (full L chain).reverse := by
          simp [full]
        rw [hfr]
        exact List.nodup_reverse.mpr W.nodup
      · intro i hi
        rw [R3]
        exact W.bounds i ((hmemrev i).mp hi)
      · intro i hi
        rw [R1 i ((hmemrev i).mp hi)]
        rfl
      · show ((list.reverseLoop (L.list_size + 3) h L.head).get L.tail).prev = 0
        rw [hget L.tail (by simp [full])]
        show (h.get L.tail).next = 0
        exact W.tailNext
      · show ((list.reverseLoop (L.list_size + 3) h L.head).get L.head).next = 0
        rw [hget L.head (by simp [full])]
        show (h.get L.head).prev = 0
        exact W.headPrev
      · show ((list.reverseLoop (L.list_size + 3) h L.head).get L.tail).data = none
        rw [hgdata L.tail]
        exact W.tailData
      · show ((list.reverseLoop (L.list_size + 3) h L.head).get L.head).data = none
        rw [hgdata L.head]
        exact W.headData
      · intro i hi
        rw [hgdata i]
        exact W.valData i (List.mem_reverse.mp hi)
      · show isPath (list.reverseLoop (L.list_size + 3) h L.head) L.tail
          chain.reverse L.head
        exact isPath_swap chain L.head L.tail W.links hget
      · exact W.sizeEq.trans (List.length_reverse chain).symm
    rw [e]
    refine ⟨W2, hgdata, ?_, R3, rfl, ?_⟩
    · intro i hi
      exact R2 i hi
    · rw [vals_eq W2, vals_eq W, ← List.filterMap_reverse]
      refine List.filterMap_congr ?_
      intro i hi
      rw [hgdata i]

/-! ## Sort -/

/-- The write-back loop of `sort`: only the `data` fields of the listed
nodes change, position by position. -/
theorem writeBack_spec :
    ∀ (ids : List Nat) (vs : List V) (h : Heap V), ids.Nodup →
      (∀ i, ((list.writeBack h ids vs).get i).prev = (h.get i).prev) ∧
      (∀ i, ((list.writeBack h ids vs).get i).next = (h.get i).next) ∧
      (∀ i, i ∉ ids → (list.writeBack h ids vs).mem i = h.mem i) ∧
      (∀ i, (h.mem i).isSome → ((list.writeBack h ids vs).mem i).isSome) ∧
      (∀ i, ((h.get i).data).isSome → (((list.writeBack h ids vs).get i).data).isSome) ∧
      (list.writeBack h ids vs).nextAlloc = h.nextAlloc ∧
      (ids.length = vs.length →
        ids.filterMap (fun i => ((list.writeBack h ids vs).get i).data) = vs) := by
  intro ids
  induction ids with
  | nil =>
    intro vs h _
    cases vs with
    | nil =>
      exact ⟨fun i => rfl, fun i => rfl, fun i _ => rfl, fun i hi => hi, fun i hi => hi,
        rfl, fun _ => rfl⟩
    | cons v vs2 =>
      refine ⟨fun i => rfl, fun i => rfl, fun i _ => rfl, fun i hi => hi, fun i hi => hi,
        rfl, fun hlen => ?_⟩
      simp at hlen
  | cons x ids2 ih =>
    intro vs h hnd
    cases vs with
    | nil =>
      exact ⟨fun i => rfl, fun i => rfl, fun i _ => rfl, fun i hi => hi, fun i hi => hi,
        rfl, fun hlen => by simp at hlen⟩
    | cons v vs2 =>
      have hxn : x ∉ ids2 := (List.nodup_cons.mp hnd).1
      have e : list.writeBack h (x :: ids2) (v :: vs2) =
          list.writeBack (h.set x { h.get x with data := some v }) ids2 vs2 := by
        rw [list.writeBack]
      obtain ⟨I1, I2, I3, I4, I5, I6, I7⟩ :=
        ih vs2 (h.set x { h.get x with data := some v }) (List.nodup_cons.mp hnd).2
      rw [e]
      refine ⟨?_, ?_, ?_, ?_, ?_, ?_, ?_⟩
      · intro i
        rw [I1 i]
        by_cases hix : i = x
        · subst hix
          rw [get_set_same]
        · rw [get_set_ne h _ hix]
      · intro i
        rw [I2 i]
        by_cases hix : i = x
        · subst hix
          rw [get_set_same]
        · rw [get_set_ne h _ hix]
      · intro i hi
        have hix : i ≠ x := fun hh => hi (by simp [hh])
        rw [I3 i (fun hh => hi (by simp [hh])), mem_set_ne h _ hix]
      · intro i hi
        refine I4 i ?_
        by_cases hix : i = x
        · subst hix
          simp
        · rw [mem_set_ne h _ hix]
          exact hi
      · intro i hi
        refine I5 i ?_
        by_cases hix : i = x
        · subst hix
          simp [get_set_same]
        · rw [get_set_ne h _ hix]
          exact hi
      · rw [I6]
        rfl
      · intro hlen
        simp only [List.length_cons] at hlen
        have hx : ((list.writeBack (h.set x { h.get x with data := some v }) ids2
            vs2).get x).data = some v := by
          have hmx := I3 x hxn
          rw [get_congr_of_mem hmx, get_set_same]
        rw [List.filterMap_cons_some
          (f := fun i => ((list.writeBack (h.set x { h.get x with data := some v })
            ids2 vs2).get i).data) hx]
        rw [I7 (by omega)]

/-- `sort()` on a well-formed container with an arbitrary buffer-sorting
collaborator `f`: the node structure (links, allocation) is untouched
and only values are rewritten in place; if `f` permutes the buffer, the
values in list order become exactly `f` of the old values. -/
theorem sortOp_wf {h : Heap V} {L : ListHandle} {chain : List Nat}
    (f : List V → List V) (W : Wf h L chain) :
    Wf (list.sortOp f h L) L chain ∧
    (∀ i, i ∉ full L chain → (list.sortOp f h L).mem i = h.mem i) ∧
    (∀ i, ((list.sortOp f h L).get i).prev = (h.get i).prev) ∧
    (∀ i, ((list.sortOp f h L).get i).next = (h.get i).next) ∧
    (list.sortOp f h L).nextAlloc = h.nextAlloc ∧
    ((f (list.vals h L)).Perm (list.vals h L) →
      list.vals (list.sortOp f h L) L = f (list.vals h L)) := by
  by_cases hsz : L.list_size ≤ 1
  · have e : list.sortOp f h L = h := by
      rw [list.sortOp, if_pos hsz]
    rw [e]
    refine ⟨W, fun i _ => rfl, fun i => rfl, fun i => rfl, rfl, fun hperm => ?_⟩
    have hlen : (list.vals h L).length ≤ 1 := by
      rw [vals_length W, ← W.sizeEq]
      exact hsz
    rcases hv : list.vals h L with _ | ⟨a, _ | ⟨b, t2⟩⟩
    · rw [hv] at hperm
      exact (List.Perm.eq_nil hperm).symm
    · rw [hv] at hperm
      exact (List.perm_singleton.mp hperm).symm
    · rw [hv] at hlen
      simp at hlen
  · have hnd : chain.Nodup := by
      have h2 : (chain ++ [L.tail]).Nodup := (List.nodup_cons.mp W.nodup).2
      exact (List.nodup_append.mp h2).1
    have hheadn : L.head ∉ chain := by
      intro hc
      exact (List.nodup_cons.mp W.nodup).1 (List.mem_append.mpr (Or.inl hc))
    have htailn : L.tail ∉ chain := by
      intro hc
      have h2 : (chain ++ [L.tail]).Nodup := (List.nodup_cons.mp W.nodup).2
      exact (List.nodup_append.mp h2).2.2 hc (by simp)
    have e : list.sortOp f h L = list.writeBack h chain (f (list.vals h L)) := by
      rw [list.sortOp, if_neg hsz, chainIds_eq W]
    obtain ⟨B1, B2, B3, B4, B5, B6, B7⟩ := writeBack_spec chain (f (list.vals h L)) h hnd
    have hgout : ∀ i, i ∉ chain →
        (list.writeBack h chain (f (list.vals h L))).get i = h.get i := by
      intro i hi
      simp [Heap.get, B3 i hi]
    have W2 : Wf (list.writeBack h chain (f (list.vals h L))) L chain := by
      refine ⟨W.nodup, ?_, ?_, ?_, ?_, ?_, ?_, ?_, ?_, W.sizeEq⟩
      · intro i hi
        rw [B6]
        exact W.bounds i hi
      · intro i hi
        exact B4 i (W.allocd i hi)
      · rw [B1]
        exact W.headPrev
      · rw [B2]
        exact W.tailNext
      · rw [hgout L.head hheadn]
        exact W.headData
      · rw [hgout L.tail htailn]
        exact W.tailData
      · intro i hi
        exact B5 i (W.valData i hi)
      · refine isPath_transfer chain L.head L.tail W.links ?_ ?_
        · intro i _
          exact B2 i
        · intro i _
          exact B1 i
    rw [e]
    refine ⟨W2, ?_, B1, B2, B6, ?_⟩
    · intro i hi
      refine B3 i ?_
      intro hc
      exact hi (by simp [full, hc])
    · intro hperm
      have hlen : chain.length = (f (list.vals h L)).length := by
        rw [hperm.length_eq, vals_length W]
      rw [vals_eq W2]
      exact B7 hlen

/-! ## Unique -/

/-- The chain kept by `unique()`: drop each node whose value equals the
last kept node's value. -/
def dedupChain [DecidableEq V] (dataOf : Nat → Option V) : List Nat → List Nat
  | [] => []
  | [a] => [a]
  | a :: b :: r =>
    if list.eqData (dataOf a) (dataOf b) then dedupChain dataOf (a :: r)
    else a :: dedupChain dataOf (b :: r)
termination_by l => l.length

/-- Removing consecutive duplicates from a value sequence, keeping the
first element of each run. -/
def dedupVals [DecidableEq V] : List V → List V
  | [] => []
  | [a] => [a]
  | a :: b :: r => if a = b then dedupVals (a :: r) else a :: dedupVals (b :: r)
termination_by l => l.length

/-- `dedupChain` only looks at the data of its members. -/
theorem dedupChain_congr [DecidableEq V] {f g : Nat → Option V} :
    ∀ l : List Nat, (∀ i ∈ l, f i = g i) → dedupChain f l = dedupChain g l
  | [] => fun _ => by rw [dedupChain, dedupChain]
  | [a] => fun _ => by rw [dedupChain, dedupChain]
  | a :: b :: r => fun hm => by
    rw [dedupChain, dedupChain, hm a (by simp), hm b (by simp)]
    by_cases hc : list.eqData (g a) (g b) = true
    · rw [if_pos hc, if_pos hc]
      exact dedupChain_congr (a :: r) (fun i hi => hm i (by simp at hi ⊢; tauto))
    · rw [if_neg hc, if_neg hc]
      rw [dedupChain_congr (b :: r) (fun i hi => hm i (by simp at hi ⊢; tauto))]
termination_by l => l.length

/-- The kept chain is a sublist of the original chain. -/
theorem dedupChain_sublist [DecidableEq V] (dataOf : Nat → Option V) :
    ∀ l : List Nat, List.Sublist (dedupChain dataOf l) l
  | [] => by rw [dedupChain]
  | [a] => by rw [dedupChain]
  | a :: b :: r => by
    rw [dedupChain]
    by_cases hc : list.eqData (dataOf a) (dataOf b) = true
    · rw [if_pos hc]
      have hs := dedupChain_sublist dataOf (a :: r)
      exact hs.trans (List.Sublist.cons₂ a (List.sublist_cons_self b r))
    · rw [if_neg hc]
      exact (dedupChain_sublist dataOf (b :: r)).cons₂ a
termination_by l => l.length

/-- The values along the kept chain are the consecutive-dedup of the
original values. -/
theorem dedupChain_vals [DecidableEq V] (dataOf : Nat → Option V) :
    ∀ l : List Nat, (∀ i ∈ l, (dataOf i).isSome) →
      (dedupChain dataOf l).filterMap dataOf = dedupVals (l.filterMap dataOf)
  | [] => fun _ => by rw [dedupChain, List.filterMap_nil, dedupVals]
  | [a] => fun hs => by
    obtain ⟨va, hva⟩ := Option.isSome_iff_exists.mp (hs a (by simp))
    rw [dedupChain, List.filterMap_cons_some hva, List.filterMap_nil, dedupVals]
  | a :: b :: r => fun hs => by
    obtain ⟨va, hva⟩ := Option.isSome_iff_exists.mp (hs a (by simp))
    obtain ⟨vb, hvb⟩ := Option.isSome_iff_exists.mp (hs b (by simp))
    have heq : list.eqData (dataOf a) (dataOf b) = decide (va = vb) := by
      rw [hva, hvb]; rfl
    rw [dedupChain, List.filterMap_cons_some hva, List.filterMap_cons_some hvb,
      dedupVals, heq]
    by_cases hc : va = vb
    · rw [if_pos (decide_eq_true hc), if_pos hc]
      have ih := dedupChain_vals dataOf (a :: r)
        (fun i hi => hs i (by simp at hi ⊢; tauto))
      rw [ih, List.filterMap_cons_some hva]
    · rw [if_neg (fun hh => hc (of_decide_eq_true hh)), if_neg hc]
      have ih := dedupChain_vals dataOf (b :: r)
        (fun i hi => hs i (by simp at hi ⊢; tauto))
      rw [List.filterMap_cons_some hva, ih, List.filterMap_cons_some hvb]
termination_by l => l.length

/-- One run of the `unique()` scan loop: `it` rests on the last kept
node `x`, `nextIt` on the head of `rest`.  The loop erases exactly the
consecutive duplicates among `rest`, producing the chain
`done ++ dedupChain (x :: rest)`. -/
theorem uniqueLoop_spec [DecidableEq V] (self : Nat) :
    ∀ (fuel : Nat) (done : List Nat) (x : Nat) (rest : List Nat)
      (h : Heap V) (L : ListHandle),
      Wf h L (done ++ x :: rest) → rest.length < fuel →
      Wf (list.uniqueLoop self fuel h L ⟨x, self⟩ ⟨rest.headD L.tail, self⟩).1
        (list.uniqueLoop self fuel h L ⟨x, self⟩ ⟨rest.headD L.tail, self⟩).2
        (done ++ dedupChain (fun i => (h.get i).data) (x :: rest)) ∧
      (∀ i ∈ done ++ dedupChain (fun i => (h.get i).data) (x :: rest),
        ((list.uniqueLoop self fuel h L ⟨x, self⟩
          ⟨rest.headD L.tail, self⟩).1.get i).data = (h.get i).data) ∧
      (∀ i, i ∉ full L (done ++ x :: rest) →
        (list.uniqueLoop self fuel h L ⟨x, self⟩
          ⟨rest.headD L.tail, self⟩).1.mem i = h.mem i) ∧
      (list.uniqueLoop self fuel h L ⟨x, self⟩
        ⟨rest.headD L.tail, self⟩).1.nextAlloc = h.nextAlloc ∧
      (list.uniqueLoop self fuel h L ⟨x, self⟩
        ⟨rest.headD L.tail, self⟩).2.head = L.head ∧
      (list.uniqueLoop self fuel h L ⟨x, self⟩
        ⟨rest.headD L.tail, self⟩).2.tail = L.tail := by
  intro fuel
  induction fuel with
  | zero => intro done x rest h L W hf; exact absurd hf (Nat.not_lt_zero _)
  | succ f ih =>
    intro done x rest h L W hf
    cases rest with
    | nil =>
      have hstop : list.uniqueLoop self (f + 1) h L ⟨x, self⟩
          ⟨([] : List Nat).headD L.tail, self⟩ = (h, L) := by
        rw [list.uniqueLoop, if_neg]
        intro hc
        exact hc rfl
      have hded : dedupChain (fun i => (h.get i).data) [x] = [x] := by
        rw [dedupChain]
      rw [hstop, hded]
      exact ⟨W, fun i _ => rfl, fun i _ => rfl, rfl, rfl, rfl⟩
    | cons y r =>
      have hymem : y ∈ done ++ x :: y :: r := by simp
      have hytail : y ≠ L.tail := (chain_mem_ne_sentinels W hymem).2
      have hW' : Wf h L ((done ++ [x]) ++ y :: r) := by simpa using W
      have hf' : r.length < f := by
        have : r.length + 1 < f + 1 := by simpa using hf
        omega
      have hnd : (done ++ x :: y :: r).Nodup :=
        ((List.nodup_cons.mp W.nodup).2).sublist (List.sublist_append_left _ _)
      have hpm : (done ++ x :: y :: r).Perm (y :: (done ++ x :: r)) := by
        have h1 : done ++ x :: y :: r = (done ++ [x]) ++ y :: r := by simp
        have h2 : (done ++ [x]) ++ r = done ++ x :: r := by simp
        rw [h1, ← h2]
        exact List.perm_middle
      have hynotin : y ∉ done ++ x :: r :=
        (List.nodup_cons.mp (hpm.nodup_iff.mp hnd)).1
      have hyne : ∀ i ∈ done ++ x :: r, i ≠ y := by
        intro i hi he
        exact hynotin (he ▸ hi)
      have hsubset : ∀ i ∈ done ++ dedupChain (fun j => (h.get j).data) (x :: r),
          i ∈ done ++ x :: r := by
        intro i hi
        rcases List.mem_append.mp hi with hi | hi
        · exact List.mem_append.mpr (Or.inl hi)
        · exact List.mem_append.mpr (Or.inr ((dedupChain_sublist _ _).subset hi))
      simp only [List.headD_cons]
      rw [list.uniqueLoop, if_pos hytail]
      by_cases heq : list.eqData (h.get x).data (h.get y).data = true
      · -- equal adjacent values: erase y and continue with the same survivor
        rw [if_pos heq]
        obtain ⟨hok, hW2, hfr2, hmemy, hdata2, hna2, hL2⟩ :=
          erase_wf self (done ++ [x]) r y hW'
        have he : list.erase h self L ⟨y, self⟩
            = (Except.ok ⟨List.headD r L.tail, self⟩,
               (list.erase h self L ⟨y, self⟩).2.1,
               (list.erase h self L ⟨y, self⟩).2.2) := by
          rw [← hok]
        rw [he]
        have hW3 : Wf (list.erase h self L ⟨y, self⟩).2.1
            (list.erase h self L ⟨y, self⟩).2.2 (done ++ x :: r) := by
          simpa using hW2
        have hL2t : (list.erase h self L ⟨y, self⟩).2.2.tail = L.tail := by
          rw [hL2]
        have hL2h : (list.erase h self L ⟨y, self⟩).2.2.head = L.head := by
          rw [hL2]
        obtain ⟨ihWf, ihData, ihFr, ihNa, ihHead, ihTail⟩ :=
          ih done x r (list.erase h self L ⟨y, self⟩).2.1
            (list.erase h self L ⟨y, self⟩).2.2 hW3 hf'
        have hcongr : dedupChain (fun i => ((list.erase h self L ⟨y, self⟩).2.1.get i).data)
            (x :: r) = dedupChain (fun i => (h.get i).data) (x :: r) := by
          refine dedupChain_congr (x :: r) ?_
          intro i hi
          exact hdata2 i (hyne i (List.mem_append.mpr (Or.inr hi)))
        rw [hcongr] at ihWf ihData
        have hded : dedupChain (fun i => (h.get i).data) (x :: y :: r)
            = dedupChain (fun i => (h.get i).data) (x :: r) := by
          simp only [dedupChain]
          rw [if_pos heq]
        rw [hL2t] at ihWf ihData ihFr ihNa ihHead ihTail
        rw [hded]
        refine ⟨ihWf, ?_, ?_, ihNa.trans hna2, ihHead.trans hL2h, ihTail⟩
        · intro i hi
          exact (ihData i hi).trans (hdata2 i (hyne i (hsubset i hi)))
        · intro i hi
          have hi2 : i ∉ full (list.erase h self L ⟨y, self⟩).2.2 (done ++ x :: r) := by
            intro hc
            apply hi
            rw [hL2] at hc
            simp only [full, List.mem_cons, List.mem_append, List.mem_singleton] at hc ⊢
            tauto
          have hi3 : i ∉ full L ((done ++ [x]) ++ y :: r) := by
            intro hc
            apply hi
            simp only [full, List.mem_cons, List.mem_append, List.mem_singleton] at hc ⊢
            tauto
          exact (ihFr i hi2).trans (hfr2 i hi3)
      · -- distinct adjacent values: keep y, advance both cursors
        rw [if_neg heq]
        have hxy : (h.get x).next = y := wf_next_at done (y :: r) W
        have hyn : (h.get y).next = r.headD L.tail := wf_next_at (done ++ [x]) r hW'
        rw [hxy, hyn]
        obtain ⟨ihWf, ihData, ihFr, ihNa, ihHead, ihTail⟩ :=
          ih (done ++ [x]) y r h L hW' hf'
        have hded : done ++ dedupChain (fun i => (h.get i).data) (x :: y :: r)
            = (done ++ [x]) ++ dedupChain (fun i => (h.get i).data) (y :: r) := by
          simp only [dedupChain]
          rw [if_neg heq]
          simp
        rw [hded]
        refine ⟨ihWf, ihData, ?_, ihNa, ihHead, ihTail⟩
        intro i hi
        refine ihFr i ?_
        intro hc
        apply hi
        simp only [full, List.mem_cons, List.mem_append, List.mem_singleton] at hc ⊢
        tauto

/-- `unique()` keeps exactly the first node of every run of equal adjacent
values: the chain becomes its consecutive dedup, surviving nodes keep their
values, and the heap is untouched outside the container. -/
theorem unique_wf [DecidableEq V] (self : Nat) {h : Heap V} {L : ListHandle}
    {chain : List Nat} (W : Wf h L chain) :
    Wf (list.unique h self L).1 (list.unique h self L).2
      (dedupChain (fun i => (h.get i).data) chain) ∧
    (∀ i ∈ dedupChain (fun i => (h.get i).data) chain,
      ((list.unique h self L).1.get i).data = (h.get i).data) ∧
    (∀ i, i ∉ full L chain → (list.unique h self L).1.mem i = h.mem i) ∧
    (list.unique h self L).1.nextAlloc = h.nextAlloc ∧
    (list.unique h self L).2.head = L.head ∧
    (list.unique h self L).2.tail = L.tail ∧
    list.vals (list.unique h self L).1 (list.unique h self L).2
      = dedupVals (list.vals h L) := by
  by_cases hsz : L.list_size ≤ 1
  · have hu : list.unique h self L = (h, L) := by
      rw [list.unique, if_pos hsz]
    have hlen : chain.length ≤ 1 := by rw [← W.sizeEq]; exact hsz
    rcases chain with _ | ⟨a, rest⟩
    · have hded : dedupChain (fun i => (h.get i).data) ([] : List Nat) = [] := by
        rw [dedupChain]
      rw [hu, hded]
      refine ⟨W, fun i hi => absurd hi (List.not_mem_nil i), fun i _ => rfl,
        rfl, rfl, rfl, ?_⟩
      show list.vals h L = dedupVals (list.vals h L)
      rw [vals_eq W, List.filterMap_nil, dedupVals]
    rcases rest with _ | ⟨b, r2⟩
    · have hded : dedupChain (fun i => (h.get i).data) [a] = [a] := by
        rw [dedupChain]
      rw [hu, hded]
      refine ⟨W, fun i _ => rfl, fun i _ => rfl, rfl, rfl, rfl, ?_⟩
      show list.vals h L = dedupVals (list.vals h L)
      obtain ⟨v, hv⟩ := Option.isSome_iff_exists.mp (W.valData a (by simp))
      rw [vals_eq W,
        List.filterMap_cons_some (f := fun i => (h.get i).data) hv,
        List.filterMap_nil, dedupVals]
    · simp at hlen
  · push_neg at hsz
    rcases chain with _ | ⟨x, rest⟩
    · have := W.sizeEq
      simp at this
      omega
    have hhx : (h.get L.head).next = x := W.links.1.1
    have hxn : (h.get x).next = rest.headD L.tail := wf_next_at [] rest W
    have hszr : L.list_size = rest.length + 1 := by
      have := W.sizeEq; simpa using this
    have hf : rest.length < 2 * L.list_size := by omega
    have hu : list.unique h self L
        = list.uniqueLoop self (2 * L.list_size) h L ⟨x, self⟩
            ⟨rest.headD L.tail, self⟩ := by
      rw [list.unique, if_neg (by omega)]
      show list.uniqueLoop self (2 * L.list_size) h L ⟨(h.get L.head).next, self⟩
        ⟨(h.get (h.get L.head).next).next, self⟩ = _
      rw [hhx, hxn]
    obtain ⟨SWf, SData, SFr, SNa, SHead, STail⟩ :=
      uniqueLoop_spec self (2 * L.list_size) [] x rest h L W hf
    simp only [List.nil_append] at SWf SData SFr
    rw [hu]
    refine ⟨SWf, SData, SFr, SNa, SHead, STail, ?_⟩
    rw [vals_eq SWf, List.filterMap_congr (fun i hi => SData i hi),
      dedupChain_vals _ _ (fun i hi => W.valData i hi), ← vals_eq W]

/-! ## Copy construction and assignment -/

/-- Appending a value list with repeated `push_back`: the chain gains a
block of fresh node ids, existing cells are untouched. -/
theorem pushAll_wf :
    ∀ (vs : List V) {h : Heap V} {L : ListHandle} {chain : List Nat},
      Wf h L chain →
      ∃ ext : List Nat,
        Wf (list.pushAll h L vs).1 (list.pushAll h L vs).2 (chain ++ ext) ∧
        (∀ i ∈ ext, h.nextAlloc ≤ i) ∧
        (∀ i, i < h.nextAlloc → i ∉ full L chain →
          (list.pushAll h L vs).1.mem i = h.mem i) ∧
        h.nextAlloc ≤ (list.pushAll h L vs).1.nextAlloc ∧
        (list.pushAll h L vs).2.head = L.head ∧
        (list.pushAll h L vs).2.tail = L.tail ∧
        list.vals (list.pushAll h L vs).1 (list.pushAll h L vs).2
          = list.vals h L ++ vs := by
  intro vs
  induction vs with
  | nil =>
    intro h L chain W
    exact ⟨[], by simpa using W, by simp, fun i _ _ => rfl, le_refl _, rfl, rfl,
      by simp only [List.append_nil]; rfl⟩
  | cons v vs ih =>
    intro h L chain W
    obtain ⟨W1, fr1, na1, hd1, vl1⟩ := push_back_wf v W
    have e : list.pushAll h L (v :: vs)
        = list.pushAll (list.push_back h L v).1 (list.push_back h L v).2 vs := rfl
    obtain ⟨ext, W2, hfresh, fr2, na2, hh2, ht2, vl2⟩ := ih W1
    refine ⟨h.nextAlloc :: ext, ?_, ?_, ?_, ?_, ?_, ?_, ?_⟩
    · rw [e]
      have hsh : chain ++ h.nextAlloc :: ext = (chain ++ [h.nextAlloc]) ++ ext := by
        simp
      rw [hsh]
      exact W2
    · intro i hi
      rcases List.mem_cons.mp hi with hi | hi
      · omega
      · have := hfresh i hi
        omega
    · intro i hlt hnot
      rw [e]
      have hlt1 : i < (list.push_back h L v).1.nextAlloc := by omega
      have hnot1 : i ∉ full (list.push_back h L v).2 (chain ++ [h.nextAlloc]) := by
        intro hc
        have hm : i = L.head ∨ i ∈ chain ∨ i = h.nextAlloc ∨ i = L.tail := by
          rw [hd1] at hc
          simp only [full, List.mem_cons, List.mem_append, List.mem_singleton] at hc
          tauto
        rcases hm with hc2 | hc2 | hc2 | hc2
        · exact hnot (by simp [full, hc2])
        · exact hnot (by simp [full, hc2])
        · omega
        · exact hnot (by simp [full, hc2])
      rw [fr2 i hlt1 hnot1]
      exact fr1 i hlt hnot
    · rw [e]; omega
    · rw [e, hh2, hd1]
    · rw [e, ht2, hd1]
    · rw [e, vl2, vl1]
      simp

/-- The copy constructor builds a fresh container: new sentinels and new
value nodes, all at addresses at or above the old allocation frontier,
holding exactly the source's values; no existing cell is touched. -/
theorem copyList_wf {h : Heap V} {src : ListHandle} {cs : List Nat}
    (W : Wf h src cs) (hpos : 0 < h.nextAlloc) :
    ∃ ext : List Nat,
      Wf (list.copyList h src).1 (list.copyList h src).2 ext ∧
      (∀ i ∈ full (list.copyList h src).2 ext, h.nextAlloc ≤ i) ∧
      (∀ i, i < h.nextAlloc → (list.copyList h src).1.mem i = h.mem i) ∧
      h.nextAlloc ≤ (list.copyList h src).1.nextAlloc ∧
      list.vals (list.copyList h src).1 (list.copyList h src).2
        = list.vals h src := by
  obtain ⟨W0, fr0, na0, hL0⟩ := listNew_wf h hpos
  have e : list.copyList h src
      = list.pushAll (list.listNew h).1 (list.listNew h).2
          (list.vals (list.listNew h).1 src) := rfl
  have hvals0 : list.vals (list.listNew h).1 src = list.vals h src := by
    have Wsrc2 : Wf (list.listNew h).1 src cs := by
      refine wf_congr W ?_ (by omega)
      intro i hi
      exact fr0 i (W.bounds i hi).2
    rw [vals_eq Wsrc2, vals_eq W]
    refine List.filterMap_congr ?_
    intro i hi
    have hm : (list.listNew h).1.mem i = h.mem i :=
      fr0 i (W.bounds i (by simp [full, hi])).2
    rw [get_congr_of_mem hm]
  obtain ⟨ext, W2, hfresh, fr2, na2, hh2, ht2, vl2⟩ := pushAll_wf _ W0
  refine ⟨ext, ?_, ?_, ?_, ?_, ?_⟩
  · rw [e]
    exact (by simpa using W2)
  · intro i hi
    rw [e] at hi
    simp only [full, List.mem_cons, List.mem_append, List.mem_singleton] at hi
    rcases hi with hi | hi | hi | hi
    · rw [hi, hh2, hL0]
    · have := hfresh i hi
      omega
    · rw [hi, ht2, hL0]
      show h.nextAlloc ≤ h.nextAlloc + 1
      omega
    · exact absurd hi (List.not_mem_nil i)
  · intro i hlt
    rw [e]
    have hnot : i ∉ full (list.listNew h).2 [] := by
      rw [hL0]
      intro hc
      simp only [full, List.mem_cons, List.nil_append, List.mem_singleton,
        List.not_mem_nil, or_false] at hc
      rcases hc with hc | hc
      · omega
      · omega
    rw [fr2 i (by omega) hnot]
    exact fr0 i hlt
  · rw [e]
    omega
  · rw [e, vl2, hvals0, vals_eq W0]
    simp

/-- Copy assignment between distinct containers: `clear()` then re-push
the source's values; the destination keeps its sentinels and afterwards
holds the source's value sequence. -/
theorem assign_wf (selfId otherId : Nat) (hne : selfId ≠ otherId)
    {h : Heap V} {Ls Lo : ListHandle} {cs co : List Nat}
    (Ws : Wf h Ls cs) (Wo : Wf h Lo co)
    (disj : ∀ i ∈ full Lo co, i ∉ full Ls cs) :
    ∃ ext : List Nat,
      Wf (list.assign h selfId otherId Ls Lo).1
        (list.assign h selfId otherId Ls Lo).2 ext ∧
      (list.assign h selfId otherId Ls Lo).2.head = Ls.head ∧
      (list.assign h selfId otherId Ls Lo).2.tail = Ls.tail ∧
      (∀ i, i ∉ full Ls cs → i < h.nextAlloc →
        (list.assign h selfId otherId Ls Lo).1.mem i = h.mem i) ∧
      h.nextAlloc ≤ (list.assign h selfId otherId Ls Lo).1.nextAlloc ∧
      list.vals (list.assign h selfId otherId Ls Lo).1
        (list.assign h selfId otherId Ls Lo).2 = list.vals h Lo := by
  obtain ⟨Wc, frc, nac, hhc, htc, hszc⟩ := clear_wf Ws
  have e : list.assign h selfId otherId Ls Lo
      = list.pushAll (list.clear h Ls).1 (list.clear h Ls).2
          (list.vals (list.clear h Ls).1 Lo) := by
    rw [list.assign, if_neg hne]
  have hvals0 : list.vals (list.clear h Ls).1 Lo = list.vals h Lo := by
    have Wo2 : Wf (list.clear h Ls).1 Lo co := by
      refine wf_congr Wo ?_ (le_of_eq nac.symm)
      intro i hi
      exact frc i (disj i hi)
    rw [vals_eq Wo2, vals_eq Wo]
    refine List.filterMap_congr ?_
    intro i hi
    rw [get_congr_of_mem (frc i (disj i (by simp [full, hi])))]
  obtain ⟨ext, W2, hfresh, fr2, na2, hh2, ht2, vl2⟩ := pushAll_wf _ Wc
  refine ⟨ext, ?_, ?_, ?_, ?_, ?_, ?_⟩
  · rw [e]
    exact (by simpa using W2)
  · rw [e, hh2, hhc]
  · rw [e, ht2, htc]
  · intro i hnot hlt
    rw [e]
    have hnotc : i ∉ full (list.clear h Ls).2 [] := by
      intro hc
      simp only [full, List.mem_cons, List.nil_append, List.mem_singleton,
        List.not_mem_nil, or_false] at hc
      rcases hc with hc | hc
      · exact hnot (by rw [hc, hhc]; simp [full])
      · exact hnot (by rw [hc, htc]; simp [full])
    rw [fr2 i (by omega) hnotc]
    exact frc i hnot
  · rw [e]
    omega
  · rw [e, vl2, hvals0, vals_eq Wc]
    simp

/-! ## Programs of public operations over a pair of containers -/

/-- A public mutating operation of `list`, acting on container `A`
(with `B` in the role of `other` for `merge`), plus one `B`-side
mutator.  `sortA` carries the external sort collaborator. -/
inductive Op (V : Type) where
  | push_backA (v : V)
  | push_frontA (v : V)
  | pop_backA
  | pop_frontA
  | insertA (k : Nat) (v : V)
  | eraseA (k : Nat)
  | clearA
  | mergeAB
  | reverseA
  | sortA (f : List V → List V)
  | uniqueA
  | push_backB (v : V)

/-- Does the operation touch only container `A`? -/
def Op.onlyA : Op V → Prop
  | .mergeAB => False
  | .push_backB _ => False
  | _ => True

/-- A machine state holding two containers in one heap. -/
structure TwoLists (V : Type) where
  heap : Heap V
  A : ListHandle
  B : ListHandle

/-- Container identity (`this` pointer) of list `A`. -/
def idA : Nat := 1

/-- Container identity (`this` pointer) of list `B`. -/
def idB : Nat := 2

/-- The iterator obtained from `A.begin()` by `k` increments: the `k`-th
position of `A`, or `end()` when `k` is past the last element. -/
def iterA (s : TwoLists V) (k : Nat) : Iter :=
  ⟨(list.chainIds s.heap s.A ++ [s.A.tail]).getD k s.A.tail, idA⟩

/-- Apply one public operation to the two-container state.  Fallible
operations keep the returned (unchanged) state on error. -/
def stepOp [DecidableEq V] [LT V] [DecidableRel (α := V) (· < ·)] :
    Op V → TwoLists V → TwoLists V
  | .push_backA v, s =>
    let (h, L) := list.push_back s.heap s.A v
    ⟨h, L, s.B⟩
  | .push_frontA v, s =>
    let (h, L) := list.push_front s.heap s.A v
    ⟨h, L, s.B⟩
  | .pop_backA, s =>
    let (_, h, L) := list.pop_back s.heap s.A
    ⟨h, L, s.B⟩
  | .pop_frontA, s =>
    let (_, h, L) := list.pop_front s.heap s.A
    ⟨h, L, s.B⟩
  | .insertA k v, s =>
    let (_, h, L) := list.insert s.heap idA s.A (iterA s k) v
    ⟨h, L, s.B⟩
  | .eraseA k, s =>
    let (_, h, L) := list.erase s.heap idA s.A (iterA s k)
    ⟨h, L, s.B⟩
  | .clearA, s =>
    let (h, L) := list.clear s.heap s.A
    ⟨h, L, s.B⟩
  | .mergeAB, s =>
    let (h, LA, LB) := list.merge s.heap idA idB s.A s.B
    ⟨h, LA, LB⟩
  | .reverseA, s =>
    let (h, L) := list.reverse s.heap s.A
    ⟨h, L, s.B⟩
  | .sortA f, s => ⟨list.sortOp f s.heap s.A, s.A, s.B⟩
  | .uniqueA, s =>
    let (h, L) := list.unique s.heap idA s.A
    ⟨h, L, s.B⟩
  | .push_backB v, s =>
    let (h, L) := list.push_back s.heap s.B v
    ⟨h, s.A, L⟩

/-- Run a program of public operations left to right. -/
def runOps [DecidableEq V] [LT V] [DecidableRel (α := V) (· < ·)]
    (s : TwoLists V) : List (Op V) → TwoLists V
  | [] => s
  | op :: ops => runOps (stepOp op s) ops

/-- Both containers are well-formed, over disjoint node sets. -/
def WfTwo (s : TwoLists V) : Prop :=
  ∃ ca cb, Wf s.heap s.A ca ∧ Wf s.heap s.B cb ∧
    (∀ i ∈ full s.A ca, i ∉ full s.B cb) ∧ 0 < s.heap.nextAlloc

/-- Indexing into `chain ++ [tail]` with default `tail` is the head of
the dropped chain. -/
theorem getD_append_tail (t : Nat) :
    ∀ (l : List Nat) (k : Nat), (l ++ [t]).getD k t = (l.drop k).headD t
  | [], 0 => rfl
  | [], k + 1 => by simp [List.getD]
  | a :: l, 0 => rfl
  | a :: l, k + 1 => by
    simp only [List.cons_append, List.drop_succ_cons, List.getD_cons_succ]
    exact getD_append_tail t l k

/-- `reverse` either leaves the handle alone (small sizes) or swaps
`head` and `tail`. -/
theorem reverse_handle (h : Heap V) (L : ListHandle) :
    (list.reverse h L).2 = L ∨
    (list.reverse h L).2 = { L with head := L.tail, tail := L.head } := by
  by_cases hsz : L.list_size ≤ 1
  · left
    rw [list.reverse, if_pos hsz]
  · right
    rw [list.reverse, if_neg hsz]

/-- A container whose cells are untouched yields the same value
sequence. -/
theorem vals_congr {h h' : Heap V} {L : ListHandle} {chain : List Nat}
    (W : Wf h L chain) (fr : ∀ i ∈ full L chain, h'.mem i = h.mem i)
    (hna : h.nextAlloc ≤ h'.nextAlloc) :
    list.vals h' L = list.vals h L := by
  rw [vals_eq (wf_congr W fr hna), vals_eq W]
  refine List.filterMap_congr ?_
  intro i hi
  rw [get_congr_of_mem (fr i (by simp [full, hi]))]

/-- Rebuild the two-container invariant after an operation on `A`. -/
theorem wfTwo_mk {h h' : Heap V} {A2 B : ListHandle} {c2 cb : List Nat}
    (W2 : Wf h' A2 c2) (WB : Wf h B cb)
    (frB : ∀ i ∈ full B cb, h'.mem i = h.mem i)
    (hna : h.nextAlloc ≤ h'.nextAlloc)
    (disj2 : ∀ i ∈ full A2 c2, i ∉ full B cb)
    (hpos : 0 < h.nextAlloc) :
    WfTwo (⟨h', A2, B⟩ : TwoLists V) ∧ list.vals h' B = list.vals h B :=
  ⟨⟨c2, cb, W2, wf_congr WB frB hna, disj2, lt_of_lt_of_le hpos hna⟩,
   vals_congr WB frB hna⟩

/-- New `A`-cells are either old `A`-cells or fresh, so disjointness
from `B` is maintained. -/
theorem disj_of_subset {h : Heap V} {A2 B : ListHandle} {c2 cb : List Nat}
    {A : ListHandle} {ca : List Nat}
    (WB : Wf h B cb)
    (disj : ∀ i ∈ full A ca, i ∉ full B cb)
    (hsub : ∀ i ∈ full A2 c2, i ∈ full A ca ∨ h.nextAlloc ≤ i) :
    ∀ i ∈ full A2 c2, i ∉ full B cb := by
  intro i hi hc
  rcases hsub i hi with hm | hm
  · exact disj i hm hc
  · have := (WB.bounds i hc).2
    omega

/-- Every public operation preserves the two-container invariant, and an
operation that touches only `A` leaves `B`'s handle and value sequence
unchanged. -/
theorem stepOp_spec [DecidableEq V] [LT V] [DecidableRel (α := V) (· < ·)]
    (op : Op V) {s : TwoLists V} (hs : WfTwo s) :
    WfTwo (stepOp op s) ∧
    (Op.onlyA op →
      (stepOp op s).B = s.B ∧
      list.vals (stepOp op s).heap (stepOp op s).B = list.vals s.heap s.B) := by
  obtain ⟨ca, cb, WA, WB, disj, hpos⟩ := hs
  cases op with
  | push_backA v =>
    obtain ⟨W1, fr1, na1, hd1, _⟩ := push_back_wf v WA
    have e : stepOp (Op.push_backA v) s
        = ⟨(list.push_back s.heap s.A v).1, (list.push_back s.heap s.A v).2, s.B⟩ := rfl
    have frB : ∀ i ∈ full s.B cb,
        (list.push_back s.heap s.A v).1.mem i = s.heap.mem i := by
      intro i hi
      exact fr1 i (WB.bounds i hi).2 (fun hc => disj i hc hi)
    have hna : s.heap.nextAlloc ≤ (list.push_back s.heap s.A v).1.nextAlloc := by
      omega
    have hsub : ∀ i ∈ full (list.push_back s.heap s.A v).2
        (ca ++ [s.heap.nextAlloc]), i ∈ full s.A ca ∨ s.heap.nextAlloc ≤ i := by
      intro i hi
      have hm : i = s.A.head ∨ i ∈ ca ∨ i = s.heap.nextAlloc ∨ i = s.A.tail := by
        rw [hd1] at hi
        simp only [full, List.mem_cons, List.mem_append, List.mem_singleton,
          List.not_mem_nil, or_false] at hi
        tauto
      rcases hm with hm | hm | hm | hm
      · exact Or.inl (by simp [full, hm])
      · exact Or.inl (by simp [full, hm])
      · omega
      · exact Or.inl (by simp [full, hm])
    obtain ⟨hw, hv⟩ := wfTwo_mk W1 WB frB hna (disj_of_subset WB disj hsub) hpos
    exact ⟨by rw [e]; exact hw, fun _ => ⟨by rw [e], by rw [e]; exact hv⟩⟩
  | push_frontA v =>
    obtain ⟨W1, fr1, na1, hd1, _⟩ := push_front_wf v WA
    have e : stepOp (Op.push_frontA v) s
        = ⟨(list.push_front s.heap s.A v).1, (list.push_front s.heap s.A v).2, s.B⟩ := rfl
    have frB : ∀ i ∈ full s.B cb,
        (list.push_front s.heap s.A v).1.mem i = s.heap.mem i := by
      intro i hi
      exact fr1 i (WB.bounds i hi).2 (fun hc => disj i hc hi)
    have hna : s.heap.nextAlloc ≤ (list.push_front s.heap s.A v).1.nextAlloc := by
      omega
    have hsub : ∀ i ∈ full (list.push_front s.heap s.A v).2
        (s.heap.nextAlloc :: ca), i ∈ full s.A ca ∨ s.heap.nextAlloc ≤ i := by
      intro i hi
      have hm : i = s.A.head ∨ i = s.heap.nextAlloc ∨ i ∈ ca ∨ i = s.A.tail := by
        rw [hd1] at hi
        simp only [full, List.mem_cons, List.mem_append, List.mem_singleton,
          List.not_mem_nil, or_false] at hi
        tauto
      rcases hm with hm | hm | hm | hm
      · exact Or.inl (by simp [full, hm])
      · omega
      · exact Or.inl (by simp [full, hm])
      · exact Or.inl (by simp [full, hm])
    obtain ⟨hw, hv⟩ := wfTwo_mk W1 WB frB hna (disj_of_subset WB disj hsub) hpos
    exact ⟨by rw [e]; exact hw, fun _ => ⟨by rw [e], by rw [e]; exact hv⟩⟩
  | pop_backA =>
    have e : stepOp Op.pop_backA s
        = ⟨(list.pop_back s.heap s.A).2.1, (list.pop_back s.heap s.A).2.2, s.B⟩ := rfl
    rcases List.eq_nil_or_concat ca with rfl | ⟨rest, x, rfl⟩
    · have hemp : list.empty s.A = true := by
        simp [list.empty, WA.sizeEq]
      have he : list.pop_back s.heap s.A = (.error .containerIsEmpty, s.heap, s.A) := by
        rw [list.pop_back, if_pos hemp]
      rw [e, he]
      exact ⟨⟨[], cb, WA, WB, disj, hpos⟩, fun _ => ⟨rfl, rfl⟩⟩
    · rw [List.concat_eq_append] at WA disj
      obtain ⟨hok, W1, fr1, hxm, na1, hd1, _⟩ := pop_back_wf WA
      have frB : ∀ i ∈ full s.B cb,
          (list.pop_back s.heap s.A).2.1.mem i = s.heap.mem i := by
        intro i hi
        exact fr1 i (fun hc => disj i hc hi)
      have hsub : ∀ i ∈ full (list.pop_back s.heap s.A).2.2 rest,
          i ∈ full s.A (rest ++ [x]) ∨ s.heap.nextAlloc ≤ i := by
        intro i hi
        refine Or.inl ?_
        have hm : i = s.A.head ∨ i ∈ rest ∨ i = s.A.tail := by
          rw [hd1] at hi
          simp only [full, List.mem_cons, List.mem_append, List.mem_singleton,
            List.not_mem_nil, or_false] at hi
          tauto
        simp only [full, List.mem_cons, List.mem_append, List.mem_singleton,
          List.not_mem_nil, or_false]
        tauto
      obtain ⟨hw, hv⟩ := wfTwo_mk W1 WB frB (le_of_eq na1.symm)
        (disj_of_subset WB disj hsub) hpos
      exact ⟨by rw [e]; exact hw, fun _ => ⟨by rw [e], by rw [e]; exact hv⟩⟩
  | pop_frontA =>
    have e : stepOp Op.pop_frontA s
        = ⟨(list.pop_front s.heap s.A).2.1, (list.pop_front s.heap s.A).2.2, s.B⟩ := rfl
    rcases ca with _ | ⟨x, rest⟩
    · have hemp : list.empty s.A = true := by
        simp [list.empty, WA.sizeEq]
      have he : list.pop_front s.heap s.A = (.error .containerIsEmpty, s.heap, s.A) := by
        rw [list.pop_front, if_pos hemp]
      rw [e, he]
      exact ⟨⟨[], cb, WA, WB, disj, hpos⟩, fun _ => ⟨rfl, rfl⟩⟩
    · obtain ⟨hok, W1, fr1, hxm, na1, hd1, _⟩ := pop_front_wf WA
      have frB : ∀ i ∈ full s.B cb,
          (list.pop_front s.heap s.A).2.1.mem i = s.heap.mem i := by
        intro i hi
        exact fr1 i (fun hc => disj i hc hi)
      have hsub : ∀ i ∈ full (list.pop_front s.heap s.A).2.2 rest,
          i ∈ full s.A (x :: rest) ∨ s.heap.nextAlloc ≤ i := by
        intro i hi
        refine Or.inl ?_
        have hm : i = s.A.head ∨ i ∈ rest ∨ i = s.A.tail := by
          rw [hd1] at hi
          simp only [full, List.mem_cons, List.mem_append, List.mem_singleton,
            List.not_mem_nil, or_false] at hi
          tauto
        simp only [full, List.mem_cons, List.mem_append, List.mem_singleton,
          List.not_mem_nil, or_false]
        tauto
      obtain ⟨hw, hv⟩ := wfTwo_mk W1 WB frB (le_of_eq na1.symm)
        (disj_of_subset WB disj hsub) hpos
      exact ⟨by rw [e]; exact hw, fun _ => ⟨by rw [e], by rw [e]; exact hv⟩⟩
  | insertA k v =>
    have hca : ca.take k ++ ca.drop k = ca := List.take_append_drop k ca
    have hWtd : Wf s.heap s.A (ca.take k ++ ca.drop k) := by
      rw [hca]
      exact WA
    obtain ⟨hok, W1, fr1, _, _, na1, hd1⟩ := insert_wf idA (ca.take k) (ca.drop k) v hWtd
    rw [hca] at fr1
    have hit : iterA s k = ⟨(ca.drop k).headD s.A.tail, idA⟩ := by
      rw [iterA, chainIds_eq WA, getD_append_tail]
    have e : stepOp (Op.insertA k v) s
        = ⟨(list.insert s.heap idA s.A (iterA s k) v).2.1,
           (list.insert s.heap idA s.A (iterA s k) v).2.2, s.B⟩ := rfl
    rw [hit] at e
    have frB : ∀ i ∈ full s.B cb,
        (list.insert s.heap idA s.A ⟨(ca.drop k).headD s.A.tail, idA⟩ v).2.1.mem i
          = s.heap.mem i := by
      intro i hi
      exact fr1 i (WB.bounds i hi).2 (fun hc => disj i hc hi)
    have hna : s.heap.nextAlloc ≤
        (list.insert s.heap idA s.A ⟨(ca.drop k).headD s.A.tail, idA⟩ v).2.1.nextAlloc := by
      omega
    have hsub : ∀ i ∈ full
        (list.insert s.heap idA s.A ⟨(ca.drop k).headD s.A.tail, idA⟩ v).2.2
        (ca.take k ++ s.heap.nextAlloc :: ca.drop k),
        i ∈ full s.A ca ∨ s.heap.nextAlloc ≤ i := by
      intro i hi
      have hm : i = s.A.head ∨ i ∈ ca.take k ∨ i = s.heap.nextAlloc ∨
          i ∈ ca.drop k ∨ i = s.A.tail := by
        rw [hd1] at hi
        simp only [full, List.mem_cons, List.mem_append, List.mem_singleton,
          List.not_mem_nil, or_false] at hi
        tauto
      rcases hm with hm | hm | hm | hm | hm
      · exact Or.inl (by simp [full, hm])
      · exact Or.inl (by simp [full, List.take_subset k ca hm])
      · omega
      · exact Or.inl (by simp [full, List.drop_subset k ca hm])
      · exact Or.inl (by simp [full, hm])
    obtain ⟨hw, hv⟩ := wfTwo_mk W1 WB frB hna (disj_of_subset WB disj hsub) hpos
    exact ⟨by rw [e]; exact hw, fun _ => ⟨by rw [e], by rw [e]; exact hv⟩⟩
  | eraseA k =>
    have e : stepOp (Op.eraseA k) s
        = ⟨(list.erase s.heap idA s.A (iterA s k)).2.1,
           (list.erase s.heap idA s.A (iterA s k)).2.2, s.B⟩ := rfl
    by_cases hk : k < ca.length
    · have hdrop : ca.drop k = ca[k] :: ca.drop (k + 1) :=
        List.drop_eq_getElem_cons hk
      have hca2 : ca = ca.take k ++ ca[k] :: ca.drop (k + 1) := by
        rw [← hdrop, List.take_append_drop]
      have W2 : Wf s.heap s.A (ca.take k ++ ca[k] :: ca.drop (k + 1)) := by
        rw [← hca2]
        exact WA
      obtain ⟨hok, W1, fr1, hxm, hdata, na1, hd1⟩ :=
        erase_wf idA (ca.take k) (ca.drop (k + 1)) (ca[k]) W2
      have hit : iterA s k = ⟨ca[k], idA⟩ := by
        rw [iterA, chainIds_eq WA, getD_append_tail, hdrop, List.headD_cons]
      rw [hit] at e
      have frB : ∀ i ∈ full s.B cb,
          (list.erase s.heap idA s.A ⟨ca[k], idA⟩).2.1.mem i = s.heap.mem i := by
        intro i hi
        refine fr1 i ?_
        rw [← hca2]
        exact fun hc => disj i hc hi
      have hsub : ∀ i ∈ full (list.erase s.heap idA s.A ⟨ca[k], idA⟩).2.2
          (ca.take k ++ ca.drop (k + 1)),
          i ∈ full s.A ca ∨ s.heap.nextAlloc ≤ i := by
        intro i hi
        refine Or.inl ?_
        have hm : i = s.A.head ∨ i ∈ ca.take k ∨ i ∈ ca.drop (k + 1) ∨
            i = s.A.tail := by
          rw [hd1] at hi
          simp only [full, List.mem_cons, List.mem_append, List.mem_singleton,
            List.not_mem_nil, or_false] at hi
          tauto
        rcases hm with hm | hm | hm | hm
        · simp [full, hm]
        · simp [full, List.take_subset k ca hm]
        · simp [full, List.drop_subset (k + 1) ca hm]
        · simp [full, hm]
      obtain ⟨hw, hv⟩ := wfTwo_mk W1 WB frB (le_of_eq na1.symm)
        (disj_of_subset WB disj hsub) hpos
      exact ⟨by rw [e]; exact hw, fun _ => ⟨by rw [e], by rw [e]; exact hv⟩⟩
    · have hit : iterA s k = ⟨s.A.tail, idA⟩ := by
        rw [iterA, chainIds_eq WA, getD_append_tail,
          List.drop_eq_nil_of_le (by omega), List.headD_nil]
      rw [hit] at e
      by_cases hca : ca = []
      · have hemp : list.empty s.A = true := by
          simp [list.empty, WA.sizeEq, hca]
        have he : list.erase s.heap idA s.A ⟨s.A.tail, idA⟩
            = (.error .containerIsEmpty, s.heap, s.A) := by
          rw [list.erase, if_pos hemp]
        rw [e, he]
        exact ⟨⟨ca, cb, WA, WB, disj, hpos⟩, fun _ => ⟨rfl, rfl⟩⟩
      · have hempf : list.empty s.A = false := by
          simp [list.empty, WA.sizeEq, List.length_eq_zero]
          exact hca
        have he : list.erase s.heap idA s.A ⟨s.A.tail, idA⟩
            = (.error .invalidIterator, s.heap, s.A) := by
          rw [list.erase, if_neg (by simp [hempf]), if_pos (Or.inr rfl)]
        rw [e, he]
        exact ⟨⟨ca, cb, WA, WB, disj, hpos⟩, fun _ => ⟨rfl, rfl⟩⟩
  | clearA =>
    obtain ⟨W1, fr1, na1, hh1, ht1, _⟩ := clear_wf WA
    have e : stepOp Op.clearA s
        = ⟨(list.clear s.heap s.A).1, (list.clear s.heap s.A).2, s.B⟩ := rfl
    have frB : ∀ i ∈ full s.B cb,
        (list.clear s.heap s.A).1.mem i = s.heap.mem i := by
      intro i hi
      exact fr1 i (fun hc => disj i hc hi)
    have hsub : ∀ i ∈ full (list.clear s.heap s.A).2 ([] : List Nat),
        i ∈ full s.A ca ∨ s.heap.nextAlloc ≤ i := by
      intro i hi
      refine Or.inl ?_
      simp only [full, List.mem_cons, List.nil_append, List.mem_singleton,
        List.not_mem_nil, or_false] at hi
      rcases hi with hi | hi
      · rw [hi, hh1]
        simp [full]
      · rw [hi, ht1]
        simp [full]
    obtain ⟨hw, hv⟩ := wfTwo_mk W1 WB frB (le_of_eq na1.symm)
      (disj_of_subset WB disj hsub) hpos
    exact ⟨by rw [e]; exact hw, fun _ => ⟨by rw [e], by rw [e]; exact hv⟩⟩
  | mergeAB =>
    have hne : idA ≠ idB := by decide
    obtain ⟨WA1, WB1, hdata, hna, hfr, hh1, ht1, hh2, ht2⟩ :=
      merge_wf idA idB hne WA WB disj
    have e : stepOp Op.mergeAB s
        = ⟨(list.merge s.heap idA idB s.A s.B).1,
           (list.merge s.heap idA idB s.A s.B).2.1,
           (list.merge s.heap idA idB s.A s.B).2.2⟩ := rfl
    have hdisj2 : ∀ i ∈ full (list.merge s.heap idA idB s.A s.B).2.1
        (mergeChains (fun j => (s.heap.get j).data) ca cb),
        i ∉ full (list.merge s.heap idA idB s.A s.B).2.2 [] := by
      intro i hi hc
      have hcB : i = s.B.head ∨ i = s.B.tail := by
        simp only [full, List.mem_cons, List.nil_append, List.mem_singleton,
          List.not_mem_nil, or_false] at hc
        rcases hc with hc | hc
        · exact Or.inl (by rw [hc, hh2])
        · exact Or.inr (by rw [hc, ht2])
      have hcBm : i ∈ full s.B cb := by
        rcases hcB with hc2 | hc2 <;> rw [hc2] <;> simp [full]
      have hm : i = s.A.head ∨
          i ∈ mergeChains (fun j => (s.heap.get j).data) ca cb ∨ i = s.A.tail := by
        simp only [full, List.mem_cons, List.mem_append, List.mem_singleton,
          List.not_mem_nil, or_false] at hi
        rcases hi with hi | hi | hi
        · exact Or.inl (by rw [hi, hh1])
        · exact Or.inr (Or.inl hi)
        · exact Or.inr (Or.inr (by rw [hi, ht1]))
      rcases hm with hm | hm | hm
      · exact disj i (by rw [hm]; simp [full]) hcBm
      · have hmm : i ∈ ca ++ cb := (mergeChains_perm _ ca cb).subset hm
        rcases List.mem_append.mp hmm with h2 | h2
        · exact disj i (by simp [full, h2]) hcBm
        · have hne2 := chain_mem_ne_sentinels WB h2
          rcases hcB with hc2 | hc2
          · exact hne2.1 hc2
          · exact hne2.2 hc2
      · exact disj i (by rw [hm]; simp [full]) hcBm
    refine ⟨?_, fun hf => hf.elim⟩
    rw [e]
    exact ⟨mergeChains (fun j => (s.heap.get j).data) ca cb, [],
      WA1, WB1, hdisj2,
      (by omega : 0 < (list.merge s.heap idA idB s.A s.B).1.nextAlloc)⟩
  | reverseA =>
    obtain ⟨W1, hdata, fr1, na1, hsz1, _⟩ := reverse_wf WA
    have e : stepOp Op.reverseA s
        = ⟨(list.reverse s.heap s.A).1, (list.reverse s.heap s.A).2, s.B⟩ := rfl
    have frB : ∀ i ∈ full s.B cb,
        (list.reverse s.heap s.A).1.mem i = s.heap.mem i := by
      intro i hi
      exact fr1 i (fun hc => disj i hc hi)
    have hsub : ∀ i ∈ full (list.reverse s.heap s.A).2 ca.reverse,
        i ∈ full s.A ca ∨ s.heap.nextAlloc ≤ i := by
      intro i hi
      refine Or.inl ?_
      rcases reverse_handle s.heap s.A with hh | hh <;>
        (rw [hh] at hi;
         simp only [full, List.mem_cons, List.mem_append, List.mem_singleton,
           List.mem_reverse, List.not_mem_nil, or_false] at hi ⊢;
         tauto)
    obtain ⟨hw, hv⟩ := wfTwo_mk W1 WB frB (le_of_eq na1.symm)
      (disj_of_subset WB disj hsub) hpos
    exact ⟨by rw [e]; exact hw, fun _ => ⟨by rw [e], by rw [e]; exact hv⟩⟩
  | sortA f =>
    obtain ⟨W1, fr1, _, _, na1, _⟩ := sortOp_wf f WA
    have e : stepOp (Op.sortA f) s = ⟨list.sortOp f s.heap s.A, s.A, s.B⟩ := rfl
    have frB : ∀ i ∈ full s.B cb,
        (list.sortOp f s.heap s.A).mem i = s.heap.mem i := by
      intro i hi
      exact fr1 i (fun hc => disj i hc hi)
    have hsub : ∀ i ∈ full s.A ca, i ∈ full s.A ca ∨ s.heap.nextAlloc ≤ i :=
      fun i hi => Or.inl hi
    obtain ⟨hw, hv⟩ := wfTwo_mk W1 WB frB (le_of_eq na1.symm)
      (disj_of_subset WB disj hsub) hpos
    exact ⟨by rw [e]; exact hw, fun _ => ⟨by rw [e], by rw [e]; exact hv⟩⟩
  | uniqueA =>
    obtain ⟨W1, hdata, fr1, na1, hh1, ht1, _⟩ := unique_wf idA WA
    have e : stepOp Op.uniqueA s
        = ⟨(list.unique s.heap idA s.A).1, (list.unique s.heap idA s.A).2, s.B⟩ := rfl
    have frB : ∀ i ∈ full s.B cb,
        (list.unique s.heap idA s.A).1.mem i = s.heap.mem i := by
      intro i hi
      exact fr1 i (fun hc => disj i hc hi)
    have hsub : ∀ i ∈ full (list.unique s.heap idA s.A).2
        (dedupChain (fun j => (s.heap.get j).data) ca),
        i ∈ full s.A ca ∨ s.heap.nextAlloc ≤ i := by
      intro i hi
      refine Or.inl ?_
      have hm : i = s.A.head ∨
          i ∈ dedupChain (fun j => (s.heap.get j).data) ca ∨ i = s.A.tail := by
        simp only [full, List.mem_cons, List.mem_append, List.mem_singleton,
          List.not_mem_nil, or_false] at hi
        rcases hi with hi | hi | hi
        · exact Or.inl (by rw [hi, hh1])
        · exact Or.inr (Or.inl hi)
        · exact Or.inr (Or.inr (by rw [hi, ht1]))
      rcases hm with hm | hm | hm
      · simp [full, hm]
      · simp [full, (dedupChain_sublist _ ca).subset hm]
      · simp [full, hm]
    obtain ⟨hw, hv⟩ := wfTwo_mk W1 WB frB (le_of_eq na1.symm)
      (disj_of_subset WB disj hsub) hpos
    exact ⟨by rw [e]; exact hw, fun _ => ⟨by rw [e], by rw [e]; exact hv⟩⟩
  | push_backB v =>
    obtain ⟨W1, fr1, na1, hd1, _⟩ := push_back_wf v WB
    have e : stepOp (Op.push_backB v) s
        = ⟨(list.push_back s.heap s.B v).1, s.A, (list.push_back s.heap s.B v).2⟩ := rfl
    have frA : ∀ i ∈ full s.A ca,
        (list.push_back s.heap s.B v).1.mem i = s.heap.mem i := by
      intro i hi
      exact fr1 i (WA.bounds i hi).2 (disj i hi)
    have WA1 : Wf (list.push_back s.heap s.B v).1 s.A ca :=
      wf_congr WA frA (by omega)
    have hdisj2 : ∀ i ∈ full s.A ca,
        i ∉ full (list.push_back s.heap s.B v).2 (cb ++ [s.heap.nextAlloc]) := by
      intro i hi hc
      have hm : i = s.B.head ∨ i ∈ cb ∨ i = s.heap.nextAlloc ∨ i = s.B.tail := by
        rw [hd1] at hc
        simp only [full, List.mem_cons, List.mem_append, List.mem_singleton,
          List.not_mem_nil, or_false] at hc
        tauto
      rcases hm with hm | hm | hm | hm
      · exact disj i hi (by simp [full, hm])
      · exact disj i hi (by simp [full, hm])
      · have := (WA.bounds i hi).2
        omega
      · exact disj i hi (by simp [full, hm])
    refine ⟨?_, fun hf => hf.elim⟩
    rw [e]
    exact ⟨ca, cb ++ [s.heap.nextAlloc], WA1, W1, hdisj2,
      (by omega : 0 < (list.push_back s.heap s.B v).1.nextAlloc)⟩

/-- Running any program of public operations preserves the two-container
invariant; a program that touches only `A` leaves `B` unchanged. -/
theorem runOps_wfTwo [DecidableEq V] [LT V] [DecidableRel (α := V) (· < ·)] :
    ∀ (ops : List (Op V)) (s : TwoLists V), WfTwo s →
      WfTwo (runOps s ops) ∧
      ((∀ op ∈ ops, Op.onlyA op) →
        (runOps s ops).B = s.B ∧
        list.vals (runOps s ops).heap (runOps s ops).B = list.vals s.heap s.B)
  | [], s, hs => ⟨hs, fun _ => ⟨rfl, rfl⟩⟩
  | op :: ops, s, hs => by
    obtain ⟨h1, h2⟩ := stepOp_spec op hs
    obtain ⟨h3, h4⟩ := runOps_wfTwo ops (stepOp op s) h1
    refine ⟨h3, fun hall => ?_⟩
    have hstep := h2 (hall op (List.mem_cons_self op ops))
    have hrest := h4 (fun o ho => hall o (List.mem_cons_of_mem op ho))
    exact ⟨hrest.1.trans hstep.1, hrest.2.trans hstep.2⟩

/-! ## Spec-level facts about the merge and dedup value functions -/

/-- The stable merge holds exactly the elements of both inputs. -/
theorem mergeVals_perm [LT V] [DecidableRel (α := V) (· < ·)] :
    ∀ (va vb : List V), (mergeVals va vb).Perm (va ++ vb)
  | va, [] => by
    rw [mergeVals, List.append_nil]
  | [], b :: vb => by
    rw [mergeVals, List.nil_append]
  | a :: va, b :: vb => by
    rw [mergeVals]
    by_cases hlt : b < a
    · rw [if_pos hlt]
      refine ((mergeVals_perm (a :: va) vb).cons b).trans ?_
      exact (List.perm_middle.symm : List.Perm (b :: (a :: va) ++ vb) _)
    · rw [if_neg hlt]
      exact (mergeVals_perm va (b :: vb)).cons a
termination_by va vb => va.length + vb.length

/-- Merging two ascending sequences yields an ascending sequence. -/
theorem mergeVals_sorted [LinearOrder V] :
    ∀ (va vb : List V), va.Sorted (· ≤ ·) → vb.Sorted (· ≤ ·) →
      (mergeVals va vb).Sorted (· ≤ ·)
  | va, [] => fun ha _ => by
    rw [mergeVals]
    exact ha
  | [], b :: vb => fun _ hb => by
    rw [mergeVals]
    exact hb
  | a :: va, b :: vb => fun ha hb => by
    obtain ⟨ha1, ha2⟩ := List.sorted_cons.mp ha
    obtain ⟨hb1, hb2⟩ := List.sorted_cons.mp hb
    rw [mergeVals]
    by_cases hlt : b < a
    · rw [if_pos hlt]
      refine List.sorted_cons.mpr ⟨?_, mergeVals_sorted (a :: va) vb ha hb2⟩
      intro x hx
      rcases List.mem_append.mp ((mergeVals_perm (a :: va) vb).subset hx)
        with hx | hx
      · rcases List.mem_cons.mp hx with hx | hx
        · rw [hx]
          exact le_of_lt hlt
        · exact le_trans (le_of_lt hlt) (ha1 x hx)
      · exact hb1 x hx
    · rw [if_neg hlt]
      refine List.sorted_cons.mpr ⟨?_, mergeVals_sorted va (b :: vb) ha2 hb⟩
      intro x hx
      rcases List.mem_append.mp ((mergeVals_perm va (b :: vb)).subset hx)
        with hx | hx
      · exact ha1 x hx
      · rcases List.mem_cons.mp hx with hx | hx
        · rw [hx]
          exact le_of_not_lt hlt
        · exact le_trans (le_of_not_lt hlt) (hb1 x hx)
termination_by va vb => va.length + vb.length

/-- `dedupVals` starting from a kept element agrees with Mathlib's
`destutter'` under the disequality relation. -/
theorem dedupVals_destutter_go [DecidableEq V] :
    ∀ (l : List V) (a : V),
      dedupVals (a :: l) = List.destutter' (fun x y => x ≠ y) a l
  | [], a => by
    rw [dedupVals, List.destutter']
  | b :: l, a => by
    rw [dedupVals, List.destutter']
    by_cases hab : a = b
    · rw [if_pos hab, if_neg (fun hne => hne hab)]
      exact dedupVals_destutter_go l a
    · rw [if_neg hab, if_pos hab]
      rw [dedupVals_destutter_go l b]

/-- Removing consecutive duplicates is exactly Mathlib's `destutter`
with the disequality relation. -/
theorem dedupVals_destutter [DecidableEq V] :
    ∀ l : List V, dedupVals l = l.destutter (fun x y => x ≠ y)
  | [] => by rw [dedupVals, List.destutter]
  | a :: l => by
    rw [List.destutter]
    exact dedupVals_destutter_go l a

/-! ## The claims -/

/-- C10: self-assignment (`a = a`, same container identity, same handle)
is a safe no-op: `operator=` detects source identity before clearing, so
it raises no error (the operation is total) and leaves the state, the
value sequence, and the size exactly unchanged. -/
theorem C10_self_assignment_noop (selfId : Nat) (h : Heap V) (L : ListHandle) :
    list.assign h selfId selfId L L = (h, L) ∧
    list.vals (list.assign h selfId selfId L L).1
      (list.assign h selfId selfId L L).2 = list.vals h L ∧
    (list.assign h selfId selfId L L).2.list_size = L.list_size := by
  have e : list.assign h selfId selfId L L = (h, L) := by
    rw [list.assign, if_pos rfl]
  exact ⟨e, by rw [e], by rw [e]⟩

/-- C9: every fallible container operation (`front`, `back`, `pop_front`,
`pop_back`, `insert`, `erase`) performs all validation before any
mutation: whenever it returns an error, the heap and the handle it
returns are exactly the originals.  (The iterator moves and dereferences
never write to the container state at all: their embeddings return no
heap.) -/
theorem C9_validation_precedes_mutation (self : Nat) (h : Heap V) (L : ListHandle) :
    (∀ e, (list.front h L).1 = .error e → (list.front h L).2 = (h, L)) ∧
    (∀ e, (list.back h L).1 = .error e → (list.back h L).2 = (h, L)) ∧
    (∀ e, (list.pop_front h L).1 = .error e → (list.pop_front h L).2 = (h, L)) ∧
    (∀ e, (list.pop_back h L).1 = .error e → (list.pop_back h L).2 = (h, L)) ∧
    (∀ (pos : Iter) (v : V) e, (list.insert h self L pos v).1 = .error e →
      (list.insert h self L pos v).2 = (h, L)) ∧
    (∀ (pos : Iter) e, (list.erase h self L pos).1 = .error e →
      (list.erase h self L pos).2 = (h, L)) := by
  refine ⟨?_, ?_, ?_, ?_, ?_, ?_⟩
  · intro e _
    by_cases hc : list.empty L = true
    · rw [list.front, if_pos hc]
    · rw [list.front, if_neg hc]
  · intro e _
    by_cases hc : list.empty L = true
    · rw [list.back, if_pos hc]
    · rw [list.back, if_neg hc]
  · intro e he
    by_cases hc : list.empty L = true
    · rw [list.pop_front, if_pos hc]
    · rw [list.pop_front, if_neg hc] at he
      exact Except.noConfusion he
  · intro e he
    by_cases hc : list.empty L = true
    · rw [list.pop_back, if_pos hc]
    · rw [list.pop_back, if_neg hc] at he
      exact Except.noConfusion he
  · intro pos v e he
    by_cases hc : pos.container ≠ self
    · rw [list.insert, if_pos hc]
    · rw [list.insert, if_neg hc] at he
      exact Except.noConfusion he
  · intro pos e he
    by_cases hc : list.empty L = true
    · rw [list.erase, if_pos hc]
    · by_cases hc2 : pos.container ≠ self ∨ pos.current = L.tail
      · rw [list.erase, if_neg hc, if_pos hc2]
      · rw [list.erase, if_neg hc, if_neg hc2] at he
        exact Except.noConfusion he

/-- C5: for both `iterator` and `const_iterator`, pre/post increment
fails with invalid-iterator exactly when the cursor is unset (null) or at
`end()` (the tail sentinel); pre/post decrement exactly when unset or at
the first element (`begin()`, i.e. `head->next`); dereference and
member-access exactly when unset or resting on either sentinel — in
particular dereferencing `end()` always fails. -/
theorem C5_iterator_error_conditions (h : Heap V) (L : ListHandle) (self : Nat)
    (it : Iter) (cit : CIter) :
    (Iter.incPost h L it = .error .invalidIterator ↔
      it.current = 0 ∨ it.current = (list.endIt L self).current) ∧
    (Iter.incPre h L it = .error .invalidIterator ↔
      it.current = 0 ∨ it.current = (list.endIt L self).current) ∧
    (Iter.decPost h L it = .error .invalidIterator ↔
      it.current = 0 ∨ it.current = (list.begin h L self).current) ∧
    (Iter.decPre h L it = .error .invalidIterator ↔
      it.current = 0 ∨ it.current = (list.begin h L self).current) ∧
    (Iter.deref h L it = .error .invalidIterator ↔
      it.current = 0 ∨ it.current = L.head ∨ it.current = L.tail) ∧
    (Iter.arrow h L it = .error .invalidIterator ↔
      it.current = 0 ∨ it.current = L.head ∨ it.current = L.tail) ∧
    (CIter.incPost h L cit = .error .invalidIterator ↔
      cit.current = 0 ∨ cit.current = (list.endIt L self).current) ∧
    (CIter.incPre h L cit = .error .invalidIterator ↔
      cit.current = 0 ∨ cit.current = (list.endIt L self).current) ∧
    (CIter.decPost h L cit = .error .invalidIterator ↔
      cit.current = 0 ∨ cit.current = (list.begin h L self).current) ∧
    (CIter.decPre h L cit = .error .invalidIterator ↔
      cit.current = 0 ∨ cit.current = (list.begin h L self).current) ∧
    (CIter.deref h L cit = .error .invalidIterator ↔
      cit.current = 0 ∨ cit.current = L.head ∨ cit.current = L.tail) ∧
    (CIter.arrow h L cit = .error .invalidIterator ↔
      cit.current = 0 ∨ cit.current = L.head ∨ cit.current = L.tail) ∧
    (Iter.deref h L (list.endIt L self) = .error .invalidIterator) := by
  refine ⟨?_, ?_, ?_, ?_, ?_, ?_, ?_, ?_, ?_, ?_, ?_, ?_, ?_⟩
  · rw [Iter.incPost]
    by_cases hc : it.current = 0 ∨ it.current = L.tail
    · rw [if_pos hc]
      simp [list.endIt, hc]
    · rw [if_neg hc]
      simp [list.endIt]
      tauto
  · rw [Iter.incPre]
    by_cases hc : it.current = 0 ∨ it.current = L.tail
    · rw [if_pos hc]
      simp [list.endIt, hc]
    · rw [if_neg hc]
      simp [list.endIt]
      tauto
  · rw [Iter.decPost]
    by_cases hc : it.current = 0 ∨ it.current = (h.get L.head).next
    · rw [if_pos hc]
      simp [list.begin, hc]
    · rw [if_neg hc]
      simp [list.begin]
      tauto
  · rw [Iter.decPre]
    by_cases hc : it.current = 0 ∨ it.current = (h.get L.head).next
    · rw [if_pos hc]
      simp [list.begin, hc]
    · rw [if_neg hc]
      simp [list.begin]
      tauto
  · rw [Iter.deref]
    by_cases hc : it.current = 0 ∨ it.current = L.head ∨ it.current = L.tail
    · rw [if_pos hc]
      simp [hc]
    · rw [if_neg hc]
      simp
      tauto
  · rw [Iter.arrow]
    by_cases hc : it.current = 0 ∨ it.current = L.head ∨ it.current = L.tail
    · rw [if_pos hc]
      simp [hc]
    · rw [if_neg hc]
      simp
      tauto
  · rw [CIter.incPost]
    by_cases hc : cit.current = 0 ∨ cit.current = L.tail
    · rw [if_pos hc]
      simp [list.endIt, hc]
    · rw [if_neg hc]
      simp [list.endIt]
      tauto
  · rw [CIter.incPre]
    by_cases hc : cit.current = 0 ∨ cit.current = L.tail
    · rw [if_pos hc]
      simp [list.endIt, hc]
    · rw [if_neg hc]
      simp [list.endIt]
      tauto
  · rw [CIter.decPost]
    by_cases hc : cit.current = 0 ∨ cit.current = (h.get L.head).next
    · rw [if_pos hc]
      simp [list.begin, hc]
    · rw [if_neg hc]
      simp [list.begin]
      tauto
  · rw [CIter.decPre]
    by_cases hc : cit.current = 0 ∨ cit.current = (h.get L.head).next
    · rw [if_pos hc]
      simp [list.begin, hc]
    · rw [if_neg hc]
      simp [list.begin]
      tauto
  · rw [CIter.deref]
    by_cases hc : cit.current = 0 ∨ cit.current = L.head ∨ cit.current = L.tail
    · rw [if_pos hc]
      simp [hc]
    · rw [if_neg hc]
      simp
      tauto
  · rw [CIter.arrow]
    by_cases hc : cit.current = 0 ∨ cit.current = L.head ∨ cit.current = L.tail
    · rw [if_pos hc]
      simp [hc]
    · rw [if_neg hc]
      simp
      tauto
  · simp [Iter.deref, list.endIt]

/-- C7: `reverse()` reverses the stored value sequence exactly, moving no
values (every node keeps its data), allocating and freeing nothing (the
allocation frontier and all cells outside the container are untouched),
and it is an involution: reversing twice restores the original sequence. -/
theorem C7_reverse_involution {h : Heap V} {L : ListHandle} {chain : List Nat}
    (W : Wf h L chain) :
    list.vals (list.reverse h L).1 (list.reverse h L).2 = (list.vals h L).reverse ∧
    (∀ i, ((list.reverse h L).1.get i).data = (h.get i).data) ∧
    (list.reverse h L).1.nextAlloc = h.nextAlloc ∧
    (∀ i, i ∉ full L chain → (list.reverse h L).1.mem i = h.mem i) ∧
    (list.reverse h L).2.list_size = L.list_size ∧
    list.vals (list.reverse (list.reverse h L).1 (list.reverse h L).2).1
      (list.reverse (list.reverse h L).1 (list.reverse h L).2).2
      = list.vals h L := by
  obtain ⟨W1, hdata, hfr, hna, hsz, hv⟩ := reverse_wf W
  obtain ⟨W2, hdata2, hfr2, hna2, hsz2, hv2⟩ := reverse_wf W1
  exact ⟨hv, hdata, hna, hfr, hsz, by rw [hv2, hv, List.reverse_reverse]⟩

/-- C3: `erase(pos)` raises the empty-container error on an empty list —
for every iterator, valid or not, so this check precedes the
invalid-iterator check; on a non-empty list it raises invalid-iterator
exactly for a foreign container identity or `pos == end()`; both error
paths leave the state untouched.  On a valid position it removes exactly
that element (the remaining values are the other nodes' data, unchanged),
frees the node, and returns an iterator holding the pre-erase successor
(`end()`'s cursor if it was last). -/
theorem C3_erase_semantics (self : Nat) (h : Heap V) (L : ListHandle) :
    (∀ pos : Iter, Wf h L [] →
      (list.erase h self L pos).1 = .error .containerIsEmpty ∧
      (list.erase h self L pos).2 = (h, L)) ∧
    (∀ (pos : Iter) (chain : List Nat), Wf h L chain → chain ≠ [] →
      (pos.container ≠ self ∨ Iter.eq pos (list.endIt L self) = true) →
      (list.erase h self L pos).1 = .error .invalidIterator ∧
      (list.erase h self L pos).2 = (h, L)) ∧
    (∀ (c1 c2 : List Nat) (x : Nat), Wf h L (c1 ++ x :: c2) →
      (list.erase h self L ⟨x, self⟩).1 = .ok ⟨c2.headD L.tail, self⟩ ∧
      Wf (list.erase h self L ⟨x, self⟩).2.1 (list.erase h self L ⟨x, self⟩).2.2
        (c1 ++ c2) ∧
      (list.erase h self L ⟨x, self⟩).2.1.mem x = none ∧
      list.vals (list.erase h self L ⟨x, self⟩).2.1
        (list.erase h self L ⟨x, self⟩).2.2
        = (c1 ++ c2).filterMap (fun i => (h.get i).data)) := by
  refine ⟨?_, ?_, ?_⟩
  · intro pos W
    have hemp : list.empty L = true := by
      simp [list.empty, W.sizeEq]
    have e : list.erase h self L pos = (.error .containerIsEmpty, h, L) := by
      rw [list.erase, if_pos hemp]
    exact ⟨by rw [e], by rw [e]⟩
  · intro pos chain W hne hcond
    have hempf : ¬(list.empty L = true) := by
      simp [list.empty, W.sizeEq, List.length_eq_zero]
      exact hne
    have hcond2 : pos.container ≠ self ∨ pos.current = L.tail := by
      rcases hcond with hc | hc
      · exact Or.inl hc
      · refine Or.inr ?_
        simpa [Iter.eq, list.endIt] using hc
    have e : list.erase h self L pos = (.error .invalidIterator, h, L) := by
      rw [list.erase, if_neg hempf, if_pos hcond2]
    exact ⟨by rw [e], by rw [e]⟩
  · intro c1 c2 x W
    obtain ⟨hok, W1, hfr, hxm, hdata, hna, hd⟩ := erase_wf self c1 c2 x W
    refine ⟨hok, W1, hxm, ?_⟩
    rw [vals_eq W1]
    refine List.filterMap_congr ?_
    intro i hi
    refine hdata i ?_
    have hnd : (c1 ++ x :: c2).Nodup :=
      ((List.nodup_cons.mp W.nodup).2).sublist (List.sublist_append_left _ _)
    have hpm : (c1 ++ x :: c2).Perm (x :: (c1 ++ c2)) := List.perm_middle
    have hx2 : x ∉ c1 ++ c2 := (List.nodup_cons.mp (hpm.nodup_iff.mp hnd)).1
    intro he
    exact hx2 (he ▸ hi)

/-- C6: `unique()` removes exactly the consecutive duplicates (under
`operator==`): the resulting value sequence is the consecutive-dedup
(`destutter` by disequality) of the original — the first element of each
equal run survives, non-adjacent equals are all kept — the survivors keep
their relative order (the result is a sublist of the original), and the
sentinels stay in place. -/
theorem C6_unique_consecutive_duplicates [DecidableEq V] (self : Nat)
    {h : Heap V} {L : ListHandle} {chain : List Nat} (W : Wf h L chain) :
    list.vals (list.unique h self L).1 (list.unique h self L).2
      = (list.vals h L).destutter (fun x y => x ≠ y) ∧
    (list.vals (list.unique h self L).1 (list.unique h self L).2).Sublist
      (list.vals h L) ∧
    (list.unique h self L).2.head = L.head ∧
    (list.unique h self L).2.tail = L.tail := by
  obtain ⟨W1, hdata, hfr, hna, hh, ht, hv⟩ := unique_wf self W
  have hv2 : list.vals (list.unique h self L).1 (list.unique h self L).2
      = (list.vals h L).destutter (fun x y => x ≠ y) := by
    rw [hv, dedupVals_destutter]
  refine ⟨hv2, ?_, hh, ht⟩
  rw [hv2]
  exact List.destutter_sublist _ _

/-- C4: assuming the external sort collaborator `f` returns an ascending
permutation of its input, `sort()` leaves an ascending permutation of the
original values; the node structure is untouched (every node keeps its
`prev`/`next` links, no cell is allocated or freed); and sorting is
idempotent: a second `sort()` leaves the value sequence unchanged. -/
theorem C4_sort_ascending_idempotent [LinearOrder V] {h : Heap V}
    {L : ListHandle} {chain : List Nat} (W : Wf h L chain)
    (f : List V → List V)
    (hf : ∀ l : List V, (f l).Perm l ∧ (f l).Sorted (· ≤ ·)) :
    (list.vals (list.sortOp f h L) L).Perm (list.vals h L) ∧
    (list.vals (list.sortOp f h L) L).Sorted (· ≤ ·) ∧
    (∀ i, ((list.sortOp f h L).get i).prev = (h.get i).prev) ∧
    (∀ i, ((list.sortOp f h L).get i).next = (h.get i).next) ∧
    (∀ i, ((list.sortOp f h L).mem i).isSome = (h.mem i).isSome) ∧
    (list.sortOp f h L).nextAlloc = h.nextAlloc ∧
    list.vals (list.sortOp f (list.sortOp f h L) L) L
      = list.vals (list.sortOp f h L) L := by
  obtain ⟨W1, hfr, hprev, hnext, hna, hvals⟩ := sortOp_wf f W
  have hv1 : list.vals (list.sortOp f h L) L = f (list.vals h L) :=
    hvals (hf (list.vals h L)).1
  obtain ⟨W2, hfr2, hprev2, hnext2, hna2, hvals2⟩ := sortOp_wf f W1
  have hv2 : list.vals (list.sortOp f (list.sortOp f h L) L) L
      = f (list.vals (list.sortOp f h L) L) :=
    hvals2 (hf (list.vals (list.sortOp f h L) L)).1
  refine ⟨?_, ?_, hprev, hnext, ?_, hna, ?_⟩
  · rw [hv1]
    exact (hf (list.vals h L)).1
  · rw [hv1]
    exact (hf (list.vals h L)).2
  · intro i
    by_cases hi : i ∈ full L chain
    · rw [Option.isSome_iff_exists.mpr ⟨_, Option.eq_some_of_isSome (W1.allocd i hi)⟩,
        Option.isSome_iff_exists.mpr ⟨_, Option.eq_some_of_isSome (W.allocd i hi)⟩]
    · rw [hfr i hi]
  · rw [hv2, hv1]
    refine List.eq_of_perm_of_sorted ?_ (hf (f (list.vals h L))).2
      (hf (list.vals h L)).2
    exact (hf (f (list.vals h L))).1

/-- C2: for two distinct, each-ascending lists, `A.merge(B)` leaves in
`A` the stable strict-less merge of the two value sequences, and at the
node level the resulting walk from `A`'s head sentinel is *exactly*
`mergeChains` — the recursion that takes `B`'s node only when its value
is strictly less than `A`'s current value, never on equality — so for
equal values `A`'s original nodes precede `B`'s, and each list's nodes
keep their relative order (both original chains are sublists of the
result chain, which is a permutation of their union).  The nodes are
relinked rather than copied: every node keeps its data and nothing is
allocated.  `B` ends with size 0 and its two sentinels intact and linked
to each other. -/
theorem C2_merge_stable_ascending [LinearOrder V] (selfId otherId : Nat)
    (hne : selfId ≠ otherId) {h : Heap V} {LA LB : ListHandle}
    {ca cb : List Nat} (WA : Wf h LA ca) (WB : Wf h LB cb)
    (disj : ∀ i ∈ full LA ca, i ∉ full LB cb)
    (hsa : (list.vals h LA).Sorted (· ≤ ·))
    (hsb : (list.vals h LB).Sorted (· ≤ ·)) :
    list.vals (list.merge h selfId otherId LA LB).1
      (list.merge h selfId otherId LA LB).2.1
      = mergeVals (list.vals h LA) (list.vals h LB) ∧
    (list.vals (list.merge h selfId otherId LA LB).1
      (list.merge h selfId otherId LA LB).2.1).Sorted (· ≤ ·) ∧
    list.chainIds (list.merge h selfId otherId LA LB).1
      (list.merge h selfId otherId LA LB).2.1
      = mergeChains (fun i => (h.get i).data) ca cb ∧
    ca.Sublist (list.chainIds (list.merge h selfId otherId LA LB).1
      (list.merge h selfId otherId LA LB).2.1) ∧
    cb.Sublist (list.chainIds (list.merge h selfId otherId LA LB).1
      (list.merge h selfId otherId LA LB).2.1) ∧
    (list.chainIds (list.merge h selfId otherId LA LB).1
      (list.merge h selfId otherId LA LB).2.1).Perm (ca ++ cb) ∧
    (∀ i, ((list.merge h selfId otherId LA LB).1.get i).data = (h.get i).data) ∧
    (list.merge h selfId otherId LA LB).1.nextAlloc = h.nextAlloc ∧
    (list.merge h selfId otherId LA LB).2.2.list_size = 0 ∧
    (list.merge h selfId otherId LA LB).2.2.head = LB.head ∧
    (list.merge h selfId otherId LA LB).2.2.tail = LB.tail ∧
    ((list.merge h selfId otherId LA LB).1.get
      (list.merge h selfId otherId LA LB).2.2.head).next
      = (list.merge h selfId otherId LA LB).2.2.tail ∧
    ((list.merge h selfId otherId LA LB).1.get
      (list.merge h selfId otherId LA LB).2.2.tail).prev
      = (list.merge h selfId otherId LA LB).2.2.head := by
  obtain ⟨WA1, WB1, hdata, hna, hfr, hh1, ht1, hh2, ht2⟩ :=
    merge_wf selfId otherId hne WA WB disj
  have hvals : list.vals (list.merge h selfId otherId LA LB).1
      (list.merge h selfId otherId LA LB).2.1
      = mergeVals (list.vals h LA) (list.vals h LB) := by
    rw [vals_eq WA1, List.filterMap_congr (fun i _ => by rw [hdata i]),
      mergeChains_vals _ ca cb (fun i hi => WA.valData i hi)
        (fun i hi => WB.valData i hi),
      ← vals_eq WA, ← vals_eq WB]
  have hchain : list.chainIds (list.merge h selfId otherId LA LB).1
      (list.merge h selfId otherId LA LB).2.1
      = mergeChains (fun i => (h.get i).data) ca cb := chainIds_eq WA1
  refine ⟨hvals, ?_, hchain, ?_, ?_, ?_, hdata, hna, WB1.sizeEq, hh2, ht2,
    WB1.links.1, WB1.links.2⟩
  · rw [hvals]
    exact mergeVals_sorted _ _ hsa hsb
  · rw [hchain]
    exact mergeChains_sublist_left _ ca cb
  · rw [hchain]
    exact mergeChains_sublist_right _ ca cb
  · rw [hchain]
    exact mergeChains_perm _ ca cb

/-- C1: for every pair of well-formed containers and every program of
public operations (push_back/push_front/pop_back/pop_front/insert/erase/
clear/merge/reverse/sort/unique), after running the program each
container still satisfies the invariant: `size()` equals the number of
non-sentinel nodes reached by following `next` links from the head
sentinel to the tail sentinel (`chainIds`), that path is a consistent
doubly-linked chain (`isPath`: each step has `a.next = b` and
`b.prev = a`), and `head->prev` and `tail->next` are null. -/
theorem C1_invariant_preserved [DecidableEq V] [LT V]
    [DecidableRel (α := V) (· < ·)] (s : TwoLists V) (hs : WfTwo s)
    (ops : List (Op V)) :
    (list.size (runOps s ops).A
       = (list.chainIds (runOps s ops).heap (runOps s ops).A).length ∧
     isPath (runOps s ops).heap (runOps s ops).A.head
       (list.chainIds (runOps s ops).heap (runOps s ops).A)
       (runOps s ops).A.tail ∧
     ((runOps s ops).heap.get (runOps s ops).A.head).prev = 0 ∧
     ((runOps s ops).heap.get (runOps s ops).A.tail).next = 0) ∧
    (list.size (runOps s ops).B
       = (list.chainIds (runOps s ops).heap (runOps s ops).B).length ∧
     isPath (runOps s ops).heap (runOps s ops).B.head
       (list.chainIds (runOps s ops).heap (runOps s ops).B)
       (runOps s ops).B.tail ∧
     ((runOps s ops).heap.get (runOps s ops).B.head).prev = 0 ∧
     ((runOps s ops).heap.get (runOps s ops).B.tail).next = 0) := by
  obtain ⟨hW, _⟩ := runOps_wfTwo ops s hs
  obtain ⟨ca, cb, WA, WB, _, _⟩ := hW
  refine ⟨⟨?_, ?_, WA.headPrev, WA.tailNext⟩, ?_, ?_, WB.headPrev, WB.tailNext⟩
  · rw [chainIds_eq WA]
    exact WA.sizeEq
  · rw [chainIds_eq WA]
    exact WA.links
  · rw [chainIds_eq WB]
    exact WB.sizeEq
  · rw [chainIds_eq WB]
    exact WB.links

/-- C8: copy construction (`copyList`) and copy assignment (`assign`
between distinct identities) produce a deep value-wise copy: the copy
holds an equal value sequence, in the construction case in freshly
allocated nodes sharing no cell with the source; and no program of
operations that touch only the source ever changes the copy's handle
(hence its size) or its value sequence. -/
theorem C8_deep_copy_no_aliasing [DecidableEq V] [LT V]
    [DecidableRel (α := V) (· < ·)] :
    (∀ (h : Heap V) (src : ListHandle) (cs : List Nat), Wf h src cs →
      0 < h.nextAlloc →
      list.vals (list.copyList h src).1 (list.copyList h src).2
        = list.vals h src ∧
      ∃ ext, Wf (list.copyList h src).1 (list.copyList h src).2 ext ∧
        ∀ i ∈ full (list.copyList h src).2 ext, i ∉ full src cs) ∧
    (∀ (selfId otherId : Nat), selfId ≠ otherId →
      ∀ (h : Heap V) (Ls Lo : ListHandle) (cs co : List Nat),
      Wf h Ls cs → Wf h Lo co → (∀ i ∈ full Lo co, i ∉ full Ls cs) →
      list.vals (list.assign h selfId otherId Ls Lo).1
        (list.assign h selfId otherId Ls Lo).2 = list.vals h Lo) ∧
    (∀ (s : TwoLists V), WfTwo s → ∀ ops : List (Op V),
      (∀ op ∈ ops, Op.onlyA op) →
      (runOps s ops).B = s.B ∧
      list.vals (runOps s ops).heap (runOps s ops).B
        = list.vals s.heap s.B) := by
  refine ⟨?_, ?_, ?_⟩
  · intro h src cs W hpos
    obtain ⟨ext, W1, hfresh, hfr, hna, hv⟩ := copyList_wf W hpos
    refine ⟨hv, ext, W1, ?_⟩
    intro i hi hc
    have h1 := hfresh i hi
    have h2 := (W.bounds i hc).2
    omega
  · intro selfId otherId hne h Ls Lo cs co Ws Wo disj
    obtain ⟨ext, W1, hh, ht, hfr, hna, hv⟩ := assign_wf selfId otherId hne Ws Wo disj
    exact hv
  · intro s hs ops hall
    exact (runOps_wfTwo ops s hs).2 hall

/-! ## Concrete witness states -/

/-- Two containers in one heap: `A = [1]` (sentinels 1,2, node 5) and
`B = [2]` (sentinels 3,4, node 6). -/
def demoTwo : TwoLists Int :=
  let p1 := list.listNew (emptyHeap Int)
  let p2 := list.listNew p1.1
  let p3 := list.push_back p2.1 p1.2 1
  let p4 := list.push_back p3.1 p2.2 2
  ⟨p4.1, p3.2, p4.2⟩

/-- A program exercising every operation kind. -/
def demoOps : List (Op Int) :=
  [Op.push_backA 3, Op.push_frontA 7, Op.insertA 1 0, Op.eraseA 2,
   Op.pop_backA, Op.push_backA 4, Op.pop_frontA,
   Op.sortA (fun l => l.insertionSort (· ≤ ·)), Op.reverseA, Op.uniqueA,
   Op.push_backB 9, Op.mergeAB, Op.clearA]

/-- `A = [1,3,3,5]` (sentinels 1,2, nodes 5–8) and `B = [2,3,4]`
(sentinels 3,4, nodes 9–11), both ascending. -/
def demoMerge : Heap Int × ListHandle × ListHandle :=
  let p1 := list.listNew (emptyHeap Int)
  let p2 := list.listNew p1.1
  let q1 := list.push_back p2.1 p1.2 1
  let q2 := list.push_back q1.1 q1.2 3
  let q3 := list.push_back q2.1 q2.2 3
  let q4 := list.push_back q3.1 q3.2 5
  let r1 := list.push_back q4.1 p2.2 2
  let r2 := list.push_back r1.1 r1.2 3
  let r3 := list.push_back r2.1 r2.2 4
  (r3.1, q4.2, r3.2)

/-- A single container holding `[5,1,4,2,3]` (sentinels 1,2, nodes 3–7). -/
def demoSort : Heap Int × ListHandle :=
  let p1 := list.listNew (emptyHeap Int)
  let q1 := list.push_back p1.1 p1.2 5
  let q2 := list.push_back q1.1 q1.2 1
  let q3 := list.push_back q2.1 q2.2 4
  let q4 := list.push_back q3.1 q3.2 2
  let q5 := list.push_back q4.1 q4.2 3
  (q5.1, q5.2)

/-- A single container holding `[1,1,2,1,1]` (sentinels 1,2, nodes 3–7). -/
def demoUnique : Heap Int × ListHandle :=
  let p1 := list.listNew (emptyHeap Int)
  let q1 := list.push_back p1.1 p1.2 1
  let q2 := list.push_back q1.1 q1.2 1
  let q3 := list.push_back q2.1 q2.2 2
  let q4 := list.push_back q3.1 q3.2 1
  let q5 := list.push_back q4.1 q4.2 1
  (q5.1, q5.2)

/-- A single container holding `[1,2]` (sentinels 1,2, nodes 3,4). -/
def demoPair : Heap Int × ListHandle :=
  let p1 := list.listNew (emptyHeap Int)
  let q1 := list.push_back p1.1 p1.2 1
  let q2 := list.push_back q1.1 q1.2 2
  (q2.1, q2.2)

/-- C1 at a concrete state and a program exercising every operation. -/
theorem C1_invariant_preserved_witness :
    WfTwo demoTwo ∧
    list.size (runOps demoTwo demoOps).A
      = (list.chainIds (runOps demoTwo demoOps).heap
          (runOps demoTwo demoOps).A).length := by
  have hW : WfTwo demoTwo :=
    ⟨[5], [6], wfCheck_sound demoTwo.heap demoTwo.A [5] (by decide),
      wfCheck_sound demoTwo.heap demoTwo.B [6] (by decide),
      by decide, by decide⟩
  exact ⟨hW, (C1_invariant_preserved demoTwo hW demoOps).1.1⟩

/-- C2 at the claim's example: `A = [1,3,3,5]` (value nodes 5,6,7,8) and
`B = [2,3,4]` (value nodes 9,10,11); the merge is the stable strict-less
value merge, concretely `[1,2,3,3,3,4,5]`, and the resulting node walk is
`[5, 9, 6, 7, 10, 11, 8]` — `B`'s value-3 node (10) comes after both of
`A`'s value-3 nodes (6 and 7), the node-level tie-break of the claim. -/
theorem C2_merge_stable_ascending_witness :
    (list.vals demoMerge.1 demoMerge.2.1 = [1, 3, 3, 5] ∧
     list.vals demoMerge.1 demoMerge.2.2 = [2, 3, 4]) ∧
    list.vals (list.merge demoMerge.1 1 2 demoMerge.2.1 demoMerge.2.2).1
      (list.merge demoMerge.1 1 2 demoMerge.2.1 demoMerge.2.2).2.1
      = mergeVals (list.vals demoMerge.1 demoMerge.2.1)
          (list.vals demoMerge.1 demoMerge.2.2) ∧
    list.chainIds (list.merge demoMerge.1 1 2 demoMerge.2.1 demoMerge.2.2).1
      (list.merge demoMerge.1 1 2 demoMerge.2.1 demoMerge.2.2).2.1
      = mergeChains (fun i => (demoMerge.1.get i).data) [5, 6, 7, 8]
          [9, 10, 11] ∧
    list.chainIds (list.merge demoMerge.1 1 2 demoMerge.2.1 demoMerge.2.2).1
      (list.merge demoMerge.1 1 2 demoMerge.2.1 demoMerge.2.2).2.1
      = [5, 9, 6, 7, 10, 11, 8] ∧
    list.vals (list.merge demoMerge.1 1 2 demoMerge.2.1 demoMerge.2.2).1
      (list.merge demoMerge.1 1 2 demoMerge.2.1 demoMerge.2.2).2.1
      = [1, 2, 3, 3, 3, 4, 5] ∧
    (list.merge demoMerge.1 1 2 demoMerge.2.1 demoMerge.2.2).2.2.list_size
      = 0 := by
  have happ := C2_merge_stable_ascending 1 2 (by decide)
    (wfCheck_sound demoMerge.1 demoMerge.2.1 [5, 6, 7, 8] (by decide))
    (wfCheck_sound demoMerge.1 demoMerge.2.2 [9, 10, 11] (by decide))
    (by decide) (by decide) (by decide)
  exact ⟨by decide, happ.1, happ.2.2.1, by decide, by decide, by decide⟩

/-- C4 at the claim's example `[5,1,4,2,3]` with insertion sort as the
external collaborator: the result is sorted, concretely `[1,2,3,4,5]`. -/
theorem C4_sort_ascending_idempotent_witness :
    (list.vals demoSort.1 demoSort.2 = [5, 1, 4, 2, 3]) ∧
    (list.vals (list.sortOp (fun l => l.insertionSort (· ≤ ·))
        demoSort.1 demoSort.2) demoSort.2).Sorted (· ≤ ·) ∧
    list.vals (list.sortOp (fun l => l.insertionSort (· ≤ ·))
        demoSort.1 demoSort.2) demoSort.2 = [1, 2, 3, 4, 5] := by
  refine ⟨by decide, ?_, by decide⟩
  exact (C4_sort_ascending_idempotent
    (wfCheck_sound demoSort.1 demoSort.2 [3, 4, 5, 6, 7] (by decide))
    (fun l => l.insertionSort (· ≤ ·))
    (fun l => ⟨List.perm_insertionSort _ l, List.sorted_insertionSort _ l⟩)).2.1

/-- C6 at the claim's example `[1,1,2,1,1]`: only consecutive duplicates
go, concretely leaving `[1,2,1]` (not `[1,2]`). -/
theorem C6_unique_consecutive_duplicates_witness :
    (list.vals demoUnique.1 demoUnique.2 = [1, 1, 2, 1, 1]) ∧
    list.vals (list.unique demoUnique.1 1 demoUnique.2).1
      (list.unique demoUnique.1 1 demoUnique.2).2
      = (list.vals demoUnique.1 demoUnique.2).destutter (fun x y => x ≠ y) ∧
    list.vals (list.unique demoUnique.1 1 demoUnique.2).1
      (list.unique demoUnique.1 1 demoUnique.2).2 = [1, 2, 1] := by
  refine ⟨by decide, ?_, by decide⟩
  exact (C6_unique_consecutive_duplicates 1
    (wfCheck_sound demoUnique.1 demoUnique.2 [3, 4, 5, 6, 7] (by decide))).1

/-- C7 at the container `[1,2]`: one reversal yields `[2,1]`, and the
double reversal restores the original values. -/
theorem C7_reverse_involution_witness :
    (list.vals demoPair.1 demoPair.2 = [1, 2]) ∧
    list.vals (list.reverse demoPair.1 demoPair.2).1
      (list.reverse demoPair.1 demoPair.2).2
      = (list.vals demoPair.1 demoPair.2).reverse ∧
    list.vals (list.reverse demoPair.1 demoPair.2).1
      (list.reverse demoPair.1 demoPair.2).2 = [2, 1] := by
  refine ⟨by decide, ?_, by decide⟩
  exact (C7_reverse_involution
    (wfCheck_sound demoPair.1 demoPair.2 [3, 4] (by decide))).1

end SjtuList
